import Mathlib

/-!
# Verification of the graph traversal and topological-ordering module

Shallow embedding of the repository's graph algorithms:
  * `01_bfs_undirected.py` : `bfs_undirected`, `bfs_undirected_all_components`
  * `02_dfs_undirected.py` : `dfs_undirected_recursive`, `dfs_undirected_iterative`,
    `dfs_undirected_all_components`
  * `03_bfs_directed.py`   : `bfs_directed`, `bfs_directed_all_reachable`
  * `04_dfs_directed.py`   : `dfs_directed_recursive`, `dfs_directed_iterative`,
    `dfs_directed_all_components`
  * `05_topological_sort.py` : `topological_sort_dfs`, `topological_sort_kahn`

A graph is a `List (List Nat)`: the adjacency lists of vertices `0..n-1`.
Python loops are embedded as fuel-indexed recursions; the fuel supplied by
each top-level wrapper is proved sufficient under the documented
preconditions (every adjacency entry in `[0, n)`), so the embedded loop
runs exactly as long as the Python `while` loop does.  Out-of-range list
reads — which raise `IndexError` in Python — are modelled with `getD`
defaults chosen so that the access is a no-op; the safety claim shows that
under the preconditions no such access ever happens, by exhibiting
bound-checking variants that return `none` on any out-of-range index and
proving them equal to `some` of the unchecked functions.
-/

namespace Hards

/-- The directed edge relation of an adjacency-list graph:
`Edge g a b` holds when `b` occurs in the adjacency list of `a`. -/
def Edge (g : List (List Nat)) (a b : Nat) : Prop :=
  b ∈ g.getD a []

/-- The caller-side well-formedness contract of §3 of the spec: the graph has
exactly one adjacency list per vertex and every neighbor index is in `[0, n)`. -/
def GraphOK (g : List (List Nat)) (n : Nat) : Prop :=
  g.length = n ∧ ∀ l ∈ g, ∀ u ∈ l, u < n

instance (g : List (List Nat)) (n : Nat) : Decidable (GraphOK g n) := by
  unfold GraphOK
  infer_instance

/-- `b` is reachable from `a` along directed edges (reflexive-transitive closure). -/
def Reach (g : List (List Nat)) (a b : Nat) : Prop :=
  Relation.ReflTransGen (Edge g) a b

/-- The graph contains a directed cycle: some vertex reaches itself by a
nonempty edge path. -/
def HasCycle (g : List (List Nat)) : Prop :=
  ∃ v, Relation.TransGen (Edge g) v v

/-! ## BFS (`01_bfs_undirected.py`, `03_bfs_directed.py`)

The `while queue:` loop shared by all four BFS entry points.  State:
`visited` array, FIFO `queue` (head = front), accumulated `order`.
One fuel unit is consumed per loop iteration; `countFalse visited + queue.length`
decreases by exactly one per iteration, so the fuel passed by the wrappers
(`n`, resp. the count at seed time) lasts until the queue empties. -/

/-- Number of `false` entries of a visited array. -/
def countFalse (l : List Bool) : Nat := l.count false

/-- Processing of the neighbor list of a dequeued vertex:
`for u in graph[v]: if not visited[u]: visited[u] = True; queue.append(u)`.
The second component collects the newly enqueued vertices in adjacency order. -/
def bfsScan (visited : List Bool) : List Nat → List Bool × List Nat
  | [] => (visited, [])
  | u :: adj =>
    if visited.getD u true then bfsScan visited adj
    else
      let s := bfsScan (visited.set u true) adj
      (s.1, u :: s.2)

/-- The BFS `while queue:` loop. -/
def bfsLoop (g : List (List Nat)) :
    Nat → List Bool → List Nat → List Nat → List Bool × List Nat
  | 0, visited, _, order => (visited, order)
  | _ + 1, visited, [], order => (visited, order)
  | fuel + 1, visited, v :: rest, order =>
    let s := bfsScan visited (g.getD v [])
    bfsLoop g fuel s.1 (rest ++ s.2) (order ++ [v])

/-- `bfs_undirected(graph, start, n)` from `01_bfs_undirected.py`. -/
def bfs_undirected (g : List (List Nat)) (start n : Nat) : List Nat :=
  (bfsLoop g n ((List.replicate n false).set start true) [start] []).2

/-- `bfs_directed(graph, start, n)` from `03_bfs_directed.py` (same code). -/
def bfs_directed (g : List (List Nat)) (start n : Nat) : List Nat :=
  (bfsLoop g n ((List.replicate n false).set start true) [start] []).2

/-- The `for start in range(n)` loop of `bfs_undirected_all_components`,
threading the visited array through the per-component BFS runs. -/
def bfsAllLoop (g : List (List Nat)) (n : Nat) :
    List Nat → List Bool → List Nat → List Bool × List Nat
  | [], visited, order => (visited, order)
  | start :: starts, visited, order =>
    if visited.getD start true then bfsAllLoop g n starts visited order
    else
      let s := bfsLoop g n (visited.set start true) [start] order
      bfsAllLoop g n starts s.1 s.2

/-- `bfs_undirected_all_components(graph, n)` from `01_bfs_undirected.py`. -/
def bfs_undirected_all_components (g : List (List Nat)) (n : Nat) : List Nat :=
  (bfsAllLoop g n (List.range n) (List.replicate n false) []).2

/-- `bfs_directed_all_reachable(graph, n)` from `03_bfs_directed.py` (same code). -/
def bfs_directed_all_reachable (g : List (List Nat)) (n : Nat) : List Nat :=
  (bfsAllLoop g n (List.range n) (List.replicate n false) []).2

/-! ## DFS, recursive (`02_dfs_undirected.py` / `04_dfs_directed.py`)

`dfs_*_recursive(graph, start, visited, order)` mutates `visited` and
`order` in place; the embedding returns the pair of final values.  The
recursion depth is bounded by `countFalse visited + 1` (each nested call is
made on an unvisited vertex, which it marks on entry), which is the fuel
supplied by the wrappers. -/

/-- The `for u in graph[start]` loop of the recursive DFS: `f` is the
recursive call made on each still-unvisited neighbor. -/
def dfsScan (f : Nat → List Bool → List Nat → List Bool × List Nat) :
    List Nat → List Bool → List Nat → List Bool × List Nat
  | [], visited, order => (visited, order)
  | u :: adj, visited, order =>
    if visited.getD u true then dfsScan f adj visited order
    else
      let s := f u visited order
      dfsScan f adj s.1 s.2

/-- Fuel-indexed body of the recursive DFS: mark `start` visited, append it
to `order` (pre-order), then recurse into each unvisited neighbor. -/
def dfsRec (g : List (List Nat)) :
    Nat → Nat → List Bool → List Nat → List Bool × List Nat
  | 0, start, visited, order => (visited.set start true, order ++ [start])
  | fuel + 1, start, visited, order =>
    dfsScan (dfsRec g fuel) (g.getD start []) (visited.set start true)
      (order ++ [start])

/-- `dfs_undirected_recursive(graph, start, visited, order)` from
`02_dfs_undirected.py`; the result pair is the final contents of the two
mutated arguments. -/
def dfs_undirected_recursive (g : List (List Nat)) (start : Nat)
    (visited : List Bool) (order : List Nat) : List Bool × List Nat :=
  dfsRec g (countFalse visited + 1) start visited order

/-- `dfs_directed_recursive` from `04_dfs_directed.py` (same code). -/
def dfs_directed_recursive (g : List (List Nat)) (start : Nat)
    (visited : List Bool) (order : List Nat) : List Bool × List Nat :=
  dfsRec g (countFalse visited + 1) start visited order

/-! ## DFS, iterative (`02_dfs_undirected.py` / `04_dfs_directed.py`)

The explicit stack is a list with its head as the top.  `stack.pop()`
takes the head; `stack.append(u)` for `u in reversed(graph[v])` conses each
`u`, so after the loop the unvisited neighbors sit on the stack in forward
adjacency order.  Lazy deletion: a popped vertex already visited is
discarded.  Fuel: each iteration either pops a visited vertex (stack
shrinks) or marks one vertex and pushes at most `totalAdj g` entries, so
`n * (totalAdj g + 1) + 1` units outlast the loop. -/

/-- Total number of adjacency entries of the graph. -/
def totalAdj (g : List (List Nat)) : Nat := (g.map List.length).sum

/-- The DFS `while stack:` loop. -/
def dfsLoop (g : List (List Nat)) :
    Nat → List Bool → List Nat → List Nat → List Bool × List Nat
  | 0, visited, _, order => (visited, order)
  | _ + 1, visited, [], order => (visited, order)
  | fuel + 1, visited, v :: rest, order =>
    if visited.getD v true then dfsLoop g fuel visited rest order
    else
      let visited' := visited.set v true
      let stack' := (g.getD v []).reverse.foldl
        (fun st u => if visited'.getD u true then st else u :: st) rest
      dfsLoop g fuel visited' stack' (order ++ [v])

/-- `dfs_undirected_iterative(graph, start, n)` from `02_dfs_undirected.py`. -/
def dfs_undirected_iterative (g : List (List Nat)) (start n : Nat) : List Nat :=
  (dfsLoop g (n * (totalAdj g + 1) + 1) (List.replicate n false) [start] []).2

/-- `dfs_directed_iterative(graph, start, n)` from `04_dfs_directed.py` (same code). -/
def dfs_directed_iterative (g : List (List Nat)) (start n : Nat) : List Nat :=
  (dfsLoop g (n * (totalAdj g + 1) + 1) (List.replicate n false) [start] []).2

/-- The `for start in range(n)` loop of `dfs_*_all_components`, whose inner
`dfs` closure is the recursive DFS body sharing `visited` and `order`. -/
def dfsAllLoop (g : List (List Nat)) :
    List Nat → List Bool → List Nat → List Bool × List Nat
  | [], visited, order => (visited, order)
  | start :: starts, visited, order =>
    if visited.getD start true then dfsAllLoop g starts visited order
    else
      let s := dfsRec g (countFalse visited + 1) start visited order
      dfsAllLoop g starts s.1 s.2

/-- `dfs_undirected_all_components(graph, n)` from `02_dfs_undirected.py`. -/
def dfs_undirected_all_components (g : List (List Nat)) (n : Nat) : List Nat :=
  (dfsAllLoop g (List.range n) (List.replicate n false) []).2

/-- `dfs_directed_all_components(graph, n)` from `04_dfs_directed.py` (same code). -/
def dfs_directed_all_components (g : List (List Nat)) (n : Nat) : List Nat :=
  (dfsAllLoop g (List.range n) (List.replicate n false) []).2

/-! ## Topological sort, DFS three-coloring (`05_topological_sort.py`)

Colors: `0 = WHITE`, `1 = GRAY`, `2 = BLACK`.  The inner `dfs(v)` returns
`False` on a GRAY neighbor (cycle); the embedding returns `none` in that
case and `some (color, result)` on success.  Recursion depth is bounded by
the number of WHITE vertices plus one, the fuel supplied at each call site. -/

/-- Number of WHITE entries of a color array. -/
def countWhite (color : List Nat) : Nat := color.count 0

/-- The `for u in graph[v]` loop of the inner `dfs(v)`: a GRAY neighbor
returns `False` (here `none`), a WHITE neighbor is recursed into via `f`,
a BLACK neighbor is skipped. -/
def topoScan (f : Nat → List Nat → List Nat → Option (List Nat × List Nat)) :
    List Nat → List Nat → List Nat → Option (List Nat × List Nat)
  | [], color, result => some (color, result)
  | u :: adj, color, result =>
    if color.getD u 2 = 1 then none
    else if color.getD u 2 = 0 then
      match f u color result with
      | none => none
      | some s => topoScan f adj s.1 s.2
    else topoScan f adj color result

/-- The inner `dfs(v)` of `topological_sort_dfs`: colors `v` GRAY, scans its
neighbors (GRAY neighbor ⇒ failure, WHITE neighbor ⇒ recurse), then colors
`v` BLACK and appends it to the post-order `result`. -/
def topoVisit (g : List (List Nat)) :
    Nat → Nat → List Nat → List Nat → Option (List Nat × List Nat)
  | 0, _, _, _ => none
  | fuel + 1, v, color, result =>
    match topoScan (topoVisit g fuel) (g.getD v []) (color.set v 1) result with
    | none => none
    | some s => some ((s.1.set v 2, s.2 ++ [v]) : List Nat × List Nat)

/-- The `for start in range(n)` loop of `topological_sort_dfs`. -/
def topoLoop (g : List (List Nat)) :
    List Nat → List Nat → List Nat → Option (List Nat)
  | [], _, result => some result.reverse
  | start :: starts, color, result =>
    if color.getD start 2 = 0 then
      match topoVisit g (countWhite color + 1) start color result with
      | none => none
      | some s => topoLoop g starts s.1 s.2
    else topoLoop g starts color result

/-- `topological_sort_dfs(graph, n)` from `05_topological_sort.py`;
`none` models the Python `None` (cycle detected), and the success value is
the reverse of the accumulated post-order. -/
def topological_sort_dfs (g : List (List Nat)) (n : Nat) : Option (List Nat) :=
  topoLoop g (List.range n) (List.replicate n 0) []

/-! ## Topological sort, Kahn (`05_topological_sort.py`)

`in_degree` is a `List Int` (Python integers may go negative after `-= 1`).
The Python work list `queue` with read index `idx` behaves as a FIFO queue:
the embedding keeps the unread suffix `queue[idx:]` and appends at its end.
Fuel `n` suffices: the measure `pending.length + #{v | in_degree v > 0}`
decreases by exactly one per iteration and starts at `n`. -/

/-- The inner `for u in graph[v]: in_degree[u] += 1` loop. -/
def inDegScan (d : List Int) : List Nat → List Int
  | [] => d
  | u :: adj => inDegScan (d.set u (d.getD u 0 + 1)) adj

/-- The outer `for v in range(n)` loop of the in-degree computation. -/
def inDegLoop (g : List (List Nat)) : List Nat → List Int → List Int
  | [], d => d
  | v :: vs, d => inDegLoop g vs (inDegScan d (g.getD v []))

/-- The in-degree table: `for v in range(n): for u in graph[v]: in_degree[u] += 1`. -/
def inDegree (g : List (List Nat)) (n : Nat) : List Int :=
  inDegLoop g (List.range n) (List.replicate n (0 : Int))

/-- Neighbor processing of a popped vertex `v`:
`in_degree[u] -= 1; if in_degree[u] == 0: queue.append(u)`.
The second component collects the newly enqueued vertices. -/
def kahnScan (deg : List Int) : List Nat → List Int × List Nat
  | [] => (deg, [])
  | u :: adj =>
    let d := deg.set u (deg.getD u 0 - 1)
    let s := kahnScan d adj
    (s.1, if d.getD u 1 = 0 then u :: s.2 else s.2)

/-- The `while idx < len(queue):` loop of `topological_sort_kahn`. -/
def kahnLoop (g : List (List Nat)) :
    Nat → List Int → List Nat → List Nat → List Nat
  | 0, _, _, result => result
  | _ + 1, _, [], result => result
  | fuel + 1, deg, v :: pending, result =>
    let s := kahnScan deg (g.getD v [])
    kahnLoop g fuel s.1 (pending ++ s.2) (result ++ [v])

/-- `topological_sort_kahn(graph, n)` from `05_topological_sort.py`. -/
def topological_sort_kahn (g : List (List Nat)) (n : Nat) : Option (List Nat) :=
  let deg := inDegree g n
  let queue := (List.range n).filter (fun v => deg.getD v 0 = 0)
  let result := kahnLoop g n deg queue []
  if result.length = n then some result else none

/-! ## BFS distance layers (specification side, for the layering claim)

`ballList g s k` lists (with repetitions) exactly the vertices whose
BFS-distance from `s` is at most `k`; it is the `k`-fold neighbor expansion
of `{s}`.  "`v` is at distance ≤ k" is `v ∈ ballList g s k`. -/

/-- The vertices at distance at most `k` from `s` (as a list with possible
repetitions; only membership matters). -/
def ballList (g : List (List Nat)) (s : Nat) : Nat → List Nat
  | 0 => [s]
  | k + 1 =>
    let b := ballList g s k
    b ++ b.flatMap (fun w => g.getD w [])

/-- "The BFS-distance of `a` is at most that of `b`": every ball containing
`b` contains `a`. -/
def ballLE (g : List (List Nat)) (s : Nat) (a b : Nat) : Prop :=
  ∀ k, b ∈ ballList g s k → a ∈ ballList g s k

/-- `v` is at BFS-distance exactly `k` from `s`. -/
def layerAt (g : List (List Nat)) (s : Nat) (k v : Nat) : Prop :=
  v ∈ ballList g s k ∧ ∀ j, j < k → v ∉ ballList g s j

/-- Number of edges from vertices of `l` (with multiplicity, one term per
occurrence in `l`) into `u` — the specification-side in-degree bookkeeping. -/
def edgesInto (g : List (List Nat)) (l : List Nat) (u : Nat) : Nat :=
  (l.map (fun a => (g.getD a []).count u)).sum

/-- The state invariant of the three-color topological sort: the BLACK
vertices are exactly the post-order `result` entries (duplicate-free, in
range), and every successor of a finished vertex finished strictly before
it. -/
def TopoInv (g : List (List Nat)) (n : Nat) (color : List Nat)
    (result : List Nat) : Prop :=
  (∀ w, w < n → (color.getD w 2 = 2 ↔ w ∈ result)) ∧
  result.Nodup ∧
  (∀ w ∈ result, w < n) ∧
  (∀ a ∈ result, ∀ b ∈ g.getD a [],
    b ∈ result ∧ result.indexOf b < result.indexOf a)

/-! ## Bound-checking variants

Each Python list access `xs[i]` raises `IndexError` when `i` is out of
range.  The following variants perform exactly the same computation as the
functions above but test every index before the access and return `none` the
moment a test fails — they are the faithful image of the Python runtime
behavior.  The safety claim states that, under the documented preconditions,
each checked variant returns `some` of its unchecked counterpart. -/

/-- `bfsScan` with index checks on every `visited[u]` access. -/
def bfsScanChecked (visited : List Bool) : List Nat → Option (List Bool × List Nat)
  | [] => some (visited, [])
  | u :: adj =>
    if u < visited.length then
      if visited.getD u true then bfsScanChecked visited adj
      else
        match bfsScanChecked (visited.set u true) adj with
        | none => none
        | some s => some (s.1, u :: s.2)
    else none

/-- `bfsLoop` with an index check on every `graph[v]` access. -/
def bfsLoopChecked (g : List (List Nat)) :
    Nat → List Bool → List Nat → List Nat → Option (List Bool × List Nat)
  | 0, visited, _, order => some (visited, order)
  | _ + 1, visited, [], order => some (visited, order)
  | fuel + 1, visited, v :: rest, order =>
    if v < g.length then
      match bfsScanChecked visited (g.getD v []) with
      | none => none
      | some s => bfsLoopChecked g fuel s.1 (rest ++ s.2) (order ++ [v])
    else none

/-- `bfs_undirected` with index checks (the seeding write `visited[start] = True`
is checked, then the loop). -/
def bfs_undirected_checked (g : List (List Nat)) (start n : Nat) : Option (List Nat) :=
  if start < n then
    match bfsLoopChecked g n ((List.replicate n false).set start true) [start] [] with
    | none => none
    | some s => some s.2
  else none

/-- `bfsAllLoop` with index checks. -/
def bfsAllLoopChecked (g : List (List Nat)) (n : Nat) :
    List Nat → List Bool → List Nat → Option (List Bool × List Nat)
  | [], visited, order => some (visited, order)
  | start :: starts, visited, order =>
    if start < visited.length then
      if visited.getD start true then bfsAllLoopChecked g n starts visited order
      else
        match bfsLoopChecked g n (visited.set start true) [start] order with
        | none => none
        | some s => bfsAllLoopChecked g n starts s.1 s.2
    else none

/-- `bfs_undirected_all_components` with index checks. -/
def bfs_undirected_all_components_checked (g : List (List Nat)) (n : Nat) :
    Option (List Nat) :=
  match bfsAllLoopChecked g n (List.range n) (List.replicate n false) [] with
  | none => none
  | some s => some s.2

/-- The push loop of the iterative DFS with index checks: iterates over the
already-reversed adjacency list, pushing each unvisited neighbor. -/
def dfsPushChecked (visited : List Bool) : List Nat → List Nat → Option (List Nat)
  | [], st => some st
  | u :: us, st =>
    if u < visited.length then
      dfsPushChecked visited us (if visited.getD u true then st else u :: st)
    else none

/-- `dfsLoop` with index checks on `visited[v]`, `graph[v]` and `visited[u]`. -/
def dfsLoopChecked (g : List (List Nat)) :
    Nat → List Bool → List Nat → List Nat → Option (List Bool × List Nat)
  | 0, visited, _, order => some (visited, order)
  | _ + 1, visited, [], order => some (visited, order)
  | fuel + 1, visited, v :: rest, order =>
    if v < visited.length then
      if visited.getD v true then dfsLoopChecked g fuel visited rest order
      else if v < g.length then
        let visited' := visited.set v true
        match dfsPushChecked visited' (g.getD v []).reverse rest with
        | none => none
        | some stack' => dfsLoopChecked g fuel visited' stack' (order ++ [v])
      else none
    else none

/-- `dfs_undirected_iterative` with index checks. -/
def dfs_undirected_iterative_checked (g : List (List Nat)) (start n : Nat) :
    Option (List Nat) :=
  match dfsLoopChecked g (n * (totalAdj g + 1) + 1) (List.replicate n false) [start] [] with
  | none => none
  | some s => some s.2

/-- `dfsScan` with index checks on every `visited[u]` access. -/
def dfsScanChecked (f : Nat → List Bool → List Nat → Option (List Bool × List Nat)) :
    List Nat → List Bool → List Nat → Option (List Bool × List Nat)
  | [], visited, order => some (visited, order)
  | u :: adj, visited, order =>
    if u < visited.length then
      if visited.getD u true then dfsScanChecked f adj visited order
      else
        match f u visited order with
        | none => none
        | some s => dfsScanChecked f adj s.1 s.2
    else none

/-- `dfsRec` with index checks on `visited[start]` and `graph[start]`. -/
def dfsRecChecked (g : List (List Nat)) :
    Nat → Nat → List Bool → List Nat → Option (List Bool × List Nat)
  | 0, start, visited, order => some (visited.set start true, order ++ [start])
  | fuel + 1, start, visited, order =>
    if start < visited.length then
      if start < g.length then
        dfsScanChecked (dfsRecChecked g fuel) (g.getD start [])
          (visited.set start true) (order ++ [start])
      else none
    else none

/-- `dfsAllLoop` with index checks. -/
def dfsAllLoopChecked (g : List (List Nat)) :
    List Nat → List Bool → List Nat → Option (List Bool × List Nat)
  | [], visited, order => some (visited, order)
  | start :: starts, visited, order =>
    if start < visited.length then
      if visited.getD start true then dfsAllLoopChecked g starts visited order
      else
        match dfsRecChecked g (countFalse visited + 1) start visited order with
        | none => none
        | some s => dfsAllLoopChecked g starts s.1 s.2
    else none

/-- `dfs_undirected_all_components` with index checks. -/
def dfs_undirected_all_components_checked (g : List (List Nat)) (n : Nat) :
    Option (List Nat) :=
  match dfsAllLoopChecked g (List.range n) (List.replicate n false) [] with
  | none => none
  | some s => some s.2

/-- `topoScan` with index checks; outer `none` is an index error, inner
`some none` is the cycle signal. -/
def topoScanChecked
    (f : Nat → List Nat → List Nat → Option (Option (List Nat × List Nat))) :
    List Nat → List Nat → List Nat → Option (Option (List Nat × List Nat))
  | [], color, result => some (some (color, result))
  | u :: adj, color, result =>
    if u < color.length then
      if color.getD u 2 = 1 then some none
      else if color.getD u 2 = 0 then
        match f u color result with
        | none => none
        | some none => some none
        | some (some s) => topoScanChecked f adj s.1 s.2
      else topoScanChecked f adj color result
    else none

/-- `topoVisit` with index checks on `color[v]` (GRAY write), `graph[v]`
and `color[v]` (BLACK write). -/
def topoVisitChecked (g : List (List Nat)) :
    Nat → Nat → List Nat → List Nat → Option (Option (List Nat × List Nat))
  | 0, _, _, _ => some none
  | fuel + 1, v, color, result =>
    if v < color.length then
      if v < g.length then
        match topoScanChecked (topoVisitChecked g fuel) (g.getD v [])
            (color.set v 1) result with
        | none => none
        | some none => some none
        | some (some s) =>
          if v < s.1.length then some (some (s.1.set v 2, s.2 ++ [v])) else none
      else none
    else none

/-- `topoLoop` with index checks. -/
def topoLoopChecked (g : List (List Nat)) :
    List Nat → List Nat → List Nat → Option (Option (List Nat))
  | [], _, result => some (some result.reverse)
  | start :: starts, color, result =>
    if start < color.length then
      if color.getD start 2 = 0 then
        match topoVisitChecked g (countWhite color + 1) start color result with
        | none => none
        | some none => some none
        | some (some s) => topoLoopChecked g starts s.1 s.2
      else topoLoopChecked g starts color result
    else none

/-- `topological_sort_dfs` with index checks. -/
def topological_sort_dfs_checked (g : List (List Nat)) (n : Nat) :
    Option (Option (List Nat)) :=
  topoLoopChecked g (List.range n) (List.replicate n 0) []

/-- `inDegScan` with index checks on every `in_degree[u]` access. -/
def inDegScanChecked (d : List Int) : List Nat → Option (List Int)
  | [] => some d
  | u :: adj =>
    if u < d.length then inDegScanChecked (d.set u (d.getD u 0 + 1)) adj
    else none

/-- `inDegLoop` with index checks on every `graph[v]` access. -/
def inDegLoopChecked (g : List (List Nat)) : List Nat → List Int → Option (List Int)
  | [], d => some d
  | v :: vs, d =>
    if v < g.length then
      match inDegScanChecked d (g.getD v []) with
      | none => none
      | some d' => inDegLoopChecked g vs d'
    else none

/-- `kahnScan` with index checks on every `in_degree[u]` access. -/
def kahnScanChecked (deg : List Int) : List Nat → Option (List Int × List Nat)
  | [] => some (deg, [])
  | u :: adj =>
    if u < deg.length then
      let d := deg.set u (deg.getD u 0 - 1)
      match kahnScanChecked d adj with
      | none => none
      | some s => some (s.1, if d.getD u 1 = 0 then u :: s.2 else s.2)
    else none

/-- `kahnLoop` with index checks on every `graph[v]` access. -/
def kahnLoopChecked (g : List (List Nat)) :
    Nat → List Int → List Nat → List Nat → Option (List Nat)
  | 0, _, _, result => some result
  | _ + 1, _, [], result => some result
  | fuel + 1, deg, v :: pending, result =>
    if v < g.length then
      match kahnScanChecked deg (g.getD v []) with
      | none => none
      | some s => kahnLoopChecked g fuel s.1 (pending ++ s.2) (result ++ [v])
    else none

/-- `topological_sort_kahn` with index checks (the seed comprehension reads
`in_degree[v]` for every `v in range(n)`). -/
def topological_sort_kahn_checked (g : List (List Nat)) (n : Nat) :
    Option (Option (List Nat)) :=
  match inDegLoopChecked g (List.range n) (List.replicate n (0 : Int)) with
  | none => none
  | some deg =>
    if (List.range n).all (fun v => decide (v < deg.length)) then
      let queue := (List.range n).filter (fun v => deg.getD v 0 = 0)
      match kahnLoopChecked g n deg queue [] with
      | none => none
      | some result =>
        some (if result.length = n then some result else none)
    else none

/-! # Lemmas and claim theorems -/

/-! ## Basic list facts -/

theorem getD_set_eq {α : Type} (l : List α) (v : Nat) (a d : α) (h : v < l.length) :
    (l.set v a).getD v d = a := by
  rw [List.getD_eq_getElem?_getD, List.getElem?_set_self (by simpa using h)]
  rfl

theorem getD_set_ne {α : Type} (l : List α) (v w : Nat) (a d : α) (h : w ≠ v) :
    (l.set v a).getD w d = l.getD w d := by
  rw [List.getD_eq_getElem?_getD, List.getD_eq_getElem?_getD,
    List.getElem?_set_ne (by omega)]

theorem getD_of_length_le {α : Type} (l : List α) (v : Nat) (d : α)
    (h : l.length ≤ v) : l.getD v d = d := by
  rw [List.getD_eq_getElem?_getD, List.getElem?_eq_none (by simpa using h)]
  rfl

theorem lt_length_of_getD_false (l : List Bool) (v : Nat)
    (h : l.getD v true = false) : v < l.length := by
  by_contra hc
  rw [getD_of_length_le l v true (by omega)] at h
  exact absurd h (by simp)

theorem getD_set_true_self (l : List Bool) (v : Nat) :
    (l.set v true).getD v true = true := by
  rcases lt_or_ge v l.length with h | h
  · exact getD_set_eq l v true true h
  · rw [getD_of_length_le _ v true (by simpa using h)]

theorem visited_mono_set (l : List Bool) (v w : Nat) (h : l.getD w true = true) :
    (l.set v true).getD w true = true := by
  rcases eq_or_ne w v with rfl | hne
  · exact getD_set_true_self l w
  · rw [getD_set_ne l v w true true hne]; exact h

theorem count_set_of_getD {α : Type} [DecidableEq α] :
    ∀ (l : List α) (v : Nat) (a b d : α), l.getD v d = b → b ≠ d → a ≠ b →
      (l.set v a).count b + 1 = l.count b
  | [], v, a, b, d, h, hbd, _ => by
    rw [getD_of_length_le [] v d (by simp)] at h
    exact absurd h.symm hbd
  | x :: l, 0, a, b, d, h, hbd, hab => by
    simp only [List.getD_cons_zero] at h
    subst h
    simp [List.count_cons, hab]
  | x :: l, v + 1, a, b, d, h, hbd, hab => by
    simp only [List.getD_cons_succ] at h
    have := count_set_of_getD l v a b d h hbd hab
    simp only [List.set_cons_succ, List.count_cons]
    omega

theorem count_set_le {α : Type} [DecidableEq α] :
    ∀ (l : List α) (v : Nat) (a b : α), a ≠ b → (l.set v a).count b ≤ l.count b
  | [], _, _, _, _ => le_refl _
  | x :: l, 0, a, b, hab => by simp [List.count_cons, hab]
  | x :: l, v + 1, a, b, hab => by
    simp only [List.set_cons_succ, List.count_cons]
    have := count_set_le l v a b hab
    omega

theorem countFalse_set_true (l : List Bool) (v : Nat)
    (h : l.getD v true = false) : countFalse (l.set v true) + 1 = countFalse l :=
  count_set_of_getD l v true false true h (by simp) (by simp)

theorem countFalse_set_true_le (l : List Bool) (v : Nat) :
    countFalse (l.set v true) ≤ countFalse l :=
  count_set_le l v true false (by simp)

/-! ## Monotonicity of the visited array (claim C8 machinery) -/

theorem bfsScan_visited_mono :
    ∀ (adj : List Nat) (visited : List Bool) (w : Nat),
      visited.getD w true = true → ((bfsScan visited adj).1).getD w true = true
  | [], visited, w, hw => hw
  | u :: adj, visited, w, hw => by
    simp only [bfsScan]
    split
    · exact bfsScan_visited_mono adj visited w hw
    · exact bfsScan_visited_mono adj (visited.set u true) w (visited_mono_set _ _ _ hw)

theorem bfsLoop_visited_mono (g : List (List Nat)) :
    ∀ (fuel : Nat) (visited : List Bool) (queue order : List Nat) (w : Nat),
      visited.getD w true = true →
      ((bfsLoop g fuel visited queue order).1).getD w true = true
  | 0, visited, _, order, w, hw => hw
  | _ + 1, visited, [], order, w, hw => hw
  | fuel + 1, visited, v :: rest, order, w, hw => by
    simp only [bfsLoop]
    exact bfsLoop_visited_mono g fuel _ _ _ w (bfsScan_visited_mono _ visited w hw)

theorem bfsAllLoop_visited_mono (g : List (List Nat)) (n : Nat) :
    ∀ (starts : List Nat) (visited : List Bool) (order : List Nat) (w : Nat),
      visited.getD w true = true →
      ((bfsAllLoop g n starts visited order).1).getD w true = true
  | [], visited, order, w, hw => hw
  | start :: starts, visited, order, w, hw => by
    simp only [bfsAllLoop]
    split
    · exact bfsAllLoop_visited_mono g n starts visited order w hw
    · exact bfsAllLoop_visited_mono g n starts _ _ w
        (bfsLoop_visited_mono g n _ _ _ w (visited_mono_set _ _ _ hw))

theorem dfsLoop_visited_mono (g : List (List Nat)) :
    ∀ (fuel : Nat) (visited : List Bool) (stack order : List Nat) (w : Nat),
      visited.getD w true = true →
      ((dfsLoop g fuel visited stack order).1).getD w true = true
  | 0, visited, _, order, w, hw => hw
  | _ + 1, visited, [], order, w, hw => hw
  | fuel + 1, visited, v :: rest, order, w, hw => by
    simp only [dfsLoop]
    split
    · exact dfsLoop_visited_mono g fuel visited rest order w hw
    · exact dfsLoop_visited_mono g fuel (visited.set v true) _ _ w
        (visited_mono_set _ _ _ hw)

theorem dfsScan_visited_mono
    (f : Nat → List Bool → List Nat → List Bool × List Nat)
    (hf : ∀ u visited order w, visited.getD w true = true →
      ((f u visited order).1).getD w true = true) :
    ∀ (adj : List Nat) (visited : List Bool) (order : List Nat) (w : Nat),
      visited.getD w true = true →
      ((dfsScan f adj visited order).1).getD w true = true
  | [], visited, order, w, hw => hw
  | u :: adj, visited, order, w, hw => by
    simp only [dfsScan]
    split
    · exact dfsScan_visited_mono f hf adj visited order w hw
    · exact dfsScan_visited_mono f hf adj _ _ w (hf u visited order w hw)

theorem dfsRec_visited_mono (g : List (List Nat)) :
    ∀ (fuel start : Nat) (visited : List Bool) (order : List Nat) (w : Nat),
      visited.getD w true = true →
      ((dfsRec g fuel start visited order).1).getD w true = true
  | 0, start, visited, order, w, hw => visited_mono_set _ _ _ hw
  | fuel + 1, start, visited, order, w, hw => by
    simp only [dfsRec]
    exact dfsScan_visited_mono (dfsRec g fuel)
      (fun u vis ord x hx => dfsRec_visited_mono g fuel u vis ord x hx)
      (g.getD start []) (visited.set start true) (order ++ [start]) w
      (visited_mono_set _ _ _ hw)

theorem dfsAllLoop_visited_mono (g : List (List Nat)) :
    ∀ (starts : List Nat) (visited : List Bool) (order : List Nat) (w : Nat),
      visited.getD w true = true →
      ((dfsAllLoop g starts visited order).1).getD w true = true
  | [], visited, order, w, hw => hw
  | start :: starts, visited, order, w, hw => by
    simp only [dfsAllLoop]
    split
    · exact dfsAllLoop_visited_mono g starts visited order w hw
    · exact dfsAllLoop_visited_mono g starts _ _ w
        (dfsRec_visited_mono g _ start visited order w hw)

/-- C8: within a single traversal invocation (BFS, iterative DFS, or the
all-components variants), the visited mapping is monotone — an entry that is
`true` is still `true` after any number of further loop steps, since every
intermediate state of a run is itself a valid starting state of these loops. -/
theorem C8_visited_monotone (g : List (List Nat)) :
    (∀ (fuel : Nat) (visited : List Bool) (queue order : List Nat) (w : Nat),
      visited.getD w true = true →
      ((bfsLoop g fuel visited queue order).1).getD w true = true) ∧
    (∀ (fuel : Nat) (visited : List Bool) (stack order : List Nat) (w : Nat),
      visited.getD w true = true →
      ((dfsLoop g fuel visited stack order).1).getD w true = true) ∧
    (∀ (n : Nat) (starts : List Nat) (visited : List Bool) (order : List Nat) (w : Nat),
      visited.getD w true = true →
      ((bfsAllLoop g n starts visited order).1).getD w true = true) ∧
    (∀ (starts : List Nat) (visited : List Bool) (order : List Nat) (w : Nat),
      visited.getD w true = true →
      ((dfsAllLoop g starts visited order).1).getD w true = true) :=
  ⟨fun fuel visited queue order w hw => bfsLoop_visited_mono g fuel visited queue order w hw,
   fun fuel visited stack order w hw => dfsLoop_visited_mono g fuel visited stack order w hw,
   fun n starts visited order w hw => bfsAllLoop_visited_mono g n starts visited order w hw,
   fun starts visited order w hw => dfsAllLoop_visited_mono g starts visited order w hw⟩

/-- Witness for C8 at a concrete graph and state. -/
theorem C8_visited_monotone_witness :
    ((bfsLoop [[1], [0]] 2 [true, false] [0] []).1).getD 0 true = true :=
  (C8_visited_monotone [[1], [0]]).1 2 [true, false] [0] [] 0 (by decide)

/-- C7: the traversal engine is edge-direction-agnostic — the undirected and
directed BFS variants are extensionally equal functions, and likewise the
undirected and directed iterative DFS variants, for every adjacency
structure, start vertex and vertex count. -/
theorem C7_engine_direction_agnostic :
    (∀ (g : List (List Nat)) (start n : Nat),
      bfs_undirected g start n = bfs_directed g start n) ∧
    (∀ (g : List (List Nat)) (start n : Nat),
      dfs_undirected_iterative g start n = dfs_directed_iterative g start n) :=
  ⟨fun _ _ _ => rfl, fun _ _ _ => rfl⟩

/-! ## Order accumulation of the recursive DFS (claim C9 machinery) -/

theorem count_append_singleton (l : List Nat) (a x : Nat) :
    (l ++ [a]).count x = l.count x + if a = x then 1 else 0 := by
  simp only [List.count_append]
  rcases eq_or_ne a x with h | h <;> simp [h, List.count_singleton]

theorem dfsScan_order_extend
    (f : Nat → List Bool → List Nat → List Bool × List Nat)
    (hf : ∀ u visited order, ∃ ext, (f u visited order).2 = order ++ ext) :
    ∀ (adj : List Nat) (visited : List Bool) (order : List Nat),
      ∃ ext, (dfsScan f adj visited order).2 = order ++ ext
  | [], visited, order => ⟨[], by simp [dfsScan]⟩
  | u :: adj, visited, order => by
    simp only [dfsScan]
    split
    · exact dfsScan_order_extend f hf adj visited order
    · obtain ⟨e1, he1⟩ := hf u visited order
      obtain ⟨e2, he2⟩ :=
        dfsScan_order_extend f hf adj (f u visited order).1 (f u visited order).2
      exact ⟨e1 ++ e2, by rw [he2, he1, List.append_assoc]⟩

theorem dfsRec_order_extend (g : List (List Nat)) :
    ∀ (fuel start : Nat) (visited : List Bool) (order : List Nat),
      ∃ ext, (dfsRec g fuel start visited order).2 = order ++ start :: ext
  | 0, start, visited, order => ⟨[], by simp [dfsRec]⟩
  | fuel + 1, start, visited, order => by
    simp only [dfsRec]
    obtain ⟨ext, hext⟩ :=
      dfsScan_order_extend (dfsRec g fuel)
        (fun u v o =>
          match dfsRec_order_extend g fuel u v o with
          | ⟨e, he⟩ => ⟨u :: e, he⟩)
        (g.getD start []) (visited.set start true) (order ++ [start])
    exact ⟨ext, by rw [hext, List.append_assoc]; rfl⟩

theorem dfsScan_count_keep
    (f : Nat → List Bool → List Nat → List Bool × List Nat) (x : Nat)
    (hf : ∀ u visited order, visited.getD x true = true → u ≠ x →
      ((f u visited order).1).getD x true = true ∧
      (f u visited order).2.count x = order.count x) :
    ∀ (adj : List Nat) (visited : List Bool) (order : List Nat),
      visited.getD x true = true →
      ((dfsScan f adj visited order).1).getD x true = true ∧
      (dfsScan f adj visited order).2.count x = order.count x
  | [], visited, order, hx => ⟨hx, rfl⟩
  | u :: adj, visited, order, hx => by
    simp only [dfsScan]
    split
    case isTrue h => exact dfsScan_count_keep f x hf adj visited order hx
    case isFalse h =>
      have hux : u ≠ x := fun he => h (by rw [he]; exact hx)
      obtain ⟨h1, h2⟩ := hf u visited order hx hux
      obtain ⟨h3, h4⟩ :=
        dfsScan_count_keep f x hf adj (f u visited order).1 (f u visited order).2 h1
      exact ⟨h3, h4.trans h2⟩

theorem dfsRec_count_keep (g : List (List Nat)) (x : Nat) :
    ∀ (fuel v : Nat) (visited : List Bool) (order : List Nat),
      visited.getD x true = true → x ≠ v →
      ((dfsRec g fuel v visited order).1).getD x true = true ∧
      (dfsRec g fuel v visited order).2.count x = order.count x
  | 0, v, visited, order, hx, hxv => by
    refine ⟨visited_mono_set _ _ _ hx, ?_⟩
    simp [dfsRec, List.count_append, List.count_cons, hxv]
  | fuel + 1, v, visited, order, hx, hxv => by
    simp only [dfsRec]
    obtain ⟨h1, h2⟩ :=
      dfsScan_count_keep (dfsRec g fuel) x
        (fun u vis ord hx hux => dfsRec_count_keep g x fuel u vis ord hx (Ne.symm hux))
        (g.getD v []) (visited.set v true) (order ++ [v])
        (visited_mono_set _ _ _ hx)
    refine ⟨h1, h2.trans ?_⟩
    simp [List.count_append, List.count_cons, hxv]

theorem dfsRec_count_self (g : List (List Nat)) :
    ∀ (fuel v : Nat) (visited : List Bool) (order : List Nat),
      (dfsRec g fuel v visited order).2.count v = order.count v + 1
  | 0, v, visited, order => by simp [dfsRec, count_append_singleton]
  | fuel + 1, v, visited, order => by
    simp only [dfsRec]
    obtain ⟨h1, h2⟩ :=
      dfsScan_count_keep (dfsRec g fuel) v
        (fun u vis ord hx hux => dfsRec_count_keep g v fuel u vis ord hx (Ne.symm hux))
        (g.getD v []) (visited.set v true) (order ++ [v])
        (getD_set_true_self visited v)
    rw [h2, count_append_singleton]
    simp

/-- C9: the recursive DFS appends `start` to the order accumulator
unconditionally on entry — if the order already contains `start` (as it does
when invoked with `visited[start]` already true by the usual pairing of the
two accumulators), the result contains `start` twice, so the exactly-once
guarantee needs the precondition that `start` is unvisited; the directed
variant behaves identically. -/
theorem C9_dfs_recursive_appends_unconditionally :
    ∀ (g : List (List Nat)) (start : Nat) (visited : List Bool) (order : List Nat),
      (∃ ext, (dfs_undirected_recursive g start visited order).2 = order ++ start :: ext) ∧
      (dfs_undirected_recursive g start visited order).2.count start
        = order.count start + 1 ∧
      (start ∈ order → ¬ (dfs_undirected_recursive g start visited order).2.Nodup) ∧
      dfs_directed_recursive g start visited order
        = dfs_undirected_recursive g start visited order := by
  intro g start visited order
  refine ⟨dfsRec_order_extend g _ start visited order,
    dfsRec_count_self g _ start visited order, ?_, rfl⟩
  intro hmem hnodup
  have h1 : 1 ≤ order.count start := List.count_pos_iff.mpr hmem
  have h2 := dfsRec_count_self g (countFalse visited + 1) start visited order
  have h3 := List.nodup_iff_count_le_one.mp hnodup start
  unfold dfs_undirected_recursive at h3
  omega

/-- Witness for C9: invoking the recursive DFS with `visited[start]` already
true and `start` already in the order duplicates `start`. -/
theorem C9_dfs_recursive_appends_unconditionally_witness :
    ¬ (dfs_undirected_recursive [[]] 0 [true] [0]).2.Nodup :=
  (C9_dfs_recursive_appends_unconditionally [[]] 0 [true] [0]).2.2.1 (by decide)

/-! ## BFS invariants (claims C3, C4, C5 machinery) -/

theorem getD_set_true_iff (l : List Bool) (v w : Nat) :
    (l.set v true).getD w true = true ↔ (l.getD w true = true ∨ w = v) := by
  rcases eq_or_ne w v with rfl | hne
  · constructor
    · intro _
      exact Or.inr rfl
    · intro _
      exact getD_set_true_self l w
  · rw [getD_set_ne l v w true true hne]
    simp [hne]

theorem adj_lt_of_graphOK {g : List (List Nat)} {n : Nat} (hg : GraphOK g n)
    (v : Nat) : ∀ u ∈ g.getD v [], u < n := by
  intro u hu
  rcases lt_or_ge v g.length with h | h
  · have hmem : g.getD v [] ∈ g := by
      rw [List.getD_eq_getElem g [] h]
      exact List.getElem_mem h
    exact hg.2 _ hmem u hu
  · rw [getD_of_length_le g v [] h] at hu
    simp at hu

theorem not_getD_true (b : Bool) (h : ¬ b = true) : b = false := by
  cases b
  · rfl
  · exact absurd rfl h

theorem countFalse_le_length (l : List Bool) : countFalse l ≤ l.length :=
  List.count_le_length false l

/-- Full characterization of one neighbor scan of the BFS loop. -/
theorem bfsScan_spec :
    ∀ (adj : List Nat) (visited : List Bool),
      (bfsScan visited adj).1.length = visited.length ∧
      (∀ w, ((bfsScan visited adj).1).getD w true = true ↔
        (visited.getD w true = true ∨ w ∈ (bfsScan visited adj).2)) ∧
      (∀ w ∈ (bfsScan visited adj).2, w ∈ adj ∧ visited.getD w true = false) ∧
      (bfsScan visited adj).2.Nodup ∧
      (∀ u ∈ adj, ((bfsScan visited adj).1).getD u true = true) ∧
      countFalse (bfsScan visited adj).1 + (bfsScan visited adj).2.length
        = countFalse visited
  | [], visited => by
    refine ⟨rfl, fun w => by simp [bfsScan], by simp [bfsScan], by simp [bfsScan],
      by simp, by simp [bfsScan]⟩
  | u :: adj, visited => by
    by_cases h : visited.getD u true = true
    · have hstep : bfsScan visited (u :: adj) = bfsScan visited adj := by
        simp only [bfsScan, if_pos h]
      obtain ⟨ih1, ih2, ih3, ih4, ih5, ih6⟩ := bfsScan_spec adj visited
      rw [hstep]
      refine ⟨ih1, ih2, ?_, ih4, ?_, ih6⟩
      · intro w hw
        exact ⟨List.mem_cons_of_mem u (ih3 w hw).1, (ih3 w hw).2⟩
      · intro w hw
        rcases List.mem_cons.mp hw with rfl | hw
        · exact (ih2 w).mpr (Or.inl h)
        · exact ih5 w hw
    · have hfalse : visited.getD u true = false := not_getD_true _ h
      have hstep : bfsScan visited (u :: adj)
          = ((bfsScan (visited.set u true) adj).1,
             u :: (bfsScan (visited.set u true) adj).2) := by
        simp only [bfsScan, if_neg h]
      obtain ⟨ih1, ih2, ih3, ih4, ih5, ih6⟩ := bfsScan_spec adj (visited.set u true)
      rw [hstep]
      refine ⟨?_, ?_, ?_, ?_, ?_, ?_⟩
      · simpa using ih1
      · intro w
        simp only []
        rw [ih2 w, getD_set_true_iff]
        simp only [List.mem_cons]
        tauto
      · intro w hw
        simp only [List.mem_cons] at hw
        rcases hw with rfl | hw
        · exact ⟨List.mem_cons_self w adj, hfalse⟩
        · obtain ⟨hadj, hvf⟩ := ih3 w hw
          have hwu : w ≠ u := by
            intro he
            rw [he, getD_set_true_self] at hvf
            simp at hvf
          rw [getD_set_ne visited u w true true hwu] at hvf
          exact ⟨List.mem_cons_of_mem u hadj, hvf⟩
      · refine List.Nodup.cons ?_ ih4
        intro hu
        have := (ih3 u hu).2
        rw [getD_set_true_self] at this
        simp at this
      · intro w hw
        rcases List.mem_cons.mp hw with rfl | hw
        · exact (ih2 w).mpr (Or.inl (getD_set_true_self visited w))
        · exact ih5 w hw
      · have hcf : countFalse (visited.set u true) + 1 = countFalse visited :=
          countFalse_set_true visited u hfalse
        simp only [List.length_cons]
        omega

/-- The BFS loop invariant, run to completion: given enough fuel (one unit
per loop iteration, which `countFalse visited + queue.length` bounds), the
loop empties its queue and returns a state in which the visited set equals
the output order (as sets), the order is duplicate-free and edge-closed, and
every newly output vertex is reachable from some seed queue vertex. -/
theorem bfsLoop_run {g : List (List Nat)} {n : Nat} (hg : GraphOK g n) :
    ∀ (fuel : Nat) (visited : List Bool) (queue order : List Nat),
      countFalse visited + queue.length ≤ fuel →
      visited.length = n →
      (∀ w ∈ queue, w < n) →
      (∀ w ∈ order, w < n) →
      (∀ w, w < n → (visited.getD w true = true ↔ w ∈ order ∨ w ∈ queue)) →
      (order ++ queue).Nodup →
      (∀ a ∈ order, ∀ b ∈ g.getD a [], visited.getD b true = true) →
      (bfsLoop g fuel visited queue order).1.length = n ∧
      (∀ w, w < n → (((bfsLoop g fuel visited queue order).1).getD w true = true ↔
        w ∈ (bfsLoop g fuel visited queue order).2)) ∧
      (bfsLoop g fuel visited queue order).2.Nodup ∧
      (∀ a ∈ (bfsLoop g fuel visited queue order).2, ∀ b ∈ g.getD a [],
        ((bfsLoop g fuel visited queue order).1).getD b true = true) ∧
      (∃ ext, (bfsLoop g fuel visited queue order).2 = order ++ ext ∧
        ∀ w ∈ ext, ∃ q ∈ queue, Reach g q w) ∧
      (∀ w ∈ (bfsLoop g fuel visited queue order).2, w < n)
  | 0, visited, queue, order => by
    intro hfuel hlen hqueue horder hmem hnodup hclosed
    have hq : queue = [] := List.eq_nil_of_length_eq_zero (by omega)
    subst hq
    simp only [bfsLoop]
    refine ⟨hlen, ?_, by simpa using hnodup, hclosed, ⟨[], by simp⟩, horder⟩
    intro w hw
    rw [hmem w hw]
    simp
  | fuel + 1, visited, [], order => by
    intro hfuel hlen hqueue horder hmem hnodup hclosed
    simp only [bfsLoop]
    refine ⟨hlen, ?_, by simpa using hnodup, hclosed, ⟨[], by simp⟩, horder⟩
    intro w hw
    rw [hmem w hw]
    simp
  | fuel + 1, visited, v :: rest, order => by
    intro hfuel hlen hqueue horder hmem hnodup hclosed
    obtain ⟨s1len, s1iff, s2mem, s2nodup, s1adj, s1meas⟩ :=
      bfsScan_spec (g.getD v []) visited
    have hv : v < n := hqueue v (List.mem_cons_self v rest)
    have hadjn : ∀ u ∈ g.getD v [], u < n := adj_lt_of_graphOK hg v
    -- fuel bookkeeping
    have hfuel1 : countFalse (bfsScan visited (g.getD v [])).1
        + (rest ++ (bfsScan visited (g.getD v [])).2).length ≤ fuel := by
      simp only [List.length_append]
      simp only [List.length_cons] at hfuel
      omega
    have hlen1 : (bfsScan visited (g.getD v [])).1.length = n := s1len.trans hlen
    have hqueue1 : ∀ w ∈ rest ++ (bfsScan visited (g.getD v [])).2, w < n := by
      intro w hw
      rcases List.mem_append.mp hw with hw | hw
      · exact hqueue w (List.mem_cons_of_mem v hw)
      · exact hadjn w (s2mem w hw).1
    have horder1 : ∀ w ∈ order ++ [v], w < n := by
      intro w hw
      rcases List.mem_append.mp hw with hw | hw
      · exact horder w hw
      · simp at hw
        subst hw
        exact hv
    have hmem1 : ∀ w, w < n →
        (((bfsScan visited (g.getD v [])).1).getD w true = true ↔
          w ∈ order ++ [v] ∨ w ∈ rest ++ (bfsScan visited (g.getD v [])).2) := by
      intro w hw
      rw [s1iff w, hmem w hw]
      simp only [List.mem_append, List.mem_cons, List.mem_singleton]
      tauto
    have hnodup1 : ((order ++ [v]) ++ (rest ++ (bfsScan visited (g.getD v [])).2)).Nodup := by
      rw [← List.append_assoc]
      rw [List.nodup_append]
      refine ⟨?_, s2nodup, ?_⟩
      · rw [List.append_assoc]
        simpa using hnodup
      · intro w hwl hwr
        have hvf : visited.getD w true = false := (s2mem w hwr).2
        have hwn : w < n := hadjn w (s2mem w hwr).1
        have : visited.getD w true = true := by
          rw [hmem w hwn]
          rcases List.mem_append.mp hwl with hw | hw
          · rcases List.mem_append.mp hw with hw | hw
            · exact Or.inl hw
            · simp at hw
              subst hw
              exact Or.inr (List.mem_cons_self w rest)
          · exact Or.inr (List.mem_cons_of_mem v hw)
        rw [this] at hvf
        simp at hvf
    have hclosed1 : ∀ a ∈ order ++ [v], ∀ b ∈ g.getD a [],
        ((bfsScan visited (g.getD v [])).1).getD b true = true := by
      intro a ha b hb
      rcases List.mem_append.mp ha with ha | ha
      · exact (s1iff b).mpr (Or.inl (hclosed a ha b hb))
      · simp at ha
        subst ha
        exact s1adj b hb
    obtain ⟨c1, c2, c3, c4, ⟨ext1, hext1, hreach1⟩, c6⟩ :=
      bfsLoop_run hg fuel (bfsScan visited (g.getD v [])).1
        (rest ++ (bfsScan visited (g.getD v [])).2) (order ++ [v])
        hfuel1 hlen1 hqueue1 horder1 hmem1 hnodup1 hclosed1
    simp only [bfsLoop]
    refine ⟨c1, c2, c3, c4, ⟨v :: ext1, ?_, ?_⟩, c6⟩
    · rw [hext1]
      simp
    · intro w hw
      rcases List.mem_cons.mp hw with rfl | hw
      · exact ⟨w, List.mem_cons_self w rest, Relation.ReflTransGen.refl⟩
      · obtain ⟨q, hq, hr⟩ := hreach1 w hw
        rcases List.mem_append.mp hq with hq | hq
        · exact ⟨q, List.mem_cons_of_mem v hq, hr⟩
        · refine ⟨v, List.mem_cons_self v rest, Relation.ReflTransGen.head ?_ hr⟩
          exact (s2mem q hq).1

theorem getD_replicate_false (n w : Nat) (h : w < n) :
    (List.replicate n false).getD w true = false := by
  rw [List.getD_eq_getElem _ _ (by simpa using h)]
  simp

theorem countFalse_replicate (n : Nat) : countFalse (List.replicate n false) = n := by
  simp [countFalse]

/-- Single-source BFS visits exactly the vertices reachable from `start`,
each exactly once. -/
theorem bfs_undirected_spec {g : List (List Nat)} {n : Nat} (hg : GraphOK g n)
    (start : Nat) (hs : start < n) :
    (bfs_undirected g start n).Nodup ∧
    (∀ v, v ∈ bfs_undirected g start n ↔ Reach g start v) ∧
    (∀ v ∈ bfs_undirected g start n, v < n) := by
  unfold bfs_undirected
  have hrep : (List.replicate n false).getD start true = false :=
    getD_replicate_false n start hs
  have hcf : countFalse ((List.replicate n false).set start true) + 1 = n := by
    rw [countFalse_set_true _ _ hrep, countFalse_replicate]
  obtain ⟨c1, c2, c3, c4, ⟨ext, hext, hreach⟩, c6⟩ :=
    bfsLoop_run hg n ((List.replicate n false).set start true) [start] []
      (by simp; omega)
      (by simp)
      (by intro w hw; simp at hw; subst hw; exact hs)
      (by intro w hw; simp at hw)
      (by
        intro w hw
        rw [getD_set_true_iff]
        rw [show (List.replicate n false).getD w true
          = false from getD_replicate_false n w hw]
        simp)
      (by simp)
      (by intro a ha; simp at ha)
  refine ⟨c3, ?_, c6⟩
  intro v
  constructor
  · intro hv
    rw [hext] at hv
    simp only [List.nil_append] at hv
    obtain ⟨q, hq, hr⟩ := hreach v hv
    simp at hq
    subst hq
    exact hr
  · intro hr
    induction hr with
    | refl =>
      have hvis : (((bfsLoop g n ((List.replicate n false).set start true)
          [start] []).1).getD start true = true) :=
        bfsLoop_visited_mono g n _ [start] [] start (getD_set_true_self _ start)
      exact (c2 start hs).mp hvis
    | tail hab hbc ih =>
      rename_i b c
      have hcn : c < n := adj_lt_of_graphOK hg b c hbc
      have := c4 b ih c hbc
      exact (c2 c hcn).mp this

/-- The all-components BFS outer loop: starting from a state whose visited
set equals the order (as sets), it processes every start vertex and
preserves all structural invariants. -/
theorem bfsAllLoop_run {g : List (List Nat)} {n : Nat} (hg : GraphOK g n) :
    ∀ (starts : List Nat) (visited : List Bool) (order : List Nat),
      visited.length = n →
      (∀ w ∈ starts, w < n) →
      (∀ w ∈ order, w < n) →
      (∀ w, w < n → (visited.getD w true = true ↔ w ∈ order)) →
      order.Nodup →
      (∀ a ∈ order, ∀ b ∈ g.getD a [], visited.getD b true = true) →
      (bfsAllLoop g n starts visited order).1.length = n ∧
      (∀ w, w < n → (((bfsAllLoop g n starts visited order).1).getD w true = true ↔
        w ∈ (bfsAllLoop g n starts visited order).2)) ∧
      (bfsAllLoop g n starts visited order).2.Nodup ∧
      (∀ a ∈ (bfsAllLoop g n starts visited order).2, ∀ b ∈ g.getD a [],
        ((bfsAllLoop g n starts visited order).1).getD b true = true) ∧
      (∃ ext, (bfsAllLoop g n starts visited order).2 = order ++ ext) ∧
      (∀ w ∈ (bfsAllLoop g n starts visited order).2, w < n) ∧
      (∀ s ∈ starts, s ∈ (bfsAllLoop g n starts visited order).2)
  | [], visited, order => by
    intro hlen hstarts horder hmem hnodup hclosed
    simp only [bfsAllLoop]
    exact ⟨hlen, hmem, hnodup, hclosed, ⟨[], by simp⟩, horder, by simp⟩
  | start :: starts, visited, order => by
    intro hlen hstarts horder hmem hnodup hclosed
    have hsn : start < n := hstarts start (List.mem_cons_self start starts)
    by_cases h : visited.getD start true = true
    · have hstep : bfsAllLoop g n (start :: starts) visited order
          = bfsAllLoop g n starts visited order := by
        simp only [bfsAllLoop, if_pos h]
      rw [hstep]
      obtain ⟨c1, c2, c3, c4, ⟨ext, hext⟩, c6, c7⟩ :=
        bfsAllLoop_run hg starts visited order hlen
          (fun w hw => hstarts w (List.mem_cons_of_mem start hw))
          horder hmem hnodup hclosed
      refine ⟨c1, c2, c3, c4, ⟨ext, hext⟩, c6, ?_⟩
      intro s hsm
      rcases List.mem_cons.mp hsm with rfl | hsm
      · rw [hext]
        exact List.mem_append_left ext ((hmem s hsn).mp h)
      · exact c7 s hsm
    · have hfalse : visited.getD start true = false := not_getD_true _ h
      have hstep : bfsAllLoop g n (start :: starts) visited order
          = bfsAllLoop g n starts
              (bfsLoop g n (visited.set start true) [start] order).1
              (bfsLoop g n (visited.set start true) [start] order).2 := by
        simp only [bfsAllLoop, if_neg h]
      rw [hstep]
      have hcf : countFalse (visited.set start true) + 1 = countFalse visited :=
        countFalse_set_true visited start hfalse
      have hcfle : countFalse visited ≤ n := hlen ▸ countFalse_le_length visited
      obtain ⟨b1, b2, b3, b4, ⟨ext1, hext1, hreach1⟩, b6⟩ :=
        bfsLoop_run hg n (visited.set start true) [start] order
          (by simp; omega)
          (by simpa using hlen)
          (by intro w hw; simp at hw; subst hw; exact hsn)
          horder
          (by
            intro w hw
            rw [getD_set_true_iff, hmem w hw]
            simp)
          (by
            rw [List.nodup_append]
            refine ⟨hnodup, by simp, ?_⟩
            intro w hw hw2
            simp at hw2
            subst hw2
            rw [(hmem w hsn)] at h
            exact h hw)
          (fun a ha b hb => visited_mono_set _ _ _ (hclosed a ha b hb))
      have hstartin : start ∈ (bfsLoop g n (visited.set start true) [start] order).2 := by
        refine (b2 start hsn).mp ?_
        exact bfsLoop_visited_mono g n _ [start] order start (getD_set_true_self _ start)
      obtain ⟨c1, c2, c3, c4, ⟨ext2, hext2⟩, c6, c7⟩ :=
        bfsAllLoop_run hg starts
          (bfsLoop g n (visited.set start true) [start] order).1
          (bfsLoop g n (visited.set start true) [start] order).2
          b1 (fun w hw => hstarts w (List.mem_cons_of_mem start hw))
          b6 b2 b3 b4
      refine ⟨c1, c2, c3, c4, ⟨ext1 ++ ext2, ?_⟩, c6, ?_⟩
      · rw [hext2, hext1, List.append_assoc]
      · intro s hsm
        rcases List.mem_cons.mp hsm with rfl | hsm
        · rw [hext2]
          exact List.mem_append_left ext2 hstartin
        · exact c7 s hsm

/-! ## Iterative DFS invariants (claim C3 machinery) -/

/-- The push loop of the iterative DFS (`for u in reversed(graph[v]):
if not visited[u]: stack.append(u)`) prepends, in forward adjacency order,
exactly the unvisited neighbors. -/
theorem dfsPush_eq (vis : List Bool) :
    ∀ (adj : List Nat) (st : List Nat),
      adj.reverse.foldl (fun st u => if vis.getD u true then st else u :: st) st
        = adj.filter (fun u => !(vis.getD u true)) ++ st
  | [], st => rfl
  | a :: adj, st => by
    rw [List.reverse_cons, List.foldl_append, dfsPush_eq vis adj]
    simp only [List.foldl_cons, List.foldl_nil, List.filter_cons]
    by_cases h : vis.getD a true = true
    · rw [List.getD_eq_getElem?_getD] at h
      simp [h]
    · have h2 : vis.getD a true = false := not_getD_true _ h
      rw [List.getD_eq_getElem?_getD] at h2
      simp [h2]

theorem adjLen_le_totalAdj (g : List (List Nat)) (v : Nat) :
    (g.getD v []).length ≤ totalAdj g := by
  rcases lt_or_ge v g.length with h | h
  · have hmem : (g.getD v []).length ∈ g.map List.length := by
      rw [List.getD_eq_getElem g [] h]
      exact List.mem_map_of_mem List.length (List.getElem_mem h)
    exact List.single_le_sum (fun x _ => Nat.zero_le x) _ hmem
  · rw [getD_of_length_le g v [] h]
    simp

/-- The iterative DFS loop invariant, run to completion: with fuel at least
`countFalse visited * (totalAdj g + 1) + stack.length` the loop drains its
stack; the visited set equals the output order (as sets), the order is
duplicate-free, every output vertex has all its neighbors visited, each new
output vertex is reachable from a stack vertex, and every stack vertex ends
up visited. -/
theorem dfsLoop_run {g : List (List Nat)} {n : Nat} (hg : GraphOK g n) :
    ∀ (fuel : Nat) (visited : List Bool) (stack order : List Nat),
      countFalse visited * (totalAdj g + 1) + stack.length ≤ fuel →
      visited.length = n →
      (∀ w ∈ stack, w < n) →
      (∀ w ∈ order, w < n) →
      (∀ w, w < n → (visited.getD w true = true ↔ w ∈ order)) →
      order.Nodup →
      (∀ a ∈ order, ∀ b ∈ g.getD a [],
        visited.getD b true = true ∨ b ∈ stack) →
      (dfsLoop g fuel visited stack order).1.length = n ∧
      (∀ w, w < n → (((dfsLoop g fuel visited stack order).1).getD w true = true ↔
        w ∈ (dfsLoop g fuel visited stack order).2)) ∧
      (dfsLoop g fuel visited stack order).2.Nodup ∧
      (∀ a ∈ (dfsLoop g fuel visited stack order).2, ∀ b ∈ g.getD a [],
        ((dfsLoop g fuel visited stack order).1).getD b true = true) ∧
      (∃ ext, (dfsLoop g fuel visited stack order).2 = order ++ ext ∧
        ∀ w ∈ ext, ∃ q ∈ stack, Reach g q w) ∧
      (∀ w ∈ (dfsLoop g fuel visited stack order).2, w < n) ∧
      (∀ q ∈ stack, ((dfsLoop g fuel visited stack order).1).getD q true = true)
  | 0, visited, stack, order => by
    intro hfuel hlen hstack horder hmem hnodup hclosed
    have hst : stack = [] := List.eq_nil_of_length_eq_zero (by omega)
    subst hst
    simp only [dfsLoop]
    refine ⟨hlen, hmem, hnodup, ?_, ⟨[], by simp⟩, horder, by simp⟩
    intro a ha b hb
    rcases hclosed a ha b hb with h | h
    · exact h
    · simp at h
  | fuel + 1, visited, [], order => by
    intro hfuel hlen hstack horder hmem hnodup hclosed
    simp only [dfsLoop]
    refine ⟨hlen, hmem, hnodup, ?_, ⟨[], by simp⟩, horder, by simp⟩
    intro a ha b hb
    rcases hclosed a ha b hb with h | h
    · exact h
    · simp at h
  | fuel + 1, visited, v :: rest, order => by
    intro hfuel hlen hstack horder hmem hnodup hclosed
    have hv : v < n := hstack v (List.mem_cons_self v rest)
    by_cases h : visited.getD v true = true
    · have hstep : dfsLoop g (fuel + 1) visited (v :: rest) order
          = dfsLoop g fuel visited rest order := by
        simp only [dfsLoop, if_pos h]
      rw [hstep]
      have hclosed1 : ∀ a ∈ order, ∀ b ∈ g.getD a [],
          visited.getD b true = true ∨ b ∈ rest := by
        intro a ha b hb
        rcases hclosed a ha b hb with hb2 | hb2
        · exact Or.inl hb2
        · rcases List.mem_cons.mp hb2 with rfl | hb2
          · exact Or.inl h
          · exact Or.inr hb2
      obtain ⟨c1, c2, c3, c4, ⟨ext, hext, hreach⟩, c6, c7⟩ :=
        dfsLoop_run hg fuel visited rest order
          (by simp only [List.length_cons] at hfuel; omega)
          hlen (fun w hw => hstack w (List.mem_cons_of_mem v hw))
          horder hmem hnodup hclosed1
      refine ⟨c1, c2, c3, c4, ⟨ext, hext, ?_⟩, c6, ?_⟩
      · intro w hw
        obtain ⟨q, hq, hr⟩ := hreach w hw
        exact ⟨q, List.mem_cons_of_mem v hq, hr⟩
      · intro q hq
        rcases List.mem_cons.mp hq with rfl | hq
        · exact dfsLoop_visited_mono g fuel visited rest order q h
        · exact c7 q hq
    · have hfalse : visited.getD v true = false := not_getD_true _ h
      have hvnotin : v ∉ order := fun hvo => h ((hmem v hv).mpr hvo)
      have hstep : dfsLoop g (fuel + 1) visited (v :: rest) order
          = dfsLoop g fuel (visited.set v true)
              ((g.getD v []).filter (fun u => !((visited.set v true).getD u true))
                ++ rest)
              (order ++ [v]) := by
        simp only [dfsLoop, if_neg h]
        rw [dfsPush_eq]
      rw [hstep]
      have hcf : countFalse (visited.set v true) + 1 = countFalse visited :=
        countFalse_set_true visited v hfalse
      have hpushlen :
          ((g.getD v []).filter (fun u => !((visited.set v true).getD u true))).length
            ≤ totalAdj g :=
        le_trans (List.length_filter_le _ _) (adjLen_le_totalAdj g v)
      have hfuel1 : countFalse (visited.set v true) * (totalAdj g + 1) +
          ((g.getD v []).filter (fun u => !((visited.set v true).getD u true))
            ++ rest).length ≤ fuel := by
        have key : countFalse visited * (totalAdj g + 1)
            = countFalse (visited.set v true) * (totalAdj g + 1) + (totalAdj g + 1) := by
          rw [← hcf]
          ring
        simp only [List.length_append, List.length_cons] at hfuel ⊢
        generalize hA : countFalse (visited.set v true) * (totalAdj g + 1) = A at key ⊢
        generalize hB : countFalse visited * (totalAdj g + 1) = B at key hfuel
        omega
      have hadjn : ∀ u ∈ g.getD v [], u < n := adj_lt_of_graphOK hg v
      have hstack1 : ∀ w ∈ (g.getD v []).filter
          (fun u => !((visited.set v true).getD u true)) ++ rest, w < n := by
        intro w hw
        rcases List.mem_append.mp hw with hw | hw
        · exact hadjn w (List.mem_of_mem_filter hw)
        · exact hstack w (List.mem_cons_of_mem v hw)
      have horder1 : ∀ w ∈ order ++ [v], w < n := by
        intro w hw
        rcases List.mem_append.mp hw with hw | hw
        · exact horder w hw
        · simp at hw
          subst hw
          exact hv
      have hmem1 : ∀ w, w < n → ((visited.set v true).getD w true = true ↔
          w ∈ order ++ [v]) := by
        intro w hw
        rw [getD_set_true_iff, hmem w hw]
        simp
      have hnodup1 : (order ++ [v]).Nodup := by
        rw [List.nodup_append]
        exact ⟨hnodup, by simp, by simpa using hvnotin⟩
      have hclosed1 : ∀ a ∈ order ++ [v], ∀ b ∈ g.getD a [],
          (visited.set v true).getD b true = true ∨
          b ∈ (g.getD v []).filter
            (fun u => !((visited.set v true).getD u true)) ++ rest := by
        intro a ha b hb
        rcases List.mem_append.mp ha with ha | ha
        · rcases hclosed a ha b hb with hb2 | hb2
          · exact Or.inl (visited_mono_set _ _ _ hb2)
          · rcases List.mem_cons.mp hb2 with rfl | hb2
            · exact Or.inl (getD_set_true_self _ _)
            · exact Or.inr (List.mem_append_right _ hb2)
        · simp at ha
          subst ha
          by_cases hbv : (visited.set a true).getD b true = true
          · exact Or.inl hbv
          · refine Or.inr (List.mem_append_left _ ?_)
            rw [List.mem_filter]
            exact ⟨hb, by simpa using not_getD_true _ hbv⟩
      obtain ⟨c1, c2, c3, c4, ⟨ext, hext, hreach⟩, c6, c7⟩ :=
        dfsLoop_run hg fuel (visited.set v true)
          ((g.getD v []).filter (fun u => !((visited.set v true).getD u true)) ++ rest)
          (order ++ [v])
          hfuel1 (by simpa using hlen) hstack1 horder1 hmem1 hnodup1 hclosed1
      refine ⟨c1, c2, c3, c4, ⟨v :: ext, ?_, ?_⟩, c6, ?_⟩
      · rw [hext]
        simp
      · intro w hw
        rcases List.mem_cons.mp hw with rfl | hw
        · exact ⟨w, List.mem_cons_self w rest, Relation.ReflTransGen.refl⟩
        · obtain ⟨q, hq, hr⟩ := hreach w hw
          rcases List.mem_append.mp hq with hq | hq
          · refine ⟨v, List.mem_cons_self v rest, Relation.ReflTransGen.head ?_ hr⟩
            exact List.mem_of_mem_filter hq
          · exact ⟨q, List.mem_cons_of_mem v hq, hr⟩
      · intro q hq
        rcases List.mem_cons.mp hq with rfl | hq
        · exact dfsLoop_visited_mono g fuel _ _ _ q (getD_set_true_self _ q)
        · refine c7 q (List.mem_append_right _ hq)

/-- Single-source iterative DFS visits exactly the vertices reachable from
`start`, each exactly once. -/
theorem dfs_undirected_iterative_spec {g : List (List Nat)} {n : Nat}
    (hg : GraphOK g n) (start : Nat) (hs : start < n) :
    (dfs_undirected_iterative g start n).Nodup ∧
    (∀ v, v ∈ dfs_undirected_iterative g start n ↔ Reach g start v) ∧
    (∀ v ∈ dfs_undirected_iterative g start n, v < n) := by
  unfold dfs_undirected_iterative
  obtain ⟨c1, c2, c3, c4, ⟨ext, hext, hreach⟩, c6, c7⟩ :=
    dfsLoop_run hg (n * (totalAdj g + 1) + 1) (List.replicate n false) [start] []
      (by
        rw [countFalse_replicate]
        simp)
      (by simp)
      (by intro w hw; simp at hw; subst hw; exact hs)
      (by intro w hw; simp at hw)
      (by
        intro w hw
        rw [show (List.replicate n false).getD w true
          = false from getD_replicate_false n w hw]
        simp)
      (by simp)
      (by intro a ha; simp at ha)
  refine ⟨c3, ?_, c6⟩
  intro v
  constructor
  · intro hv
    rw [hext] at hv
    simp only [List.nil_append] at hv
    obtain ⟨q, hq, hr⟩ := hreach v hv
    simp at hq
    subst hq
    exact hr
  · intro hr
    induction hr with
    | refl =>
      have hvis := c7 start (List.mem_cons_self start [])
      exact (c2 start hs).mp hvis
    | tail hab hbc ih =>
      rename_i b c
      have hcn : c < n := adj_lt_of_graphOK hg b c hbc
      exact (c2 c hcn).mp (c4 b ih c hbc)

/-! ## Recursive DFS invariants (claims C3, C4 machinery) -/

theorem countFalse_mono :
    ∀ (v1 v2 : List Bool), v1.length = v2.length →
      (∀ w, v1.getD w true = true → v2.getD w true = true) →
      countFalse v2 ≤ countFalse v1
  | [], [], _, _ => le_refl _
  | [], b :: t2, hlen, _ => by simp at hlen
  | a :: t1, [], hlen, _ => by simp at hlen
  | a :: t1, b :: t2, hlen, hmono => by
    have hlen2 : t1.length = t2.length := by simpa using hlen
    have hmono2 : ∀ w, t1.getD w true = true → t2.getD w true = true := by
      intro w hw
      have := hmono (w + 1) (by simpa [List.getD_cons_succ] using hw)
      simpa [List.getD_cons_succ] using this
    have iht := countFalse_mono t1 t2 hlen2 hmono2
    have hab : a = true → b = true := by
      intro h
      have := hmono 0 (by simpa [List.getD_cons_zero] using h)
      simpa [List.getD_cons_zero] using this
    cases a <;> cases b
    all_goals simp_all [countFalse, List.count_cons]
    all_goals omega

theorem dfsRec_visits_start (g : List (List Nat)) :
    ∀ (fuel start : Nat) (visited : List Bool) (order : List Nat),
      ((dfsRec g fuel start visited order).1).getD start true = true
  | 0, start, visited, order => getD_set_true_self visited start
  | fuel + 1, start, visited, order => by
    simp only [dfsRec]
    exact dfsScan_visited_mono (dfsRec g fuel)
      (fun u vis ord w hw => dfsRec_visited_mono g fuel u vis ord w hw)
      (g.getD start []) (visited.set start true) (order ++ [start]) start
      (getD_set_true_self visited start)

/-- The neighbor loop of the recursive DFS, assuming the stated contract of
the recursive calls (instantiated with the fuel-indexed `dfsRec` itself). -/
theorem dfsScan_run {g : List (List Nat)} {n : Nat} (hg : GraphOK g n)
    (fuel B : Nat)
    (hf : ∀ (u : Nat) (vis : List Bool) (ord : List Nat),
      countFalse vis + 1 ≤ fuel →
      vis.length = n → u < n → vis.getD u true = false →
      (∀ w, w < n → (vis.getD w true = true ↔ w ∈ ord)) →
      ord.Nodup → (∀ w ∈ ord, w < n) →
      (dfsRec g fuel u vis ord).1.length = n ∧
      (∀ w, w < n → (((dfsRec g fuel u vis ord).1).getD w true = true ↔
        w ∈ (dfsRec g fuel u vis ord).2)) ∧
      (dfsRec g fuel u vis ord).2.Nodup ∧
      (∀ a ∈ (dfsRec g fuel u vis ord).2, a ∈ ord ∨
        ∀ b ∈ g.getD a [], ((dfsRec g fuel u vis ord).1).getD b true = true) ∧
      (∀ w ∈ (dfsRec g fuel u vis ord).2, w ∈ ord ∨ Reach g u w) ∧
      (∀ w ∈ (dfsRec g fuel u vis ord).2, w < n) ∧
      (∃ d, (dfsRec g fuel u vis ord).2 = ord ++ u :: d) ∧
      countFalse (dfsRec g fuel u vis ord).1 ≤ countFalse vis) :
    ∀ (adj : List Nat) (vis : List Bool) (ord : List Nat),
      (∀ u ∈ adj, u < n) →
      countFalse vis ≤ B → B + 1 ≤ fuel →
      vis.length = n →
      (∀ w, w < n → (vis.getD w true = true ↔ w ∈ ord)) →
      ord.Nodup → (∀ w ∈ ord, w < n) →
      (dfsScan (dfsRec g fuel) adj vis ord).1.length = n ∧
      (∀ w, w < n → (((dfsScan (dfsRec g fuel) adj vis ord).1).getD w true = true ↔
        w ∈ (dfsScan (dfsRec g fuel) adj vis ord).2)) ∧
      (dfsScan (dfsRec g fuel) adj vis ord).2.Nodup ∧
      (∀ a ∈ (dfsScan (dfsRec g fuel) adj vis ord).2, a ∈ ord ∨
        ∀ b ∈ g.getD a [],
          ((dfsScan (dfsRec g fuel) adj vis ord).1).getD b true = true) ∧
      (∀ w ∈ (dfsScan (dfsRec g fuel) adj vis ord).2,
        w ∈ ord ∨ ∃ u ∈ adj, Reach g u w) ∧
      (∀ w ∈ (dfsScan (dfsRec g fuel) adj vis ord).2, w < n) ∧
      (∃ d, (dfsScan (dfsRec g fuel) adj vis ord).2 = ord ++ d) ∧
      countFalse (dfsScan (dfsRec g fuel) adj vis ord).1 ≤ countFalse vis ∧
      (∀ u ∈ adj, ((dfsScan (dfsRec g fuel) adj vis ord).1).getD u true = true)
  | [], vis, ord => by
    intro hadj hcfB hBf hlen hmem hnodup hordn
    simp only [dfsScan]
    exact ⟨hlen, hmem, hnodup, fun a ha => Or.inl ha,
      fun w hw => Or.inl hw, hordn, ⟨[], by simp⟩, le_refl _, by simp⟩
  | u :: adj, vis, ord => by
    intro hadj hcfB hBf hlen hmem hnodup hordn
    have hun : u < n := hadj u (List.mem_cons_self u adj)
    by_cases h : vis.getD u true = true
    · have hstep : dfsScan (dfsRec g fuel) (u :: adj) vis ord
          = dfsScan (dfsRec g fuel) adj vis ord := by
        simp only [dfsScan, if_pos h]
      rw [hstep]
      obtain ⟨c1, c2, c3, c4, c5, c6, c7, c8, c9⟩ :=
        dfsScan_run hg fuel B hf adj vis ord
          (fun w hw => hadj w (List.mem_cons_of_mem u hw))
          hcfB hBf hlen hmem hnodup hordn
      refine ⟨c1, c2, c3, c4, ?_, c6, c7, c8, ?_⟩
      · intro w hw
        rcases c5 w hw with hw2 | ⟨u2, hu2, hr⟩
        · exact Or.inl hw2
        · exact Or.inr ⟨u2, List.mem_cons_of_mem u hu2, hr⟩
      · intro w hw
        rcases List.mem_cons.mp hw with rfl | hw
        · exact dfsScan_visited_mono (dfsRec g fuel)
            (fun x v o y hy => dfsRec_visited_mono g fuel x v o y hy)
            adj vis ord w h
        · exact c9 w hw
    · have hfalse : vis.getD u true = false := not_getD_true _ h
      have hstep : dfsScan (dfsRec g fuel) (u :: adj) vis ord
          = dfsScan (dfsRec g fuel) adj
              (dfsRec g fuel u vis ord).1 (dfsRec g fuel u vis ord).2 := by
        simp only [dfsScan, if_neg h]
      rw [hstep]
      obtain ⟨p1, p2, p3, p4, p5, p6, ⟨d1, hd1⟩, p8⟩ :=
        hf u vis ord (by omega) hlen hun hfalse hmem hnodup hordn
      obtain ⟨c1, c2, c3, c4, c5, c6, ⟨d2, hd2⟩, c8, c9⟩ :=
        dfsScan_run hg fuel B hf adj
          (dfsRec g fuel u vis ord).1 (dfsRec g fuel u vis ord).2
          (fun w hw => hadj w (List.mem_cons_of_mem u hw))
          (le_trans p8 hcfB) hBf p1 p2 p3 p6
      have hmono : ∀ w, ((dfsRec g fuel u vis ord).1).getD w true = true →
          ((dfsScan (dfsRec g fuel) adj
            (dfsRec g fuel u vis ord).1 (dfsRec g fuel u vis ord).2).1).getD w true
            = true :=
        fun w hw => dfsScan_visited_mono (dfsRec g fuel)
          (fun x v o y hy => dfsRec_visited_mono g fuel x v o y hy)
          adj _ _ w hw
      refine ⟨c1, c2, c3, ?_, ?_, c6, ?_, le_trans c8 p8, ?_⟩
      · intro a ha
        rcases c4 a ha with ha2 | ha2
        · rcases p4 a ha2 with ha3 | ha3
          · exact Or.inl ha3
          · exact Or.inr (fun b hb => hmono b (ha3 b hb))
        · exact Or.inr ha2
      · intro w hw
        rcases c5 w hw with hw2 | ⟨u2, hu2, hr⟩
        · rcases p5 w hw2 with hw3 | hw3
          · exact Or.inl hw3
          · exact Or.inr ⟨u, List.mem_cons_self u adj, hw3⟩
        · exact Or.inr ⟨u2, List.mem_cons_of_mem u hu2, hr⟩
      · exact ⟨(u :: d1) ++ d2, by rw [hd2, hd1]; simp⟩
      · intro w hw
        rcases List.mem_cons.mp hw with rfl | hw
        · exact hmono w (dfsRec_visits_start g fuel w vis ord)
        · exact c9 w hw

/-- The recursive DFS contract: called on an unvisited `start` with the
visited array and the order accumulator in sync, it returns with the two
still in sync, having appended (exactly once each) a set of vertices
reachable from `start` that includes `start`; each appended vertex is fully
processed (all its neighbors visited). -/
theorem dfsRec_run {g : List (List Nat)} {n : Nat} (hg : GraphOK g n) :
    ∀ (fuel : Nat) (start : Nat) (visited : List Bool) (order : List Nat),
      countFalse visited + 1 ≤ fuel →
      visited.length = n → start < n → visited.getD start true = false →
      (∀ w, w < n → (visited.getD w true = true ↔ w ∈ order)) →
      order.Nodup → (∀ w ∈ order, w < n) →
      (dfsRec g fuel start visited order).1.length = n ∧
      (∀ w, w < n → (((dfsRec g fuel start visited order).1).getD w true = true ↔
        w ∈ (dfsRec g fuel start visited order).2)) ∧
      (dfsRec g fuel start visited order).2.Nodup ∧
      (∀ a ∈ (dfsRec g fuel start visited order).2, a ∈ order ∨
        ∀ b ∈ g.getD a [],
          ((dfsRec g fuel start visited order).1).getD b true = true) ∧
      (∀ w ∈ (dfsRec g fuel start visited order).2, w ∈ order ∨ Reach g start w) ∧
      (∀ w ∈ (dfsRec g fuel start visited order).2, w < n) ∧
      (∃ d, (dfsRec g fuel start visited order).2 = order ++ start :: d) ∧
      countFalse (dfsRec g fuel start visited order).1 ≤ countFalse visited
  | 0, start, visited, order => by
    intro hfuel
    omega
  | fuel + 1, start, visited, order => by
    intro hfuel hlen hsn hfalse hmem hnodup hordn
    simp only [dfsRec]
    have hcf : countFalse (visited.set start true) + 1 = countFalse visited :=
      countFalse_set_true visited start hfalse
    have hsnotin : start ∉ order := by
      intro hso
      have h2 := (hmem start hsn).mpr hso
      rw [h2] at hfalse
      simp at hfalse
    have hmem1 : ∀ w, w < n →
        ((visited.set start true).getD w true = true ↔ w ∈ order ++ [start]) := by
      intro w hw
      rw [getD_set_true_iff, hmem w hw]
      simp
    have hnodup1 : (order ++ [start]).Nodup := by
      rw [List.nodup_append]
      exact ⟨hnodup, by simp, by simpa using hsnotin⟩
    have hordn1 : ∀ w ∈ order ++ [start], w < n := by
      intro w hw
      rcases List.mem_append.mp hw with hw | hw
      · exact hordn w hw
      · simp at hw
        subst hw
        exact hsn
    obtain ⟨c1, c2, c3, c4, c5, c6, ⟨d, hd⟩, c8, c9⟩ :=
      dfsScan_run hg fuel (countFalse (visited.set start true))
        (fun u vis ord h1 h2 h3 h4 h5 h6 h7 =>
          dfsRec_run hg fuel u vis ord h1 h2 h3 h4 h5 h6 h7)
        (g.getD start []) (visited.set start true) (order ++ [start])
        (adj_lt_of_graphOK hg start)
        (le_refl _) (by omega) (by simpa using hlen) hmem1 hnodup1 hordn1
    refine ⟨c1, c2, c3, ?_, ?_, c6, ?_, ?_⟩
    · intro a ha
      rcases c4 a ha with ha2 | ha2
      · rcases List.mem_append.mp ha2 with ha3 | ha3
        · exact Or.inl ha3
        · simp at ha3
          subst ha3
          exact Or.inr c9
      · exact Or.inr ha2
    · intro w hw
      rcases c5 w hw with hw2 | ⟨u2, hu2, hr⟩
      · rcases List.mem_append.mp hw2 with hw3 | hw3
        · exact Or.inl hw3
        · simp at hw3
          subst hw3
          exact Or.inr Relation.ReflTransGen.refl
      · exact Or.inr (Relation.ReflTransGen.head hu2 hr)
    · exact ⟨d, by rw [hd]; simp⟩
    · exact le_trans c8 (countFalse_set_true_le visited start)

/-- Single-source recursive DFS (fresh visited array, empty accumulator)
visits exactly the vertices reachable from `start`, each exactly once. -/
theorem dfs_undirected_recursive_spec {g : List (List Nat)} {n : Nat}
    (hg : GraphOK g n) (start : Nat) (hs : start < n) :
    ((dfs_undirected_recursive g start (List.replicate n false) []).2).Nodup ∧
    (∀ v, v ∈ (dfs_undirected_recursive g start (List.replicate n false) []).2 ↔
      Reach g start v) ∧
    (∀ v ∈ (dfs_undirected_recursive g start (List.replicate n false) []).2, v < n) := by
  unfold dfs_undirected_recursive
  obtain ⟨c1, c2, c3, c4, c5, c6, ⟨d, hd⟩, c8⟩ :=
    dfsRec_run hg (countFalse (List.replicate n false) + 1) start
      (List.replicate n false) []
      (le_refl _) (by simp) hs (getD_replicate_false n start hs)
      (by
        intro w hw
        rw [show (List.replicate n false).getD w true
          = false from getD_replicate_false n w hw]
        simp)
      (by simp) (by simp)
  refine ⟨c3, ?_, c6⟩
  intro v
  constructor
  · intro hv
    rcases c5 v hv with h | h
    · simp at h
    · exact h
  · intro hr
    induction hr with
    | refl =>
      rw [hd]
      simp
    | tail hab hbc ih =>
      rename_i b c
      have hcn : c < n := adj_lt_of_graphOK hg b c hbc
      rcases c4 b ih with h | h
      · simp at h
      · exact (c2 c hcn).mp (h c hbc)

/-- The all-components recursive DFS outer loop processes every start vertex
while keeping the visited array and the accumulated order in sync. -/
theorem dfsAllLoop_run {g : List (List Nat)} {n : Nat} (hg : GraphOK g n) :
    ∀ (starts : List Nat) (visited : List Bool) (order : List Nat),
      visited.length = n →
      (∀ w ∈ starts, w < n) →
      (∀ w ∈ order, w < n) →
      (∀ w, w < n → (visited.getD w true = true ↔ w ∈ order)) →
      order.Nodup →
      (dfsAllLoop g starts visited order).1.length = n ∧
      (∀ w, w < n → (((dfsAllLoop g starts visited order).1).getD w true = true ↔
        w ∈ (dfsAllLoop g starts visited order).2)) ∧
      (dfsAllLoop g starts visited order).2.Nodup ∧
      (∃ ext, (dfsAllLoop g starts visited order).2 = order ++ ext) ∧
      (∀ w ∈ (dfsAllLoop g starts visited order).2, w < n) ∧
      (∀ s ∈ starts, s ∈ (dfsAllLoop g starts visited order).2)
  | [], visited, order => by
    intro hlen hstarts horder hmem hnodup
    simp only [dfsAllLoop]
    exact ⟨hlen, hmem, hnodup, ⟨[], by simp⟩, horder, by simp⟩
  | start :: starts, visited, order => by
    intro hlen hstarts horder hmem hnodup
    have hsn : start < n := hstarts start (List.mem_cons_self start starts)
    by_cases h : visited.getD start true = true
    · have hstep : dfsAllLoop g (start :: starts) visited order
          = dfsAllLoop g starts visited order := by
        simp only [dfsAllLoop, if_pos h]
      rw [hstep]
      obtain ⟨c1, c2, c3, ⟨ext, hext⟩, c5, c6⟩ :=
        dfsAllLoop_run hg starts visited order hlen
          (fun w hw => hstarts w (List.mem_cons_of_mem start hw))
          horder hmem hnodup
      refine ⟨c1, c2, c3, ⟨ext, hext⟩, c5, ?_⟩
      intro s hsm
      rcases List.mem_cons.mp hsm with rfl | hsm
      · rw [hext]
        exact List.mem_append_left ext ((hmem s hsn).mp h)
      · exact c6 s hsm
    · have hfalse : visited.getD start true = false := not_getD_true _ h
      have hstep : dfsAllLoop g (start :: starts) visited order
          = dfsAllLoop g starts
              (dfsRec g (countFalse visited + 1) start visited order).1
              (dfsRec g (countFalse visited + 1) start visited order).2 := by
        simp only [dfsAllLoop, if_neg h]
      rw [hstep]
      obtain ⟨p1, p2, p3, p4, p5, p6, ⟨d, hd⟩, p8⟩ :=
        dfsRec_run hg (countFalse visited + 1) start visited order
          (le_refl _) hlen hsn hfalse hmem hnodup horder
      obtain ⟨c1, c2, c3, ⟨ext, hext⟩, c5, c6⟩ :=
        dfsAllLoop_run hg starts
          (dfsRec g (countFalse visited + 1) start visited order).1
          (dfsRec g (countFalse visited + 1) start visited order).2
          p1 (fun w hw => hstarts w (List.mem_cons_of_mem start hw))
          p6 p2 p3
      refine ⟨c1, c2, c3, ⟨start :: d ++ ext, ?_⟩, c5, ?_⟩
      · rw [hext, hd]
        simp
      · intro s hsm
        rcases List.mem_cons.mp hsm with rfl | hsm
        · rw [hext, hd]
          simp
        · exact c6 s hsm

/-- C3: from any start vertex, BFS, iterative DFS and recursive DFS (the
latter called with an all-false visited array and an empty accumulator) each
output every vertex reachable from `start` exactly once and no other vertex;
consequently the output length equals the size of any duplicate-free
enumeration of the reachable set. -/
theorem C3_single_source_reachability (g : List (List Nat)) (n start : Nat)
    (hg : GraphOK g n) (hs : start < n) :
    ((bfs_undirected g start n).Nodup ∧
      (∀ v, v ∈ bfs_undirected g start n ↔ Reach g start v)) ∧
    ((dfs_undirected_iterative g start n).Nodup ∧
      (∀ v, v ∈ dfs_undirected_iterative g start n ↔ Reach g start v)) ∧
    (((dfs_undirected_recursive g start (List.replicate n false) []).2).Nodup ∧
      (∀ v, v ∈ (dfs_undirected_recursive g start (List.replicate n false) []).2 ↔
        Reach g start v)) ∧
    (∀ l : List Nat, l.Nodup → (∀ v, v ∈ l ↔ Reach g start v) →
      (bfs_undirected g start n).length = l.length ∧
      (dfs_undirected_iterative g start n).length = l.length ∧
      ((dfs_undirected_recursive g start (List.replicate n false) []).2).length
        = l.length) := by
  obtain ⟨b1, b2, b3⟩ := bfs_undirected_spec hg start hs
  obtain ⟨i1, i2, i3⟩ := dfs_undirected_iterative_spec hg start hs
  obtain ⟨r1, r2, r3⟩ := dfs_undirected_recursive_spec hg start hs
  refine ⟨⟨b1, b2⟩, ⟨i1, i2⟩, ⟨r1, r2⟩, ?_⟩
  intro l hl hlmem
  refine ⟨?_, ?_, ?_⟩
  · exact ((List.perm_ext_iff_of_nodup b1 hl).mpr
      (fun v => (b2 v).trans (hlmem v).symm)).length_eq
  · exact ((List.perm_ext_iff_of_nodup i1 hl).mpr
      (fun v => (i2 v).trans (hlmem v).symm)).length_eq
  · exact ((List.perm_ext_iff_of_nodup r1 hl).mpr
      (fun v => (r2 v).trans (hlmem v).symm)).length_eq

/-- Witness for C3 on a concrete two-vertex graph. -/
theorem C3_single_source_reachability_witness :
    (bfs_undirected [[1], [0]] 0 2).Nodup :=
  (C3_single_source_reachability [[1], [0]] 2 0 (by decide) (by decide)).1.1

/-- C4: the all-components BFS and DFS each return a sequence of length
exactly `n` that contains every vertex index in `0..n-1` exactly once (a
permutation of `0..n-1`); the directed all-reachable BFS variant is the
same function. -/
theorem C4_all_components_permutation (g : List (List Nat)) (n : Nat)
    (hg : GraphOK g n) :
    (bfs_undirected_all_components g n).length = n ∧
    List.Perm (bfs_undirected_all_components g n) (List.range n) ∧
    (dfs_undirected_all_components g n).length = n ∧
    List.Perm (dfs_undirected_all_components g n) (List.range n) ∧
    bfs_directed_all_reachable g n = bfs_undirected_all_components g n := by
  have hmem0 : ∀ w, w < n →
      ((List.replicate n false).getD w true = true ↔ w ∈ ([] : List Nat)) := by
    intro w hw
    rw [show (List.replicate n false).getD w true
      = false from getD_replicate_false n w hw]
    simp
  obtain ⟨b1, b2, b3, b4, ⟨ext, hext⟩, b6, b7⟩ :=
    bfsAllLoop_run hg (List.range n) (List.replicate n false) []
      (by simp) (fun w hw => List.mem_range.mp hw) (by intro w hw; simp at hw)
      hmem0 (by simp) (by intro a ha; simp at ha)
  obtain ⟨d1, d2, d3, ⟨ext2, hext2⟩, d5, d6⟩ :=
    dfsAllLoop_run hg (List.range n) (List.replicate n false) []
      (by simp) (fun w hw => List.mem_range.mp hw) (by intro w hw; simp at hw)
      hmem0 (by simp)
  have hbperm : List.Perm (bfs_undirected_all_components g n) (List.range n) :=
    (List.perm_ext_iff_of_nodup b3 (List.nodup_range n)).mpr
      (fun a => ⟨fun h => List.mem_range.mpr (b6 a h),
        fun h => b7 a h⟩)
  have hdperm : List.Perm (dfs_undirected_all_components g n) (List.range n) :=
    (List.perm_ext_iff_of_nodup d3 (List.nodup_range n)).mpr
      (fun a => ⟨fun h => List.mem_range.mpr (d5 a h),
        fun h => d6 a h⟩)
  refine ⟨?_, hbperm, ?_, hdperm, rfl⟩
  · rw [hbperm.length_eq, List.length_range]
  · rw [hdperm.length_eq, List.length_range]

/-- Witness for C4 on a concrete two-vertex graph. -/
theorem C4_all_components_permutation_witness :
    (bfs_undirected_all_components [[1], [0]] 2).length = 2 :=
  (C4_all_components_permutation [[1], [0]] 2 (by decide)).1

/-! ## BFS distance layering (claim C5 machinery) -/

theorem mem_ballList_succ (g : List (List Nat)) (s k w : Nat) :
    w ∈ ballList g s (k + 1) ↔
      w ∈ ballList g s k ∨ ∃ p ∈ ballList g s k, w ∈ g.getD p [] := by
  simp [ballList, List.mem_append, List.mem_flatMap]

theorem ballList_mono {g : List (List Nat)} {s : Nat} :
    ∀ {j k : Nat}, j ≤ k → ∀ {w : Nat},
      w ∈ ballList g s j → w ∈ ballList g s k := by
  intro j k hjk
  induction hjk with
  | refl => exact fun hw => hw
  | @step m hm ih =>
    intro w hw
    exact (mem_ballList_succ g s m w).mpr (Or.inl (ih hw))

theorem ballList_lt {g : List (List Nat)} {n : Nat} (hg : GraphOK g n)
    {s : Nat} (hs : s < n) :
    ∀ (k : Nat), ∀ w ∈ ballList g s k, w < n
  | 0 => by
    intro w hw
    simp [ballList] at hw
    subst hw
    exact hs
  | k + 1 => by
    intro w hw
    rcases (mem_ballList_succ g s k w).mp hw with hw2 | ⟨p, hp, he⟩
    · exact ballList_lt hg hs k w hw2
    · exact adj_lt_of_graphOK hg p w he

theorem ballLE_of_layer_le {g : List (List Nat)} {s j k a b : Nat}
    (ha : layerAt g s j a) (hb : layerAt g s k b) (hjk : j ≤ k) :
    ballLE g s a b := by
  intro m hbm
  have hkm : k ≤ m := by
    by_contra hc
    exact hb.2 m (by omega) hbm
  exact ballList_mono (le_trans hjk hkm) ha.1

/-- The BFS layering invariant, run to completion: if the queue splits into a
block of exact layer `d` followed by a block of exact layer `d+1`, the whole
ball of radius `d` is already visited, and the order so far is sorted by
BFS-distance, then the final order is sorted by BFS-distance. -/
theorem bfsLoop_layers {g : List (List Nat)} {n start : Nat} (hg : GraphOK g n)
    (hs : start < n) :
    ∀ (fuel : Nat) (visited : List Bool) (queue order : List Nat)
      (d : Nat) (Q1 Q2 : List Nat),
      queue = Q1 ++ Q2 →
      countFalse visited + queue.length ≤ fuel →
      visited.length = n →
      (∀ w ∈ queue, w < n) →
      (∀ w ∈ order, w < n) →
      (∀ w, w < n → (visited.getD w true = true ↔ w ∈ order ∨ w ∈ queue)) →
      (order ++ queue).Nodup →
      (∀ a ∈ order, ∀ b ∈ g.getD a [], visited.getD b true = true) →
      (∀ w ∈ Q1, layerAt g start d w) →
      (∀ w ∈ Q2, layerAt g start (d + 1) w) →
      (∀ w ∈ ballList g start d, visited.getD w true = true) →
      (∀ w ∈ order, ∃ j, j ≤ d ∧ layerAt g start j w) →
      order.Pairwise (ballLE g start) →
      (bfsLoop g fuel visited queue order).2.Pairwise (ballLE g start)
  | 0, visited, queue, order => by
    intro d Q1 Q2 hqe hfuel hlen hqueue horder hmem hnodup hclosed hQ1 hQ2
      hball hordle hpw
    have hq : queue = [] := List.eq_nil_of_length_eq_zero (by omega)
    subst hq
    simpa only [bfsLoop] using hpw
  | fuel + 1, visited, [], order => by
    intro d Q1 Q2 hqe hfuel hlen hqueue horder hmem hnodup hclosed hQ1 hQ2
      hball hordle hpw
    simpa only [bfsLoop] using hpw
  | fuel + 1, visited, v :: rest, order => by
    intro d Q1 Q2 hqe hfuel hlen hqueue horder hmem hnodup hclosed hQ1 hQ2
      hball hordle hpw
    have hv : v < n := hqueue v (List.mem_cons_self v rest)
    -- normalize the split so that its first block starts at `v`
    obtain ⟨e, t, R2, hrest, hvlayer, ht, hR2, hball2, hordle2⟩ :
        ∃ e t R2, rest = t ++ R2 ∧ layerAt g start e v ∧
          (∀ w ∈ t, layerAt g start e w) ∧
          (∀ w ∈ R2, layerAt g start (e + 1) w) ∧
          (∀ w ∈ ballList g start e, visited.getD w true = true) ∧
          (∀ w ∈ order, ∃ j, j ≤ e ∧ layerAt g start j w) := by
      cases Q1 with
      | nil =>
        simp only [List.nil_append] at hqe
        have hball3 : ∀ w ∈ ballList g start (d + 1),
            visited.getD w true = true := by
          intro w hw
          rcases (mem_ballList_succ g start d w).mp hw with hw2 | ⟨p, hp, he⟩
          · exact hball w hw2
          · have hpn : p < n := ballList_lt hg hs d p hp
            rcases (hmem p hpn).mp (hball p hp) with hpo | hpq
            · exact hclosed p hpo w he
            · exfalso
              rw [hqe] at hpq
              exact (hQ2 p hpq).2 d (by omega) hp
        refine ⟨d + 1, rest, [], by simp, ?_, ?_, by simp, hball3, ?_⟩
        · exact hQ2 v (by rw [← hqe]; exact List.mem_cons_self v rest)
        · intro w hw
          exact hQ2 w (by rw [← hqe]; exact List.mem_cons_of_mem v hw)
        · intro w hw
          obtain ⟨j, hj, hl⟩ := hordle w hw
          exact ⟨j, by omega, hl⟩
      | cons q t =>
        simp only [List.cons_append] at hqe
        have hqv : v = q := (List.cons_eq_cons.mp hqe).1
        subst hqv
        have hrest2 : rest = t ++ Q2 := (List.cons_eq_cons.mp hqe).2
        exact ⟨d, t, Q2, hrest2,
          hQ1 v (List.mem_cons_self v t),
          fun w hw => hQ1 w (List.mem_cons_of_mem v hw),
          hQ2, hball, hordle⟩
    -- one BFS step
    obtain ⟨s1len, s1iff, s2mem, s2nodup, s1adj, s1meas⟩ :=
      bfsScan_spec (g.getD v []) visited
    have hadjn : ∀ u ∈ g.getD v [], u < n := adj_lt_of_graphOK hg v
    have hfuel1 : countFalse (bfsScan visited (g.getD v [])).1
        + (rest ++ (bfsScan visited (g.getD v [])).2).length ≤ fuel := by
      simp only [List.length_append]
      simp only [List.length_cons] at hfuel
      omega
    have hlen1 : (bfsScan visited (g.getD v [])).1.length = n := s1len.trans hlen
    have hqueue1 : ∀ w ∈ rest ++ (bfsScan visited (g.getD v [])).2, w < n := by
      intro w hw
      rcases List.mem_append.mp hw with hw | hw
      · exact hqueue w (List.mem_cons_of_mem v hw)
      · exact hadjn w (s2mem w hw).1
    have horder1 : ∀ w ∈ order ++ [v], w < n := by
      intro w hw
      rcases List.mem_append.mp hw with hw | hw
      · exact horder w hw
      · simp at hw
        subst hw
        exact hv
    have hmem1 : ∀ w, w < n →
        (((bfsScan visited (g.getD v [])).1).getD w true = true ↔
          w ∈ order ++ [v] ∨ w ∈ rest ++ (bfsScan visited (g.getD v [])).2) := by
      intro w hw
      rw [s1iff w, hmem w hw]
      simp only [List.mem_append, List.mem_cons, List.mem_singleton]
      tauto
    have hnodup1 : ((order ++ [v]) ++ (rest ++ (bfsScan visited (g.getD v [])).2)).Nodup := by
      rw [← List.append_assoc]
      rw [List.nodup_append]
      refine ⟨?_, s2nodup, ?_⟩
      · rw [List.append_assoc]
        simpa using hnodup
      · intro w hwl hwr
        have hvf : visited.getD w true = false := (s2mem w hwr).2
        have hwn : w < n := hadjn w (s2mem w hwr).1
        have : visited.getD w true = true := by
          rw [hmem w hwn]
          rcases List.mem_append.mp hwl with hw | hw
          · rcases List.mem_append.mp hw with hw | hw
            · exact Or.inl hw
            · simp at hw
              subst hw
              exact Or.inr (List.mem_cons_self w rest)
          · exact Or.inr (List.mem_cons_of_mem v hw)
        rw [this] at hvf
        simp at hvf
    have hclosed1 : ∀ a ∈ order ++ [v], ∀ b ∈ g.getD a [],
        ((bfsScan visited (g.getD v [])).1).getD b true = true := by
      intro a ha b hb
      rcases List.mem_append.mp ha with ha | ha
      · exact (s1iff b).mpr (Or.inl (hclosed a ha b hb))
      · simp at ha
        subst ha
        exact s1adj b hb
    -- the layering hypotheses for the next state
    have hnew_layer : ∀ u ∈ (bfsScan visited (g.getD v [])).2,
        layerAt g start (e + 1) u := by
      intro u hu
      obtain ⟨huadj, huf⟩ := s2mem u hu
      constructor
      · exact (mem_ballList_succ g start e u).mpr (Or.inr ⟨v, hvlayer.1, huadj⟩)
      · intro j hj hmemj
        have : u ∈ ballList g start e := ballList_mono (by omega) hmemj
        have := hball2 u this
        rw [this] at huf
        simp at huf
    have hR2' : ∀ w ∈ R2 ++ (bfsScan visited (g.getD v [])).2,
        layerAt g start (e + 1) w := by
      intro w hw
      rcases List.mem_append.mp hw with hw | hw
      · exact hR2 w hw
      · exact hnew_layer w hw
    have hball2' : ∀ w ∈ ballList g start e,
        ((bfsScan visited (g.getD v [])).1).getD w true = true :=
      fun w hw => (s1iff w).mpr (Or.inl (hball2 w hw))
    have hordle1 : ∀ w ∈ order ++ [v], ∃ j, j ≤ e ∧ layerAt g start j w := by
      intro w hw
      rcases List.mem_append.mp hw with hw | hw
      · exact hordle2 w hw
      · simp at hw
        subst hw
        exact ⟨e, le_refl e, hvlayer⟩
    have hpw1 : (order ++ [v]).Pairwise (ballLE g start) := by
      rw [List.pairwise_append]
      refine ⟨hpw, by simp, ?_⟩
      intro a ha b hb
      simp at hb
      subst hb
      obtain ⟨j, hj, hl⟩ := hordle2 a ha
      exact ballLE_of_layer_le hl hvlayer hj
    have hstep : bfsLoop g (fuel + 1) visited (v :: rest) order
        = bfsLoop g fuel (bfsScan visited (g.getD v [])).1
            (rest ++ (bfsScan visited (g.getD v [])).2) (order ++ [v]) := by
      simp only [bfsLoop]
    rw [hstep]
    exact bfsLoop_layers hg hs fuel (bfsScan visited (g.getD v [])).1
      (rest ++ (bfsScan visited (g.getD v [])).2) (order ++ [v])
      e t (R2 ++ (bfsScan visited (g.getD v [])).2)
      (by rw [hrest, List.append_assoc])
      hfuel1 hlen1 hqueue1 horder1 hmem1 hnodup1 hclosed1
      ht hR2' hball2' hordle1 hpw1

/-- The BFS discovery invariant, run to completion: every output vertex
other than `start` has an in-neighbor that appears strictly earlier in the
output (in particular the vertex it was first discovered from, which is its
earliest-output in-neighbor). -/
theorem bfsLoop_discoverer {g : List (List Nat)} {n : Nat} (hg : GraphOK g n)
    (start : Nat) :
    ∀ (fuel : Nat) (visited : List Bool) (queue order : List Nat),
      countFalse visited + queue.length ≤ fuel →
      visited.length = n →
      (∀ w ∈ queue, w < n) →
      (∀ w ∈ order, w < n) →
      (∀ w, w < n → (visited.getD w true = true ↔ w ∈ order ∨ w ∈ queue)) →
      (order ++ queue).Nodup →
      (∀ u ∈ order, u = start ∨ ∃ w, w ∈ order ∧ u ∈ g.getD w [] ∧
        order.indexOf w < order.indexOf u) →
      (∀ u ∈ queue, u = start ∨ ∃ w, w ∈ order ∧ u ∈ g.getD w []) →
      ∀ u ∈ (bfsLoop g fuel visited queue order).2, u = start ∨
        ∃ w, w ∈ (bfsLoop g fuel visited queue order).2 ∧ u ∈ g.getD w [] ∧
          (bfsLoop g fuel visited queue order).2.indexOf w <
            (bfsLoop g fuel visited queue order).2.indexOf u
  | 0, visited, queue, order => by
    intro hfuel hlen hqueue horder hmem hnodup horderd hqueued
    have hq : queue = [] := List.eq_nil_of_length_eq_zero (by omega)
    subst hq
    simpa only [bfsLoop] using horderd
  | fuel + 1, visited, [], order => by
    intro hfuel hlen hqueue horder hmem hnodup horderd hqueued
    simpa only [bfsLoop] using horderd
  | fuel + 1, visited, v :: rest, order => by
    intro hfuel hlen hqueue horder hmem hnodup horderd hqueued
    have hv : v < n := hqueue v (List.mem_cons_self v rest)
    obtain ⟨s1len, s1iff, s2mem, s2nodup, s1adj, s1meas⟩ :=
      bfsScan_spec (g.getD v []) visited
    have hadjn : ∀ u ∈ g.getD v [], u < n := adj_lt_of_graphOK hg v
    have hvnotin : v ∉ order := by
      intro hvo
      have hd := (List.nodup_append.mp hnodup).2.2
      exact hd hvo (List.mem_cons_self v rest)
    have hfuel1 : countFalse (bfsScan visited (g.getD v [])).1
        + (rest ++ (bfsScan visited (g.getD v [])).2).length ≤ fuel := by
      simp only [List.length_append]
      simp only [List.length_cons] at hfuel
      omega
    have hlen1 : (bfsScan visited (g.getD v [])).1.length = n := s1len.trans hlen
    have hqueue1 : ∀ w ∈ rest ++ (bfsScan visited (g.getD v [])).2, w < n := by
      intro w hw
      rcases List.mem_append.mp hw with hw | hw
      · exact hqueue w (List.mem_cons_of_mem v hw)
      · exact hadjn w (s2mem w hw).1
    have horder1 : ∀ w ∈ order ++ [v], w < n := by
      intro w hw
      rcases List.mem_append.mp hw with hw | hw
      · exact horder w hw
      · simp at hw
        subst hw
        exact hv
    have hmem1 : ∀ w, w < n →
        (((bfsScan visited (g.getD v [])).1).getD w true = true ↔
          w ∈ order ++ [v] ∨ w ∈ rest ++ (bfsScan visited (g.getD v [])).2) := by
      intro w hw
      rw [s1iff w, hmem w hw]
      simp only [List.mem_append, List.mem_cons, List.mem_singleton]
      tauto
    have hnodup1 : ((order ++ [v]) ++ (rest ++ (bfsScan visited (g.getD v [])).2)).Nodup := by
      rw [← List.append_assoc]
      rw [List.nodup_append]
      refine ⟨?_, s2nodup, ?_⟩
      · rw [List.append_assoc]
        simpa using hnodup
      · intro w hwl hwr
        have hvf : visited.getD w true = false := (s2mem w hwr).2
        have hwn : w < n := hadjn w (s2mem w hwr).1
        have : visited.getD w true = true := by
          rw [hmem w hwn]
          rcases List.mem_append.mp hwl with hw | hw
          · rcases List.mem_append.mp hw with hw | hw
            · exact Or.inl hw
            · simp at hw
              subst hw
              exact Or.inr (List.mem_cons_self w rest)
          · exact Or.inr (List.mem_cons_of_mem v hw)
        rw [this] at hvf
        simp at hvf
    have hidxv : (order ++ [v]).indexOf v = order.length := by
      rw [List.indexOf_append_of_not_mem hvnotin]
      simp
    have horderd1 : ∀ u ∈ order ++ [v], u = start ∨
        ∃ w, w ∈ order ++ [v] ∧ u ∈ g.getD w [] ∧
          (order ++ [v]).indexOf w < (order ++ [v]).indexOf u := by
      intro u hu
      rcases List.mem_append.mp hu with hu | hu
      · rcases horderd u hu with h | ⟨w, hwo, he, hidx⟩
        · exact Or.inl h
        · refine Or.inr ⟨w, List.mem_append_left _ hwo, he, ?_⟩
          rw [List.indexOf_append_of_mem hwo, List.indexOf_append_of_mem hu]
          exact hidx
      · simp at hu
        subst hu
        rcases hqueued u (List.mem_cons_self u rest) with h | ⟨w, hwo, he⟩
        · exact Or.inl h
        · refine Or.inr ⟨w, List.mem_append_left _ hwo, he, ?_⟩
          rw [List.indexOf_append_of_mem hwo, hidxv]
          exact List.indexOf_lt_length.mpr hwo
    have hqueued1 : ∀ u ∈ rest ++ (bfsScan visited (g.getD v [])).2,
        u = start ∨ ∃ w, w ∈ order ++ [v] ∧ u ∈ g.getD w [] := by
      intro u hu
      rcases List.mem_append.mp hu with hu | hu
      · rcases hqueued u (List.mem_cons_of_mem v hu) with h | ⟨w, hwo, he⟩
        · exact Or.inl h
        · exact Or.inr ⟨w, List.mem_append_left _ hwo, he⟩
      · exact Or.inr ⟨v, List.mem_append_right _ (List.mem_singleton.mpr rfl),
          (s2mem u hu).1⟩
    have hstep : bfsLoop g (fuel + 1) visited (v :: rest) order
        = bfsLoop g fuel (bfsScan visited (g.getD v [])).1
            (rest ++ (bfsScan visited (g.getD v [])).2) (order ++ [v]) := by
      simp only [bfsLoop]
    rw [hstep]
    exact bfsLoop_discoverer hg start fuel (bfsScan visited (g.getD v [])).1
      (rest ++ (bfsScan visited (g.getD v [])).2) (order ++ [v])
      hfuel1 hlen1 hqueue1 horder1 hmem1 hnodup1 horderd1 hqueued1

/-- C5: the BFS output is ordered by non-decreasing BFS distance from
`start` — any vertex inside the radius-`k` ball precedes any output vertex
outside it (so all of layer `k` precedes all of layer `k+1`) — and every
output vertex other than `start` is preceded by an in-neighbor (in
particular by the vertex that first discovered it, its earliest-output
in-neighbor); `bfs_directed` is the same function. -/
theorem C5_bfs_layering (g : List (List Nat)) (n start : Nat)
    (hg : GraphOK g n) (hs : start < n) :
    (∀ k u v, u ∈ bfs_undirected g start n → v ∈ bfs_undirected g start n →
      u ∈ ballList g start k → v ∉ ballList g start k →
      (bfs_undirected g start n).indexOf u < (bfs_undirected g start n).indexOf v) ∧
    (∀ u ∈ bfs_undirected g start n, u ≠ start →
      ∃ w, w ∈ bfs_undirected g start n ∧ u ∈ g.getD w [] ∧
        (bfs_undirected g start n).indexOf w <
          (bfs_undirected g start n).indexOf u) ∧
    bfs_directed g start n = bfs_undirected g start n := by
  have hrep : (List.replicate n false).getD start true = false :=
    getD_replicate_false n start hs
  have hcf : countFalse ((List.replicate n false).set start true) + 1 = n := by
    rw [countFalse_set_true _ _ hrep, countFalse_replicate]
  have hlen0 : ((List.replicate n false).set start true).length = n := by simp
  have hqueue0 : ∀ w ∈ [start], w < n := by
    intro w hw
    simp at hw
    subst hw
    exact hs
  have horder0 : ∀ w ∈ ([] : List Nat), w < n := by
    intro w hw
    simp at hw
  have hmem0 : ∀ w, w < n →
      (((List.replicate n false).set start true).getD w true = true ↔
        w ∈ ([] : List Nat) ∨ w ∈ [start]) := by
    intro w hw
    rw [getD_set_true_iff]
    rw [show (List.replicate n false).getD w true
      = false from getD_replicate_false n w hw]
    simp
  have hnodup0 : (([] : List Nat) ++ [start]).Nodup := by simp
  have hclosed0 : ∀ a ∈ ([] : List Nat), ∀ b ∈ g.getD a [],
      ((List.replicate n false).set start true).getD b true = true := by
    intro a ha
    simp at ha
  obtain ⟨hnodup, hmemiff, hbound⟩ := bfs_undirected_spec hg start hs
  refine ⟨?_, ?_, rfl⟩
  · have hpw : (bfs_undirected g start n).Pairwise (ballLE g start) := by
      unfold bfs_undirected
      exact bfsLoop_layers hg hs n ((List.replicate n false).set start true)
        [start] [] 0 [start] []
        (by simp) (by simp; omega) hlen0 hqueue0 horder0 hmem0 hnodup0 hclosed0
        (by
          intro w hw
          simp at hw
          subst hw
          exact ⟨by simp [ballList], by intro j hj; omega⟩)
        (by intro w hw; simp at hw)
        (by
          intro w hw
          simp [ballList] at hw
          subst hw
          exact getD_set_true_self _ w)
        (by intro w hw; simp at hw)
        (by simp)
    intro k u v hu hv hbu hbv
    have hne : u ≠ v := by
      intro he
      subst he
      exact hbv hbu
    have hiu : (bfs_undirected g start n).indexOf u
        < (bfs_undirected g start n).length := List.indexOf_lt_length.mpr hu
    have hiv : (bfs_undirected g start n).indexOf v
        < (bfs_undirected g start n).length := List.indexOf_lt_length.mpr hv
    rcases lt_trichotomy ((bfs_undirected g start n).indexOf u)
      ((bfs_undirected g start n).indexOf v) with h | h | h
    · exact h
    · exfalso
      apply hne
      have h1 := List.getElem_indexOf hiu
      have h2 := List.getElem_indexOf hiv
      rw [← h1, ← h2]
      congr 1
    · exfalso
      have := List.pairwise_iff_getElem.mp hpw _ _ hiv hiu h
      rw [List.getElem_indexOf hiv, List.getElem_indexOf hiu] at this
      exact hbv (this k hbu)
  · have hdisc := bfsLoop_discoverer hg start n
      ((List.replicate n false).set start true) [start] []
      (by simp; omega) hlen0 hqueue0 horder0 hmem0 hnodup0
      (by intro u hu; simp at hu)
      (by
        intro u hu
        simp at hu
        subst hu
        exact Or.inl rfl)
    intro u hu hne
    rcases hdisc u hu with h | h
    · exact absurd h hne
    · exact h

/-- Witness for C5 on a concrete two-vertex graph. -/
theorem C5_bfs_layering_witness :
    bfs_directed [[1], [0]] 0 2 = bfs_undirected [[1], [0]] 0 2 :=
  (C5_bfs_layering [[1], [0]] 2 0 (by decide) (by decide)).2.2

/-! ## Kahn topological sort (claims C1, C2, C6 machinery) -/

theorem getD_default_eq {α : Type} (l : List α) (u : Nat) (h : u < l.length)
    (d1 d2 : α) : l.getD u d1 = l.getD u d2 := by
  rw [List.getD_eq_getElem _ _ h, List.getD_eq_getElem _ _ h]

theorem edgesInto_cons (g : List (List Nat)) (v : Nat) (l : List Nat) (u : Nat) :
    edgesInto g (v :: l) u = (g.getD v []).count u + edgesInto g l u := by
  simp [edgesInto]

theorem edgesInto_append (g : List (List Nat)) (l1 l2 : List Nat) (u : Nat) :
    edgesInto g (l1 ++ l2) u = edgesInto g l1 u + edgesInto g l2 u := by
  simp [edgesInto]

theorem edgesInto_le_of_subperm {g : List (List Nat)} {l L : List Nat}
    (h : List.Subperm l L) (u : Nat) : edgesInto g l u ≤ edgesInto g L u := by
  obtain ⟨m, hp, hs⟩ := h
  unfold edgesInto
  calc (l.map (fun a => (g.getD a []).count u)).sum
      = (m.map (fun a => (g.getD a []).count u)).sum :=
        ((hp.map (fun a => (g.getD a []).count u)).sum_eq).symm
    _ ≤ (L.map (fun a => (g.getD a []).count u)).sum :=
        List.Sublist.sum_le_sum (hs.map (fun a => (g.getD a []).count u))
          (fun a _ => Nat.zero_le a)

theorem edgesInto_eq_filter (g : List (List Nat)) (u : Nat) (p : Nat → Bool) :
    ∀ (L : List Nat), (∀ a ∈ L, p a = false → (g.getD a []).count u = 0) →
      edgesInto g L u = edgesInto g (L.filter p) u
  | [], _ => rfl
  | a :: L, h => by
    have ih := edgesInto_eq_filter g u p L
      (fun b hb hpb => h b (List.mem_cons_of_mem a hb) hpb)
    by_cases hpa : p a = true
    · rw [edgesInto_cons, List.filter_cons_of_pos hpa, edgesInto_cons, ih]
    · have h0 : (g.getD a []).count u = 0 :=
        h a (List.mem_cons_self a L) (by simpa using hpa)
      rw [edgesInto_cons, List.filter_cons_of_neg hpa, h0, ih]
      simp

theorem inDegScan_spec :
    ∀ (adj : List Nat) (d : List Int),
      (inDegScan d adj).length = d.length ∧
      (∀ u, u < d.length →
        (inDegScan d adj).getD u 0 = d.getD u 0 + (adj.count u : Int))
  | [], d => ⟨rfl, by intro u hu; simp [inDegScan]⟩
  | a :: adj, d => by
    obtain ⟨ih1, ih2⟩ := inDegScan_spec adj (d.set a (d.getD a 0 + 1))
    have hstep : inDegScan d (a :: adj)
        = inDegScan (d.set a (d.getD a 0 + 1)) adj := rfl
    constructor
    · rw [hstep, ih1]
      simp
    · intro u hu
      rw [hstep, ih2 u (by simpa using hu)]
      rcases eq_or_ne u a with rfl | hne
      · rw [getD_set_eq d u _ 0 hu]
        simp [List.count_cons]
        ring
      · rw [getD_set_ne d a u _ 0 hne]
        simp [List.count_cons, hne]

theorem inDegLoop_spec (g : List (List Nat)) :
    ∀ (vs : List Nat) (d : List Int),
      (inDegLoop g vs d).length = d.length ∧
      (∀ u, u < d.length →
        (inDegLoop g vs d).getD u 0 = d.getD u 0 + (edgesInto g vs u : Int))
  | [], d => ⟨rfl, by intro u hu; simp [inDegLoop, edgesInto]⟩
  | v :: vs, d => by
    obtain ⟨s1, s2⟩ := inDegScan_spec (g.getD v []) d
    obtain ⟨ih1, ih2⟩ := inDegLoop_spec g vs (inDegScan d (g.getD v []))
    have hstep : inDegLoop g (v :: vs) d
        = inDegLoop g vs (inDegScan d (g.getD v [])) := rfl
    constructor
    · rw [hstep, ih1, s1]
    · intro u hu
      rw [hstep, ih2 u (by rw [s1]; exact hu), s2 u hu, edgesInto_cons]
      push_cast
      ring

theorem kahnScan_spec :
    ∀ (adj : List Nat) (deg : List Int),
      (kahnScan deg adj).1.length = deg.length ∧
      (∀ u, u < deg.length →
        (kahnScan deg adj).1.getD u 0 = deg.getD u 0 - (adj.count u : Int)) ∧
      (∀ u, u ∈ (kahnScan deg adj).2 ↔
        (u < deg.length ∧ 1 ≤ deg.getD u 0 ∧
          deg.getD u 0 ≤ (adj.count u : Int))) ∧
      (kahnScan deg adj).2.Nodup
  | [], deg => by
    refine ⟨rfl, ?_, ?_, by simp [kahnScan]⟩
    · intro u hu
      simp [kahnScan]
    · intro u
      constructor
      · intro h
        simp [kahnScan] at h
      · rintro ⟨h1, h2, h3⟩
        rw [show ((List.count u [] : Nat) : Int) = 0 by simp] at h3
        omega
  | a :: adj, deg => by
    have hstep : kahnScan deg (a :: adj)
        = ((kahnScan (deg.set a (deg.getD a 0 - 1)) adj).1,
           if (deg.set a (deg.getD a 0 - 1)).getD a 1 = 0
           then a :: (kahnScan (deg.set a (deg.getD a 0 - 1)) adj).2
           else (kahnScan (deg.set a (deg.getD a 0 - 1)) adj).2) := rfl
    obtain ⟨ih1, ih2, ih3, ih4⟩ := kahnScan_spec adj (deg.set a (deg.getD a 0 - 1))
    have hlen : (deg.set a (deg.getD a 0 - 1)).length = deg.length := by simp
    have hcnt_self : ((a :: adj).count a : Int) = (adj.count a : Int) + 1 := by
      simp [List.count_cons]
    rw [hstep]
    refine ⟨?_, ?_, ?_, ?_⟩
    · rw [ih1, hlen]
    · intro u hu
      rw [ih2 u (by rw [hlen]; exact hu)]
      rcases eq_or_ne u a with rfl | hne
      · rw [getD_set_eq deg u _ 0 hu]
        simp [List.count_cons]
        ring
      · rw [getD_set_ne deg a u _ 0 hne]
        simp [List.count_cons, hne]
    · intro u
      by_cases ha : a < deg.length
      · have hset0 : (deg.set a (deg.getD a 0 - 1)).getD a 0 = deg.getD a 0 - 1 :=
          getD_set_eq deg a _ 0 ha
        have hset1 : (deg.set a (deg.getD a 0 - 1)).getD a 1 = deg.getD a 0 - 1 :=
          getD_set_eq deg a _ 1 ha
        rcases eq_or_ne u a with rfl | hne
        · by_cases hz : (deg.set u (deg.getD u 0 - 1)).getD u 1 = 0
          · rw [if_pos hz]
            rw [hset1] at hz
            simp only [List.mem_cons, true_or, true_iff]
            refine ⟨ha, by omega, ?_⟩
            rw [hcnt_self]
            omega
          · rw [if_neg hz]
            rw [hset1] at hz
            rw [ih3 u, hlen, hset0, hcnt_self]
            constructor
            · rintro ⟨h1, h2, h3⟩
              exact ⟨h1, by omega, by omega⟩
            · rintro ⟨h1, h2, h3⟩
              exact ⟨h1, by omega, by omega⟩
        · have hmemiff : u ∈ (if (deg.set a (deg.getD a 0 - 1)).getD a 1 = 0
              then a :: (kahnScan (deg.set a (deg.getD a 0 - 1)) adj).2
              else (kahnScan (deg.set a (deg.getD a 0 - 1)) adj).2) ↔
              u ∈ (kahnScan (deg.set a (deg.getD a 0 - 1)) adj).2 := by
            split
            · simp [hne]
            · exact Iff.rfl
          rw [hmemiff, ih3 u, hlen, getD_set_ne deg a u _ 0 hne]
          have : ((a :: adj).count u : Int) = (adj.count u : Int) := by
            simp [List.count_cons, hne]
          rw [this]
      · have hz : ¬ (deg.set a (deg.getD a 0 - 1)).getD a 1 = 0 := by
          rw [getD_of_length_le _ a 1 (by rw [hlen]; omega)]
          omega
        rw [if_neg hz]
        rcases eq_or_ne u a with rfl | hne
        · rw [ih3 u, hlen]
          constructor
          · rintro ⟨h1, _, _⟩
            omega
          · rintro ⟨h1, _, _⟩
            omega
        · rw [ih3 u, hlen, getD_set_ne deg a u _ 0 hne]
          have : ((a :: adj).count u : Int) = (adj.count u : Int) := by
            simp [List.count_cons, hne]
          rw [this]
    · by_cases hz : (deg.set a (deg.getD a 0 - 1)).getD a 1 = 0
      · rw [if_pos hz]
        refine List.Nodup.cons ?_ ih4
        intro hmem
        obtain ⟨h1, h2, h3⟩ := (ih3 a).mp hmem
        have ha : a < deg.length := by rw [← hlen]; exact h1
        rw [getD_set_eq deg a _ 0 ha] at h2
        rw [getD_set_eq deg a _ 1 ha] at hz
        omega
      · rw [if_neg hz]
        exact ih4

theorem inDegree_spec (g : List (List Nat)) (n : Nat) :
    (inDegree g n).length = n ∧
    (∀ u, u < n →
      (inDegree g n).getD u 0 = (edgesInto g (List.range n) u : Int)) := by
  obtain ⟨h1, h2⟩ := inDegLoop_spec g (List.range n) (List.replicate n (0 : Int))
  constructor
  · rw [inDegree, h1]
    simp
  · intro u hu
    rw [inDegree, h2 u (by simpa using hu)]
    rw [show (List.replicate n (0 : Int)).getD u 0 = 0 by
      rw [List.getD_eq_getElem _ _ (by simpa using hu)]
      simp]
    ring

/-- If the edges into `u` from a duplicate-free set of processed vertices
already account for all edges into `u`, then every in-neighbor of `u` is
among the processed vertices. -/
theorem preds_processed {g : List (List Nat)} {n : Nat}
    (result : List Nat) (hnodup : result.Nodup) (hsub : ∀ w ∈ result, w < n)
    (u : Nat)
    (hfull : edgesInto g result u = edgesInto g (List.range n) u) :
    ∀ a, a < n → u ∈ g.getD a [] → a ∈ result := by
  intro a ha hu
  by_contra hnot
  have hnodup2 : (a :: result).Nodup := List.Nodup.cons hnot hnodup
  have hsubp : List.Subperm (a :: result) (List.range n) :=
    List.Nodup.subperm hnodup2 (by
      intro w hw
      rcases List.mem_cons.mp hw with rfl | hw
      · exact List.mem_range.mpr ha
      · exact List.mem_range.mpr (hsub w hw))
  have hle : edgesInto g (a :: result) u ≤ edgesInto g (List.range n) u :=
    edgesInto_le_of_subperm hsubp u
  rw [edgesInto_cons] at hle
  have hpos : 0 < (g.getD a []).count u := List.count_pos_iff.mpr hu
  omega

/-- If fewer edges into `u` have been processed than exist, some in-neighbor
of `u` is still unprocessed. -/
theorem pred_missing {g : List (List Nat)} {n : Nat}
    (result : List Nat) (u : Nat)
    (hlt : edgesInto g result u < edgesInto g (List.range n) u) :
    ∃ a, a < n ∧ a ∉ result ∧ u ∈ g.getD a [] := by
  by_contra hc
  push_neg at hc
  have hall : ∀ a, a < n → u ∈ g.getD a [] → a ∈ result := by
    intro a ha hu
    by_contra hnot
    exact (hc a ha hnot) hu
  have h1 : edgesInto g (List.range n) u
      = edgesInto g ((List.range n).filter (fun a => decide (a ∈ result))) u := by
    apply edgesInto_eq_filter
    intro a haL hpa
    have han : a < n := List.mem_range.mp haL
    have hanotin : a ∉ result := by
      intro hmem
      rw [decide_eq_true hmem] at hpa
      simp at hpa
    rw [List.count_eq_zero]
    intro hu
    exact hanotin (hall a han hu)
  have h2 : List.Subperm
      ((List.range n).filter (fun a => decide (a ∈ result))) result := by
    refine List.Nodup.subperm ((List.nodup_range n).filter _) ?_
    intro w hw
    have := (List.mem_filter.mp hw).2
    simpa using this
  have h3 := edgesInto_le_of_subperm (g := g) h2 u
  omega

/-- The Kahn loop invariant: the processed list stays duplicate-free and
edge-respecting (all in-neighbors of a processed vertex processed before
it), and if the loop terminates with fewer than `result.length + fuel`
outputs (i.e. by queue exhaustion), every unprocessed vertex has an
unprocessed in-neighbor. -/
theorem kahnLoop_run {g : List (List Nat)} {n : Nat} (hg : GraphOK g n) :
    ∀ (fuel : Nat) (deg : List Int) (pending result : List Nat),
      deg.length = n →
      (result ++ pending).Nodup →
      (∀ w ∈ result ++ pending, w < n) →
      (∀ u, u < n → deg.getD u 0
        = (edgesInto g (List.range n) u : Int) - (edgesInto g result u : Int)) →
      (∀ u, u < n → ((u ∈ result ∨ u ∈ pending) ↔ deg.getD u 0 = 0)) →
      (∀ b ∈ result, ∀ a, a < n → b ∈ g.getD a [] →
        a ∈ result ∧ result.indexOf a < result.indexOf b) →
      (kahnLoop g fuel deg pending result).Nodup ∧
      (∀ w ∈ kahnLoop g fuel deg pending result, w < n) ∧
      (∃ ext, kahnLoop g fuel deg pending result = result ++ ext) ∧
      (∀ b ∈ kahnLoop g fuel deg pending result, ∀ a, a < n → b ∈ g.getD a [] →
        a ∈ kahnLoop g fuel deg pending result ∧
        (kahnLoop g fuel deg pending result).indexOf a
          < (kahnLoop g fuel deg pending result).indexOf b) ∧
      ((kahnLoop g fuel deg pending result).length < result.length + fuel →
        ∀ u, u < n → u ∉ kahnLoop g fuel deg pending result →
          ∃ a, a < n ∧ a ∉ kahnLoop g fuel deg pending result ∧ u ∈ g.getD a [])
  | 0, deg, pending, result => by
    intro hlen hnodup hbound hdeg hzero hresp
    simp only [kahnLoop]
    refine ⟨(List.nodup_append.mp hnodup).1,
      fun w hw => hbound w (List.mem_append_left _ hw),
      ⟨[], by simp⟩, hresp, ?_⟩
    intro h
    exact absurd h (by omega)
  | fuel + 1, deg, [], result => by
    intro hlen hnodup hbound hdeg hzero hresp
    simp only [kahnLoop]
    have hrnodup : result.Nodup := by simpa using hnodup
    refine ⟨hrnodup, fun w hw => hbound w (List.mem_append_left _ hw),
      ⟨[], by simp⟩, hresp, ?_⟩
    intro _ u hu hunot
    have hdne : ¬ deg.getD u 0 = 0 := by
      intro h0
      rcases (hzero u hu).mpr h0 with h | h
      · exact hunot h
      · simp at h
    have hsubp : List.Subperm result (List.range n) :=
      List.Nodup.subperm hrnodup (fun w hw =>
        List.mem_range.mpr (hbound w (List.mem_append_left _ hw)))
    have hle : edgesInto g result u ≤ edgesInto g (List.range n) u :=
      edgesInto_le_of_subperm hsubp u
    have hd := hdeg u hu
    have hlt : edgesInto g result u < edgesInto g (List.range n) u := by omega
    exact pred_missing result u hlt
  | fuel + 1, deg, v :: rest, result => by
    intro hlen hnodup hbound hdeg hzero hresp
    have hv : v < n := hbound v (List.mem_append_right _ (List.mem_cons_self v rest))
    have hstep : kahnLoop g (fuel + 1) deg (v :: rest) result
        = kahnLoop g fuel (kahnScan deg (g.getD v [])).1
            (rest ++ (kahnScan deg (g.getD v [])).2) (result ++ [v]) := by
      simp only [kahnLoop]
    obtain ⟨k1, k2, k3, k4⟩ := kahnScan_spec (g.getD v []) deg
    have hrnodup : result.Nodup := (List.nodup_append.mp hnodup).1
    have hrsub : ∀ w ∈ result, w < n :=
      fun w hw => hbound w (List.mem_append_left _ hw)
    have hvnotin : v ∉ result := by
      intro hvr
      exact (List.nodup_append.mp hnodup).2.2 hvr (List.mem_cons_self v rest)
    have hsubp : List.Subperm result (List.range n) :=
      List.Nodup.subperm hrnodup (fun w hw => List.mem_range.mpr (hrsub w hw))
    have hdv : deg.getD v 0 = 0 :=
      (hzero v hv).mp (Or.inr (List.mem_cons_self v rest))
    have hfullv : edgesInto g result v = edgesInto g (List.range n) v := by
      have hle : edgesInto g result v ≤ edgesInto g (List.range n) v :=
        edgesInto_le_of_subperm hsubp v
      have hd := hdeg v hv
      omega
    have hpredv : ∀ a, a < n → v ∈ g.getD a [] → a ∈ result :=
      preds_processed result hrnodup hrsub v hfullv
    have hadjn : ∀ u ∈ g.getD v [], u < n := adj_lt_of_graphOK hg v
    -- freshly enqueued vertices were strictly positive, hence unseen
    have henq_fresh : ∀ u ∈ (kahnScan deg (g.getD v [])).2,
        u ∉ result ∧ u ∉ v :: rest ∧ u < n := by
      intro u hu
      obtain ⟨h1, h2, h3⟩ := (k3 u).mp hu
      have hun : u < n := by omega
      have hnotz : ¬ deg.getD u 0 = 0 := by omega
      constructor
      · intro hm
        exact hnotz ((hzero u hun).mp (Or.inl hm))
      constructor
      · intro hm
        exact hnotz ((hzero u hun).mp (Or.inr hm))
      · exact hun
    -- invariants for the next state
    have hlen1 : (kahnScan deg (g.getD v [])).1.length = n := k1.trans hlen
    have hnodup1 : ((result ++ [v]) ++ (rest ++ (kahnScan deg (g.getD v [])).2)).Nodup := by
      rw [← List.append_assoc]
      rw [List.nodup_append]
      refine ⟨?_, k4, ?_⟩
      · rw [List.append_assoc]
        simpa using hnodup
      · intro w hwl hwr
        obtain ⟨hw1, hw2, _⟩ := henq_fresh w hwr
        rcases List.mem_append.mp hwl with hw | hw
        · rcases List.mem_append.mp hw with hw | hw
          · exact hw1 hw
          · simp at hw
            subst hw
            exact hw2 (List.mem_cons_self w rest)
        · exact hw2 (List.mem_cons_of_mem v hw)
    have hbound1 : ∀ w ∈ (result ++ [v]) ++ (rest ++ (kahnScan deg (g.getD v [])).2),
        w < n := by
      intro w hw
      rcases List.mem_append.mp hw with hw | hw
      · rcases List.mem_append.mp hw with hw | hw
        · exact hrsub w hw
        · simp at hw
          subst hw
          exact hv
      · rcases List.mem_append.mp hw with hw | hw
        · exact hbound w (List.mem_append_right _ (List.mem_cons_of_mem v hw))
        · exact (henq_fresh w hw).2.2
    have hdeg1 : ∀ u, u < n → (kahnScan deg (g.getD v [])).1.getD u 0
        = (edgesInto g (List.range n) u : Int)
          - (edgesInto g (result ++ [v]) u : Int) := by
      intro u hu
      rw [k2 u (by omega), hdeg u hu, edgesInto_append, edgesInto_cons,
        show edgesInto g [] u = 0 from rfl]
      push_cast
      ring
    have hnonneg1 : ∀ u, u < n → 0 ≤ (kahnScan deg (g.getD v [])).1.getD u 0 := by
      intro u hu
      rw [hdeg1 u hu]
      have hn2 : (result ++ [v]).Nodup := by
        rw [List.nodup_append]
        exact ⟨hrnodup, by simp, by simpa using hvnotin⟩
      have hsubp2 : List.Subperm (result ++ [v]) (List.range n) := by
        refine List.Nodup.subperm hn2 ?_
        intro w hw
        rcases List.mem_append.mp hw with hw | hw
        · exact List.mem_range.mpr (hrsub w hw)
        · simp at hw
          subst hw
          exact List.mem_range.mpr hv
      have := edgesInto_le_of_subperm (g := g) hsubp2 u
      omega
    have hzero1 : ∀ u, u < n →
        ((u ∈ result ++ [v] ∨ u ∈ rest ++ (kahnScan deg (g.getD v [])).2) ↔
          (kahnScan deg (g.getD v [])).1.getD u 0 = 0) := by
      intro u hu
      constructor
      · intro hmem
        have hold : u ∈ result ∨ u ∈ v :: rest ∨
            u ∈ (kahnScan deg (g.getD v [])).2 := by
          rcases hmem with hm | hm
          · rcases List.mem_append.mp hm with hm | hm
            · exact Or.inl hm
            · simp at hm
              subst hm
              exact Or.inr (Or.inl (List.mem_cons_self u rest))
          · rcases List.mem_append.mp hm with hm | hm
            · exact Or.inr (Or.inl (List.mem_cons_of_mem v hm))
            · exact Or.inr (Or.inr hm)
        rcases hold with hm | hm | hm
        · -- already processed: its in-degree was zero and v is not an
          -- in-neighbor (all its in-edges already accounted for)
          have h0 : deg.getD u 0 = 0 := (hzero u hu).mp (Or.inl hm)
          have hfullu : edgesInto g result u = edgesInto g (List.range n) u := by
            have hle := edgesInto_le_of_subperm (g := g) hsubp u
            have hd := hdeg u hu
            omega
          have hcnt : (g.getD v []).count u = 0 := by
            rw [List.count_eq_zero]
            intro hmem2
            exact hvnotin (preds_processed result hrnodup hrsub u hfullu v hv hmem2)
          rw [k2 u (by omega), h0, hcnt]
          simp
        · have h0 : deg.getD u 0 = 0 := (hzero u hu).mp (Or.inr hm)
          have hfullu : edgesInto g result u = edgesInto g (List.range n) u := by
            have hle := edgesInto_le_of_subperm (g := g) hsubp u
            have hd := hdeg u hu
            omega
          have hcnt : (g.getD v []).count u = 0 := by
            rw [List.count_eq_zero]
            intro hmem2
            exact hvnotin (preds_processed result hrnodup hrsub u hfullu v hv hmem2)
          rw [k2 u (by omega), h0, hcnt]
          simp
        · obtain ⟨h1, h2, h3⟩ := (k3 u).mp hm
          have := hnonneg1 u hu
          rw [k2 u (by omega)] at this ⊢
          omega
      · intro h0
        by_cases hcnt : (g.getD v []).count u = 0
        · have hold : deg.getD u 0 = 0 := by
            rw [k2 u (by omega), hcnt] at h0
            simpa using h0
          rcases (hzero u hu).mpr hold with hm | hm
          · exact Or.inl (List.mem_append_left _ hm)
          · rcases List.mem_cons.mp hm with rfl | hm
            · exact Or.inl (List.mem_append_right _ (List.mem_singleton.mpr rfl))
            · exact Or.inr (List.mem_append_left _ hm)
        · have hold : deg.getD u 0 = ((g.getD v []).count u : Int) := by
            rw [k2 u (by omega)] at h0
            omega
          refine Or.inr (List.mem_append_right _ ?_)
          rw [k3 u]
          refine ⟨by omega, by omega, le_of_eq hold⟩
    have hresp1 : ∀ b ∈ result ++ [v], ∀ a, a < n → b ∈ g.getD a [] →
        a ∈ result ++ [v] ∧
        (result ++ [v]).indexOf a < (result ++ [v]).indexOf b := by
      intro b hb a ha hedge
      rcases List.mem_append.mp hb with hb | hb
      · obtain ⟨hmem, hidx⟩ := hresp b hb a ha hedge
        refine ⟨List.mem_append_left _ hmem, ?_⟩
        rw [List.indexOf_append_of_mem hmem, List.indexOf_append_of_mem hb]
        exact hidx
      · simp at hb
        subst hb
        have hmem := hpredv a ha hedge
        refine ⟨List.mem_append_left _ hmem, ?_⟩
        rw [List.indexOf_append_of_mem hmem,
          List.indexOf_append_of_not_mem hvnotin]
        simp only [List.indexOf_cons_self, Nat.add_zero]
        exact List.indexOf_lt_length.mpr hmem
    rw [hstep]
    obtain ⟨c1, c2, ⟨ext, hext⟩, c4, c5⟩ :=
      kahnLoop_run hg fuel (kahnScan deg (g.getD v [])).1
        (rest ++ (kahnScan deg (g.getD v [])).2) (result ++ [v])
        hlen1 hnodup1 hbound1 hdeg1 hzero1 hresp1
    refine ⟨c1, c2, ⟨v :: ext, by rw [hext]; simp⟩, c4, ?_⟩
    intro hcond
    apply c5
    simp only [List.length_append, List.length_singleton] at hcond ⊢
    omega

/-- Pigeonhole: in a finite vertex range, if every vertex of a nonempty set
has an in-neighbor inside the set, the graph has a directed cycle. -/
theorem hasCycle_of_all_have_pred {g : List (List Nat)} {n : Nat}
    (P : Nat → Prop) (u0 : Nat) (hu0 : P u0)
    (hPlt : ∀ u, P u → u < n)
    (hstep : ∀ u, P u → ∃ a, P a ∧ u ∈ g.getD a []) :
    HasCycle g := by
  classical
  let f : {u // P u} → {u // P u} := fun x =>
    ⟨Classical.choose (hstep x.1 x.2), (Classical.choose_spec (hstep x.1 x.2)).1⟩
  let x : Nat → {u // P u} := fun k => Nat.rec ⟨u0, hu0⟩ (fun _ prev => f prev) k
  have hedge : ∀ k, Edge g (x (k + 1)).1 (x k).1 := fun k =>
    (Classical.choose_spec (hstep (x k).1 (x k).2)).2
  have hchain : ∀ i j, i + 1 ≤ j → Relation.TransGen (Edge g) (x j).1 (x i).1 := by
    intro i j hij
    induction j, hij using Nat.le_induction with
    | base => exact Relation.TransGen.single (hedge i)
    | succ j hij ih => exact Relation.TransGen.head (hedge j) ih
  have hxlt : ∀ k, (x k).1 < n := fun k => hPlt _ (x k).2
  obtain ⟨a, b, hab, heq⟩ := Fintype.exists_ne_map_eq_of_card_lt
    (fun k : Fin (n + 1) => (⟨(x k.1).1, hxlt k.1⟩ : Fin n)) (by simp)
  have hvals : (x a.1).1 = (x b.1).1 := congrArg Fin.val heq
  have habv : a.1 ≠ b.1 := fun h => hab (Fin.ext h)
  rcases Nat.lt_or_ge a.1 b.1 with h | h
  · refine ⟨(x a.1).1, ?_⟩
    have := hchain a.1 b.1 h
    rw [hvals] at this ⊢
    exact this
  · have h2 : b.1 < a.1 := by omega
    refine ⟨(x b.1).1, ?_⟩
    have := hchain b.1 a.1 h2
    rw [← hvals] at this ⊢
    exact this

/-- A list in which every edge goes from an earlier to a later position
certifies acyclicity. -/
theorem not_hasCycle_of_topo {g : List (List Nat)} (l : List Nat)
    (hresp : ∀ a b, b ∈ g.getD a [] → l.indexOf a < l.indexOf b) :
    ¬ HasCycle g := by
  rintro ⟨v, hv⟩
  have hmono : ∀ x y, Relation.TransGen (Edge g) x y →
      l.indexOf x < l.indexOf y := by
    intro x y h
    induction h with
    | single he => exact hresp _ _ he
    | tail hxy he ih => exact lt_trans ih (hresp _ _ he)
  exact lt_irrefl _ (hmono v v hv)

theorem edge_src_lt {g : List (List Nat)} {n : Nat} (hg : GraphOK g n)
    {a b : Nat} (h : b ∈ g.getD a []) : a < n := by
  by_contra hc
  rw [getD_of_length_le g a [] (by rw [hg.1]; omega)] at h
  simp at h

/-- The full contract of `topological_sort_kahn`: a `some` answer is a
complete valid topological order, and a `none` answer certifies a cycle. -/
theorem topological_sort_kahn_spec {g : List (List Nat)} {n : Nat}
    (hg : GraphOK g n) :
    (∀ l, topological_sort_kahn g n = some l →
      l.Perm (List.range n) ∧
      (∀ a b, b ∈ g.getD a [] → l.indexOf a < l.indexOf b)) ∧
    (topological_sort_kahn g n = none → HasCycle g) := by
  have hds := inDegree_spec g n
  have hqmem : ∀ u, u ∈ (List.range n).filter
      (fun v => decide ((inDegree g n).getD v 0 = 0)) ↔
      (u < n ∧ (inDegree g n).getD u 0 = 0) := by
    intro u
    rw [List.mem_filter, List.mem_range]
    simp
  obtain ⟨c1, c2, ⟨ext, hext⟩, c4, c5⟩ :=
    kahnLoop_run hg n (inDegree g n)
      ((List.range n).filter (fun v => decide ((inDegree g n).getD v 0 = 0))) []
      hds.1
      (by
        simp only [List.nil_append]
        exact (List.nodup_range n).filter _)
      (by
        intro w hw
        simp only [List.nil_append] at hw
        exact ((hqmem w).mp hw).1)
      (by
        intro u hu
        rw [hds.2 u hu]
        rw [show edgesInto g [] u = 0 from rfl]
        simp)
      (by
        intro u hu
        constructor
        · intro h
          rcases h with h | h
          · simp at h
          · exact ((hqmem u).mp h).2
        · intro h
          exact Or.inr ((hqmem u).mpr ⟨hu, h⟩))
      (by
        intro b hb
        simp at hb)
  have hrsub : List.Subperm
      (kahnLoop g n (inDegree g n)
        ((List.range n).filter (fun v => decide ((inDegree g n).getD v 0 = 0))) [])
      (List.range n) :=
    List.Nodup.subperm c1 (fun w hw => List.mem_range.mpr (c2 w hw))
  have hform : topological_sort_kahn g n
      = if (kahnLoop g n (inDegree g n)
          ((List.range n).filter (fun v => decide ((inDegree g n).getD v 0 = 0)))
          []).length = n
        then some (kahnLoop g n (inDegree g n)
          ((List.range n).filter (fun v => decide ((inDegree g n).getD v 0 = 0)))
          [])
        else none := rfl
  constructor
  · intro l hl
    rw [hform] at hl
    split at hl
    case isTrue hlength =>
      have hlr : l = kahnLoop g n (inDegree g n)
          ((List.range n).filter (fun v => decide ((inDegree g n).getD v 0 = 0)))
          [] := (Option.some.inj hl).symm
      subst hlr
      have hperm := hrsub.perm_of_length_le (by rw [List.length_range]; omega)
      refine ⟨hperm, ?_⟩
      intro a b hedge
      have hbn : b < n := adj_lt_of_graphOK hg a b hedge
      have hbl : b ∈ kahnLoop g n (inDegree g n)
          ((List.range n).filter (fun v => decide ((inDegree g n).getD v 0 = 0)))
          [] := hperm.mem_iff.mpr (List.mem_range.mpr hbn)
      have han : a < n := edge_src_lt hg hedge
      exact (c4 b hbl a han hedge).2
    case isFalse => exact absurd hl (by simp)
  · intro hnone
    rw [hform] at hnone
    split at hnone
    case isTrue => exact absurd hnone (by simp)
    case isFalse hlength =>
      have hlt : (kahnLoop g n (inDegree g n)
          ((List.range n).filter (fun v => decide ((inDegree g n).getD v 0 = 0)))
          []).length < n := by
        have := hrsub.length_le
        rw [List.length_range] at this
        omega
      have hmiss : ∃ u, u < n ∧ u ∉ kahnLoop g n (inDegree g n)
          ((List.range n).filter (fun v => decide ((inDegree g n).getD v 0 = 0)))
          [] := by
        by_contra hc
        push_neg at hc
        have hsub2 : List.Subperm (List.range n)
            (kahnLoop g n (inDegree g n)
              ((List.range n).filter
                (fun v => decide ((inDegree g n).getD v 0 = 0))) []) :=
          List.Nodup.subperm (List.nodup_range n)
            (fun w hw => hc w (List.mem_range.mp hw))
        have := hsub2.length_le
        rw [List.length_range] at this
        omega
      obtain ⟨u0, hu0n, hu0not⟩ := hmiss
      exact hasCycle_of_all_have_pred
        (fun u => u < n ∧ u ∉ kahnLoop g n (inDegree g n)
          ((List.range n).filter (fun v => decide ((inDegree g n).getD v 0 = 0)))
          [])
        u0 ⟨hu0n, hu0not⟩ (fun u hu => hu.1)
        (by
          intro u hu
          obtain ⟨a, ha1, ha2, ha3⟩ := c5 (by simpa using hlt) u hu.1 hu.2
          exact ⟨a, ⟨ha1, ha2⟩, ha3⟩)

/-! ## Three-color DFS topological sort (claims C1, C2, C6 machinery) -/

theorem countWhite_set_gray (color : List Nat) (v : Nat)
    (h : color.getD v 2 = 0) :
    countWhite (color.set v 1) + 1 = countWhite color :=
  count_set_of_getD color v 1 0 2 h (by omega) (by omega)

theorem countWhite_set_le (color : List Nat) (v a : Nat) (ha : a ≠ 0) :
    countWhite (color.set v a) ≤ countWhite color :=
  count_set_le color v a 0 ha

/-- Writing GRAY or BLACK preserves the fact that all color reads yield one
of the three colors. -/
theorem col3_set (color : List Nat) (v a : Nat) (ha : a = 1 ∨ a = 2)
    (h : ∀ w, color.getD w 2 = 0 ∨ color.getD w 2 = 1 ∨ color.getD w 2 = 2) :
    ∀ w, (color.set v a).getD w 2 = 0 ∨ (color.set v a).getD w 2 = 1 ∨
      (color.set v a).getD w 2 = 2 := by
  intro w
  rcases eq_or_ne w v with rfl | hne
  · rcases Nat.lt_or_ge w color.length with hlt | hge
    · rw [getD_set_eq color w a 2 hlt]
      omega
    · rw [getD_of_length_le _ w 2 (by simpa using hge)]
      omega
  · rw [getD_set_ne color v w a 2 hne]
    exact h w

/-- The neighbor loop of the inner three-color DFS, assuming the stated
contract of the recursive calls: `v` is the GRAY vertex being expanded, all
GRAY vertices reach `v`, and `adj` is a suffix of `v`'s adjacency list.  A
`none` answer certifies a cycle; a `some` answer blackens all of `adj` while
preserving the invariant and the GRAY set. -/
theorem topoScan_run {g : List (List Nat)} {n : Nat} (hg : GraphOK g n)
    (fuel B : Nat)
    (hf : ∀ (v : Nat) (color result : List Nat),
      countWhite color + 1 ≤ fuel →
      color.length = n → v < n → color.getD v 2 = 0 →
      (∀ w, color.getD w 2 = 0 ∨ color.getD w 2 = 1 ∨ color.getD w 2 = 2) →
      TopoInv g n color result →
      (∀ w, w < n → color.getD w 2 = 1 → Reach g w v) →
      (topoVisit g fuel v color result = none → HasCycle g) ∧
      (∀ c r, topoVisit g fuel v color result = some (c, r) →
        c.length = n ∧
        (∀ w, c.getD w 2 = 0 ∨ c.getD w 2 = 1 ∨ c.getD w 2 = 2) ∧
        TopoInv g n c r ∧
        (∀ w, w < n → (c.getD w 2 = 1 ↔ color.getD w 2 = 1)) ∧
        (∀ w, w < n → color.getD w 2 = 2 → c.getD w 2 = 2) ∧
        c.getD v 2 = 2 ∧
        (∃ ext, r = result ++ ext) ∧
        countWhite c < countWhite color)) :
    ∀ (adj : List Nat) (color result : List Nat) (v : Nat),
      (∀ u ∈ adj, u < n) →
      (∀ u ∈ adj, u ∈ g.getD v []) →
      color.length = n →
      countWhite color ≤ B → B + 1 ≤ fuel →
      (∀ w, color.getD w 2 = 0 ∨ color.getD w 2 = 1 ∨ color.getD w 2 = 2) →
      TopoInv g n color result →
      (∀ w, w < n → color.getD w 2 = 1 → Reach g w v) →
      v < n → color.getD v 2 = 1 →
      (topoScan (topoVisit g fuel) adj color result = none → HasCycle g) ∧
      (∀ c r, topoScan (topoVisit g fuel) adj color result = some (c, r) →
        c.length = n ∧
        (∀ w, c.getD w 2 = 0 ∨ c.getD w 2 = 1 ∨ c.getD w 2 = 2) ∧
        TopoInv g n c r ∧
        (∀ w, w < n → (c.getD w 2 = 1 ↔ color.getD w 2 = 1)) ∧
        (∀ w, w < n → color.getD w 2 = 2 → c.getD w 2 = 2) ∧
        (∀ u ∈ adj, c.getD u 2 = 2) ∧
        (∃ ext, r = result ++ ext) ∧
        countWhite c ≤ countWhite color)
  | [], color, result, v => by
    intro hadjn hadjsub hlen hcfB hBf hc3 hInv hG hv hvgray
    constructor
    · intro h
      simp [topoScan] at h
    · intro c r h
      simp only [topoScan, Option.some.injEq, Prod.mk.injEq] at h
      obtain ⟨rfl, rfl⟩ := h
      exact ⟨hlen, hc3, hInv, fun w hw => Iff.rfl, fun w hw hb => hb,
        by simp, ⟨[], by simp⟩, le_refl _⟩
  | u :: adj, color, result, v => by
    intro hadjn hadjsub hlen hcfB hBf hc3 hInv hG hv hvgray
    have hun : u < n := hadjn u (List.mem_cons_self u adj)
    have hedgevu : u ∈ g.getD v [] := hadjsub u (List.mem_cons_self u adj)
    by_cases hgray : color.getD u 2 = 1
    · have hrw : topoScan (topoVisit g fuel) (u :: adj) color result = none := by
        simp only [topoScan, if_pos hgray]
      constructor
      · intro _
        exact ⟨u, Relation.TransGen.tail' (hG u hun hgray) hedgevu⟩
      · intro c r h
        rw [hrw] at h
        simp at h
    · by_cases hwhite : color.getD u 2 = 0
      · obtain ⟨hfn, hfs⟩ := hf u color result (by omega) hlen hun hwhite hc3 hInv
          (fun w hw hwg => Relation.ReflTransGen.tail (hG w hw hwg) hedgevu)
        cases hvis : topoVisit g fuel u color result with
        | none =>
          have hrw : topoScan (topoVisit g fuel) (u :: adj) color result = none := by
            simp only [topoScan, if_neg hgray, if_pos hwhite, hvis]
          constructor
          · intro _
            exact hfn hvis
          · intro c r h
            rw [hrw] at h
            simp at h
        | some s =>
          obtain ⟨c1, r1⟩ := s
          obtain ⟨p1, pc3, p2, p3, p4, p5, ⟨e1, he1⟩, p7⟩ := hfs c1 r1 hvis
          have hrw : topoScan (topoVisit g fuel) (u :: adj) color result
              = topoScan (topoVisit g fuel) adj c1 r1 := by
            simp only [topoScan, if_neg hgray, if_pos hwhite, hvis]
          obtain ⟨ihn, ihs⟩ := topoScan_run hg fuel B hf adj c1 r1 v
            (fun w hw => hadjn w (List.mem_cons_of_mem u hw))
            (fun w hw => hadjsub w (List.mem_cons_of_mem u hw))
            p1 (by omega) hBf pc3 p2
            (fun w hw hwg => hG w hw ((p3 w hw).mp hwg))
            hv ((p3 v hv).mpr hvgray)
          constructor
          · intro h
            rw [hrw] at h
            exact ihn h
          · intro c r h
            rw [hrw] at h
            obtain ⟨q1, qc3, q2, q3, q4, q5, ⟨e2, he2⟩, q7⟩ := ihs c r h
            refine ⟨q1, qc3, q2, ?_, ?_, ?_,
              ⟨e1 ++ e2, by rw [he2, he1, List.append_assoc]⟩, by omega⟩
            · intro w hw
              rw [q3 w hw, p3 w hw]
            · intro w hw hblack
              exact q4 w hw (p4 w hw hblack)
            · intro w hw
              rcases List.mem_cons.mp hw with rfl | hw
              · exact q4 w hun p5
              · exact q5 w hw
      · have hublack : color.getD u 2 = 2 := by
          rcases hc3 u with h | h | h
          · exact absurd h hwhite
          · exact absurd h hgray
          · exact h
        have hrw : topoScan (topoVisit g fuel) (u :: adj) color result
            = topoScan (topoVisit g fuel) adj color result := by
          simp only [topoScan, if_neg hgray, if_neg hwhite]
        obtain ⟨ihn, ihs⟩ := topoScan_run hg fuel B hf adj color result v
          (fun w hw => hadjn w (List.mem_cons_of_mem u hw))
          (fun w hw => hadjsub w (List.mem_cons_of_mem u hw))
          hlen hcfB hBf hc3 hInv hG hv hvgray
        constructor
        · intro h
          rw [hrw] at h
          exact ihn h
        · intro c r h
          rw [hrw] at h
          obtain ⟨q1, qc3, q2, q3, q4, q5, hext, q7⟩ := ihs c r h
          refine ⟨q1, qc3, q2, q3, q4, ?_, hext, q7⟩
          intro w hw
          rcases List.mem_cons.mp hw with rfl | hw
          · exact q4 w hun hublack
          · exact q5 w hw

/-- The contract of the inner `dfs(v)` of the three-color topological sort:
called on a WHITE vertex `v` with all GRAY vertices reaching `v`, it either
certifies a cycle (`none`) or finishes `v` and a set of its descendants
(`some`), preserving the invariant and the GRAY set exactly. -/
theorem topoVisit_run {g : List (List Nat)} {n : Nat} (hg : GraphOK g n) :
    ∀ (fuel : Nat) (v : Nat) (color result : List Nat),
      countWhite color + 1 ≤ fuel →
      color.length = n → v < n → color.getD v 2 = 0 →
      (∀ w, color.getD w 2 = 0 ∨ color.getD w 2 = 1 ∨ color.getD w 2 = 2) →
      TopoInv g n color result →
      (∀ w, w < n → color.getD w 2 = 1 → Reach g w v) →
      (topoVisit g fuel v color result = none → HasCycle g) ∧
      (∀ c r, topoVisit g fuel v color result = some (c, r) →
        c.length = n ∧
        (∀ w, c.getD w 2 = 0 ∨ c.getD w 2 = 1 ∨ c.getD w 2 = 2) ∧
        TopoInv g n c r ∧
        (∀ w, w < n → (c.getD w 2 = 1 ↔ color.getD w 2 = 1)) ∧
        (∀ w, w < n → color.getD w 2 = 2 → c.getD w 2 = 2) ∧
        c.getD v 2 = 2 ∧
        (∃ ext, r = result ++ ext) ∧
        countWhite c < countWhite color)
  | 0, v, color, result => by
    intro hfuel _ _ _ _ _ _
    exact absurd hfuel (by omega)
  | fuel + 1, v, color, result => by
    intro hfuel hlen hv hwhite hc3 hInv hG
    have hvlen : v < color.length := by omega
    have hInv1 : TopoInv g n (color.set v 1) result := by
      obtain ⟨i1, i2, i3, i4⟩ := hInv
      refine ⟨?_, i2, i3, i4⟩
      intro w hw
      rcases eq_or_ne w v with rfl | hne
      · rw [getD_set_eq color w 1 2 hvlen]
        constructor
        · intro h
          exact absurd h (by omega)
        · intro h
          have := (i1 w hw).mpr h
          omega
      · rw [getD_set_ne color v w 1 2 hne]
        exact i1 w hw
    have hcw : countWhite (color.set v 1) + 1 = countWhite color :=
      countWhite_set_gray color v hwhite
    obtain ⟨sn, ss⟩ := topoScan_run hg fuel (countWhite (color.set v 1))
      (fun w c r h1 h2 h3 h4 h5 h6 h7 =>
        topoVisit_run hg fuel w c r h1 h2 h3 h4 h5 h6 h7)
      (g.getD v []) (color.set v 1) result v
      (adj_lt_of_graphOK hg v) (fun w hw => hw)
      (by simpa using hlen) (le_refl _) (by omega)
      (col3_set color v 1 (Or.inl rfl) hc3) hInv1
      (by
        intro w hw hwg
        rcases eq_or_ne w v with rfl | hne
        · exact Relation.ReflTransGen.refl
        · rw [getD_set_ne color v w 1 2 hne] at hwg
          exact hG w hw hwg)
      hv (getD_set_eq color v 1 2 hvlen)
    cases hscan : topoScan (topoVisit g fuel) (g.getD v []) (color.set v 1) result with
    | none =>
      have hrw : topoVisit g (fuel + 1) v color result = none := by
        simp only [topoVisit, hscan]
      constructor
      · intro _
        exact sn hscan
      · intro c r h
        rw [hrw] at h
        simp at h
    | some s =>
      obtain ⟨c1, r1⟩ := s
      obtain ⟨q1, qc3, ⟨j1, j2, j3, j4⟩, q3, q4, q5, ⟨e1, he1⟩, q7⟩ := ss c1 r1 hscan
      have hrw : topoVisit g (fuel + 1) v color result
          = some ((c1.set v 2, r1 ++ [v]) : List Nat × List Nat) := by
        simp only [topoVisit, hscan]
      have hv1len : v < c1.length := by omega
      have hvgray1 : c1.getD v 2 = 1 :=
        (q3 v hv).mpr (getD_set_eq color v 1 2 hvlen)
      have hvnotin : v ∉ r1 := by
        intro hm
        have := (j1 v hv).mpr hm
        omega
      constructor
      · intro h
        rw [hrw] at h
        simp at h
      · intro c r h
        rw [hrw] at h
        simp only [Option.some.injEq, Prod.mk.injEq] at h
        obtain ⟨rfl, rfl⟩ := h
        refine ⟨by simpa using q1, col3_set c1 v 2 (Or.inr rfl) qc3,
          ⟨?_, ?_, ?_, ?_⟩, ?_, ?_, getD_set_eq c1 v 2 2 hv1len,
          ⟨e1 ++ [v], by rw [he1, List.append_assoc]⟩, ?_⟩
        · intro w hw
          rcases eq_or_ne w v with rfl | hne
          · rw [getD_set_eq c1 w 2 2 hv1len]
            simp
          · rw [getD_set_ne c1 v w 2 2 hne, j1 w hw]
            constructor
            · intro h2
              exact List.mem_append_left _ h2
            · intro h2
              rcases List.mem_append.mp h2 with h2 | h2
              · exact h2
              · simp at h2
                exact absurd h2 hne
        · rw [List.nodup_append]
          exact ⟨j2, by simp, by simpa using hvnotin⟩
        · intro w hw
          rcases List.mem_append.mp hw with hw | hw
          · exact j3 w hw
          · simp at hw
            subst hw
            exact hv
        · intro a ha b hb
          rcases List.mem_append.mp ha with ha | ha
          · obtain ⟨hbmem, hidx⟩ := j4 a ha b hb
            refine ⟨List.mem_append_left _ hbmem, ?_⟩
            rw [List.indexOf_append_of_mem hbmem, List.indexOf_append_of_mem ha]
            exact hidx
          · simp at ha
            subst ha
            have hbn : b < n := adj_lt_of_graphOK hg a b hb
            have hbblack : c1.getD b 2 = 2 := q5 b hb
            have hbmem : b ∈ r1 := (j1 b hbn).mp hbblack
            refine ⟨List.mem_append_left _ hbmem, ?_⟩
            rw [List.indexOf_append_of_mem hbmem,
              List.indexOf_append_of_not_mem hvnotin]
            simp only [List.indexOf_cons_self, Nat.add_zero]
            exact List.indexOf_lt_length.mpr hbmem
        · intro w hw
          rcases eq_or_ne w v with rfl | hne
          · rw [getD_set_eq c1 w 2 2 hv1len]
            constructor
            · intro h2
              exact absurd h2 (by omega)
            · intro h2
              omega
          · rw [getD_set_ne c1 v w 2 2 hne, q3 w hw,
              getD_set_ne color v w 1 2 hne]
        · intro w hw hblack
          have hwv : w ≠ v := by
            intro he
            rw [he, hwhite] at hblack
            omega
          rw [getD_set_ne c1 v w 2 2 hwv]
          exact q4 w hw (by rw [getD_set_ne color v w 1 2 hwv]; exact hblack)
        · have h1 : countWhite (c1.set v 2) ≤ countWhite c1 :=
            countWhite_set_le c1 v 2 (by omega)
          omega

/-- The outer loop of the three-color topological sort, starting from a
gray-free state: a `none` answer certifies a cycle, and a `some` answer is
the reverse of a duplicate-free post-order covering all start vertices in
which every edge points from a later to an earlier position. -/
theorem topoLoop_run {g : List (List Nat)} {n : Nat} (hg : GraphOK g n) :
    ∀ (starts : List Nat) (color result : List Nat),
      color.length = n →
      (∀ s ∈ starts, s < n) →
      (∀ w, color.getD w 2 = 0 ∨ color.getD w 2 = 1 ∨ color.getD w 2 = 2) →
      (∀ w, w < n → ¬ color.getD w 2 = 1) →
      TopoInv g n color result →
      (topoLoop g starts color result = none → HasCycle g) ∧
      (∀ l, topoLoop g starts color result = some l →
        ∃ r2, l = r2.reverse ∧ r2.Nodup ∧ (∀ w ∈ r2, w < n) ∧
          (∀ a ∈ r2, ∀ b ∈ g.getD a [],
            b ∈ r2 ∧ r2.indexOf b < r2.indexOf a) ∧
          (∃ ext, r2 = result ++ ext) ∧
          (∀ s ∈ starts, s ∈ r2))
  | [], color, result => by
    intro hlen hstarts hc3 hnogray hInv
    constructor
    · intro h
      simp [topoLoop] at h
    · intro l h
      simp only [topoLoop, Option.some.injEq] at h
      exact ⟨result, h.symm, hInv.2.1, hInv.2.2.1, hInv.2.2.2,
        ⟨[], by simp⟩, by simp⟩
  | start :: starts, color, result => by
    intro hlen hstarts hc3 hnogray hInv
    have hsn : start < n := hstarts start (List.mem_cons_self start starts)
    by_cases hwhite : color.getD start 2 = 0
    · obtain ⟨vn, vs⟩ := topoVisit_run hg (countWhite color + 1) start color result
        (le_refl _) hlen hsn hwhite hc3 hInv
        (fun w hw hg1 => absurd hg1 (hnogray w hw))
      cases hvis : topoVisit g (countWhite color + 1) start color result with
      | none =>
        have hrw : topoLoop g (start :: starts) color result = none := by
          simp only [topoLoop, if_pos hwhite, hvis]
        constructor
        · intro _
          exact vn hvis
        · intro l h
          rw [hrw] at h
          simp at h
      | some s =>
        obtain ⟨c1, r1⟩ := s
        obtain ⟨p1, pc3, pInv, p3, p4, p5, ⟨e1, he1⟩, p7⟩ := vs c1 r1 hvis
        have hrw : topoLoop g (start :: starts) color result
            = topoLoop g starts c1 r1 := by
          simp only [topoLoop, if_pos hwhite, hvis]
        obtain ⟨ihn, ihs⟩ := topoLoop_run hg starts c1 r1 p1
          (fun s hs => hstarts s (List.mem_cons_of_mem start hs)) pc3
          (fun w hw h1 => absurd ((p3 w hw).mp h1) (hnogray w hw)) pInv
        rw [hrw]
        constructor
        · exact ihn
        · intro l h
          obtain ⟨r2, hl, h2, h3, h4, ⟨e2, he2⟩, h6⟩ := ihs l h
          refine ⟨r2, hl, h2, h3, h4,
            ⟨e1 ++ e2, by rw [he2, he1, List.append_assoc]⟩, ?_⟩
          intro s hs
          rcases List.mem_cons.mp hs with rfl | hs
          · have hmem : s ∈ r1 := (pInv.1 s hsn).mp p5
            rw [he2]
            exact List.mem_append_left _ hmem
          · exact h6 s hs
    · have hsblack : color.getD start 2 = 2 := by
        rcases hc3 start with h | h | h
        · exact absurd h hwhite
        · exact absurd h (hnogray start hsn)
        · exact h
      have hrw : topoLoop g (start :: starts) color result
          = topoLoop g starts color result := by
        simp only [topoLoop, if_neg hwhite]
      obtain ⟨ihn, ihs⟩ := topoLoop_run hg starts color result hlen
        (fun s hs => hstarts s (List.mem_cons_of_mem start hs)) hc3 hnogray hInv
      rw [hrw]
      constructor
      · exact ihn
      · intro l h
        obtain ⟨r2, hl, h2, h3, h4, ⟨e2, he2⟩, h6⟩ := ihs l h
        refine ⟨r2, hl, h2, h3, h4, ⟨e2, he2⟩, ?_⟩
        intro s hs
        rcases List.mem_cons.mp hs with rfl | hs
        · rw [he2]
          exact List.mem_append_left _ ((hInv.1 s hsn).mp hsblack)
        · exact h6 s hs

theorem indexOf_eq_of_getElem {l : List Nat} (h : l.Nodup) {j a : Nat}
    (hj : j < l.length) (he : l[j] = a) : l.indexOf a = j := by
  have hmem : a ∈ l := he ▸ List.getElem_mem hj
  have hlt : l.indexOf a < l.length := List.indexOf_lt_length.mpr hmem
  have h1 : l[l.indexOf a] = a := List.getElem_indexOf hlt
  exact (List.Nodup.getElem_inj_iff h).mp (h1.trans he.symm)

theorem indexOf_reverse_nodup (l : List Nat) (h : l.Nodup) (a : Nat)
    (ha : a ∈ l) :
    l.reverse.indexOf a = l.length - 1 - l.indexOf a := by
  have hi : l.indexOf a < l.length := List.indexOf_lt_length.mpr ha
  have hj : l.length - 1 - l.indexOf a < l.reverse.length := by
    simp
    omega
  apply indexOf_eq_of_getElem (List.nodup_reverse.mpr h) hj
  rw [List.getElem_reverse]
  have hbase : l[l.indexOf a] = a := List.getElem_indexOf hi
  convert hbase using 2
  omega

/-- The full contract of `topological_sort_dfs`: a `some` answer is a
complete valid topological order, and a `none` answer certifies a cycle. -/
theorem topological_sort_dfs_spec {g : List (List Nat)} {n : Nat}
    (hg : GraphOK g n) :
    (∀ l, topological_sort_dfs g n = some l →
      l.Perm (List.range n) ∧
      (∀ a b, b ∈ g.getD a [] → l.indexOf a < l.indexOf b)) ∧
    (topological_sort_dfs g n = none → HasCycle g) := by
  have hrep0 : ∀ w, w < n → (List.replicate n (0 : Nat)).getD w 2 = 0 := by
    intro w hw
    rw [List.getD_eq_getElem _ _ (by simpa using hw)]
    simp
  obtain ⟨dn, ds⟩ := topoLoop_run hg (List.range n) (List.replicate n 0) []
    (by simp) (fun s hs => List.mem_range.mp hs)
    (by
      intro w
      rcases Nat.lt_or_ge w n with hw | hw
      · exact Or.inl (hrep0 w hw)
      · right
        right
        rw [getD_of_length_le _ w 2 (by simpa using hw)])
    (by
      intro w hw h1
      rw [hrep0 w hw] at h1
      omega)
    (by
      refine ⟨?_, by simp, by simp, by simp⟩
      intro w hw
      rw [hrep0 w hw]
      constructor
      · intro h
        omega
      · intro h
        simp at h)
  constructor
  · intro l hl
    obtain ⟨r2, hlrev, h2, h3, h4, _, h6⟩ := ds l hl
    have hsub : List.Subperm r2 (List.range n) :=
      List.Nodup.subperm h2 (fun w hw => List.mem_range.mpr (h3 w hw))
    have hsup : List.Subperm (List.range n) r2 :=
      List.Nodup.subperm (List.nodup_range n) (fun w hw => h6 w hw)
    have hperm2 : r2.Perm (List.range n) :=
      hsub.perm_of_length_le hsup.length_le
    have hperm : l.Perm (List.range n) := by
      rw [hlrev]
      exact (List.reverse_perm r2).trans hperm2
    refine ⟨hperm, ?_⟩
    intro a b hedge
    have han : a < n := edge_src_lt hg hedge
    have hamem : a ∈ r2 := h6 a (List.mem_range.mpr han)
    obtain ⟨hbmem, hidx⟩ := h4 a hamem b hedge
    rw [hlrev, indexOf_reverse_nodup r2 h2 a hamem,
      indexOf_reverse_nodup r2 h2 b hbmem]
    have hia : r2.indexOf a < r2.length := List.indexOf_lt_length.mpr hamem
    have hib : r2.indexOf b < r2.length := List.indexOf_lt_length.mpr hbmem
    omega
  · exact dn

/-- A successful Kahn run certifies acyclicity (used to discharge the DAG
hypothesis on concrete inputs). -/
theorem acyclic_of_kahn_some {g : List (List Nat)} {n : Nat} {l : List Nat}
    (hg : GraphOK g n) (h : topological_sort_kahn g n = some l) :
    ¬ HasCycle g := by
  obtain ⟨ks, _⟩ := topological_sort_kahn_spec hg
  obtain ⟨_, hresp⟩ := ks l h
  exact not_hasCycle_of_topo l hresp

/-- C1: on a DAG, both topological-sort strategies succeed, each returning a
sequence containing all `n` vertices in which, for every edge `(a, b)`, `a`
appears before `b`. -/
theorem C1_topological_sort_valid (g : List (List Nat)) (n : Nat)
    (hg : GraphOK g n) (hacyc : ¬ HasCycle g) :
    (∃ l, topological_sort_dfs g n = some l ∧ l.Perm (List.range n) ∧
      ∀ a b, b ∈ g.getD a [] → l.indexOf a < l.indexOf b) ∧
    (∃ l, topological_sort_kahn g n = some l ∧ l.Perm (List.range n) ∧
      ∀ a b, b ∈ g.getD a [] → l.indexOf a < l.indexOf b) := by
  obtain ⟨ds, dn⟩ := topological_sort_dfs_spec hg
  obtain ⟨ks, kn⟩ := topological_sort_kahn_spec hg
  constructor
  · cases hd : topological_sort_dfs g n with
    | none => exact absurd (dn hd) hacyc
    | some l =>
      obtain ⟨h1, h2⟩ := ds l hd
      exact ⟨l, rfl, h1, h2⟩
  · cases hk : topological_sort_kahn g n with
    | none => exact absurd (kn hk) hacyc
    | some l =>
      obtain ⟨h1, h2⟩ := ks l hk
      exact ⟨l, rfl, h1, h2⟩

/-- Witness for C1 on the concrete DAG `0 → 1`. -/
theorem C1_topological_sort_valid_witness :
    ∃ l, topological_sort_dfs [[1], []] 2 = some l ∧ l.Perm (List.range 2) ∧
      ∀ a b, b ∈ [[1], []].getD a [] → l.indexOf a < l.indexOf b :=
  (C1_topological_sort_valid [[1], []] 2 (by decide)
    (acyclic_of_kahn_some (n := 2) (by decide)
      (by decide : topological_sort_kahn [[1], []] 2 = some [0, 1]))).1

theorem kahn_none_iff_hasCycle {g : List (List Nat)} {n : Nat}
    (hg : GraphOK g n) :
    topological_sort_kahn g n = none ↔ HasCycle g := by
  obtain ⟨ks, kn⟩ := topological_sort_kahn_spec hg
  constructor
  · exact kn
  · intro hcyc
    cases hk : topological_sort_kahn g n with
    | none => rfl
    | some l =>
      obtain ⟨_, hresp⟩ := ks l hk
      exact absurd hcyc (not_hasCycle_of_topo l hresp)

theorem dfs_none_iff_hasCycle {g : List (List Nat)} {n : Nat}
    (hg : GraphOK g n) :
    topological_sort_dfs g n = none ↔ HasCycle g := by
  obtain ⟨ds, dn⟩ := topological_sort_dfs_spec hg
  constructor
  · exact dn
  · intro hcyc
    cases hd : topological_sort_dfs g n with
    | none => rfl
    | some l =>
      obtain ⟨_, hresp⟩ := ds l hd
      exact absurd hcyc (not_hasCycle_of_topo l hresp)

/-- C2: for every well-formed graph, the DFS topological sort fails if and
only if Kahn's algorithm fails, and both fail if and only if the graph
contains a directed cycle. -/
theorem C2_cycle_detection_agreement (g : List (List Nat)) (n : Nat)
    (hg : GraphOK g n) :
    (topological_sort_dfs g n = none ↔ topological_sort_kahn g n = none) ∧
    (topological_sort_kahn g n = none ↔ HasCycle g) :=
  ⟨(dfs_none_iff_hasCycle hg).trans (kahn_none_iff_hasCycle hg).symm,
    kahn_none_iff_hasCycle hg⟩

/-- Witness for C2 on the concrete 3-cycle. -/
theorem C2_cycle_detection_agreement_witness :
    topological_sort_dfs [[1], [2], [0]] 3 = none :=
  (C2_cycle_detection_agreement [[1], [2], [0]] 3 (by decide)).1.mpr (by decide)

/-- C6: on a cyclic graph both topological sorts return the explicit failure
value (`none`), and any successfully returned sequence is complete — a
permutation of all `n` vertices, never a shorter partial order. -/
theorem C6_failure_is_explicit_and_total (g : List (List Nat)) (n : Nat)
    (hg : GraphOK g n) :
    (HasCycle g →
      topological_sort_dfs g n = none ∧ topological_sort_kahn g n = none) ∧
    (∀ l, topological_sort_dfs g n = some l →
      l.Perm (List.range n) ∧ l.length = n) ∧
    (∀ l, topological_sort_kahn g n = some l →
      l.Perm (List.range n) ∧ l.length = n) := by
  obtain ⟨ds, _⟩ := topological_sort_dfs_spec hg
  obtain ⟨ks, _⟩ := topological_sort_kahn_spec hg
  refine ⟨?_, ?_, ?_⟩
  · intro hcyc
    exact ⟨(dfs_none_iff_hasCycle hg).mpr hcyc,
      (kahn_none_iff_hasCycle hg).mpr hcyc⟩
  · intro l hl
    obtain ⟨hperm, _⟩ := ds l hl
    exact ⟨hperm, by rw [hperm.length_eq, List.length_range]⟩
  · intro l hl
    obtain ⟨hperm, _⟩ := ks l hl
    exact ⟨hperm, by rw [hperm.length_eq, List.length_range]⟩

/-- Witness for C6 on the concrete 3-cycle (the cycle certificate comes from
the Kahn specification at this input). -/
theorem C6_failure_is_explicit_and_total_witness :
    topological_sort_dfs [[1], [2], [0]] 3 = none ∧
    topological_sort_kahn [[1], [2], [0]] 3 = none :=
  (C6_failure_is_explicit_and_total [[1], [2], [0]] 3 (by decide)).1
    ((topological_sort_kahn_spec (g := [[1], [2], [0]]) (n := 3) (by decide)).2
      (by decide))

/-! ## In-bounds safety (C10): the bound-checking variants never fail -/

theorem adj_mem_lt {g : List (List Nat)} {n : Nat}
    (hadj : ∀ l ∈ g, ∀ u ∈ l, u < n) {v u : Nat} (hu : u ∈ g.getD v []) :
    u < n := by
  rcases lt_or_ge v g.length with h | h
  · rw [List.getD_eq_getElem g [] h] at hu
    exact hadj _ (List.getElem_mem h) u hu
  · rw [getD_of_length_le g v [] h] at hu
    simp at hu

theorem bfsScan_fst_length :
    ∀ (adj : List Nat) (visited : List Bool),
      (bfsScan visited adj).1.length = visited.length
  | [], _ => rfl
  | u :: adj, visited => by
    simp only [bfsScan]
    split
    · exact bfsScan_fst_length adj visited
    · rw [bfsScan_fst_length adj (visited.set u true)]
      simp

theorem bfsScan_snd_mem :
    ∀ (adj : List Nat) (visited : List Bool) (u : Nat),
      u ∈ (bfsScan visited adj).2 → u ∈ adj
  | [], visited, u => by simp [bfsScan]
  | w :: adj, visited, u => by
    simp only [bfsScan]
    split
    · intro h
      exact List.mem_cons_of_mem w (bfsScan_snd_mem adj visited u h)
    · intro h
      rcases List.mem_cons.mp h with heq | h2
      · rw [heq]; exact List.mem_cons_self w adj
      · exact List.mem_cons_of_mem w (bfsScan_snd_mem adj _ u h2)

theorem bfsScanChecked_eq :
    ∀ (adj : List Nat) (visited : List Bool),
      (∀ u ∈ adj, u < visited.length) →
      bfsScanChecked visited adj = some (bfsScan visited adj)
  | [], _, _ => rfl
  | u :: adj, visited, h => by
    have hu : u < visited.length := h u (List.mem_cons_self u adj)
    simp only [bfsScanChecked, bfsScan]
    rw [if_pos hu]
    split
    · exact bfsScanChecked_eq adj visited
        (fun w hw => h w (List.mem_cons_of_mem u hw))
    · rw [bfsScanChecked_eq adj (visited.set u true)
        (fun w hw => by
          rw [List.length_set]; exact h w (List.mem_cons_of_mem u hw))]

theorem bfsLoop_fst_length (g : List (List Nat)) :
    ∀ (fuel : Nat) (visited : List Bool) (queue order : List Nat),
      (bfsLoop g fuel visited queue order).1.length = visited.length
  | 0, _, _, _ => rfl
  | _ + 1, _, [], _ => rfl
  | fuel + 1, visited, v :: rest, order => by
    simp only [bfsLoop]
    rw [bfsLoop_fst_length g fuel]
    exact bfsScan_fst_length _ _

theorem bfsLoopChecked_eq {g : List (List Nat)} {n : Nat}
    (hn : n ≤ g.length) (hadj : ∀ l ∈ g, ∀ u ∈ l, u < n) :
    ∀ (fuel : Nat) (visited : List Bool) (queue order : List Nat),
      visited.length = n → (∀ v ∈ queue, v < n) →
      bfsLoopChecked g fuel visited queue order =
        some (bfsLoop g fuel visited queue order)
  | 0, _, _, _, _, _ => rfl
  | _ + 1, _, [], _, _, _ => rfl
  | fuel + 1, visited, v :: rest, order, hlen, hq => by
    have hv : v < g.length :=
      lt_of_lt_of_le (hq v (List.mem_cons_self v rest)) hn
    simp only [bfsLoopChecked, bfsLoop]
    rw [if_pos hv, bfsScanChecked_eq (g.getD v []) visited
      (fun u hu => by rw [hlen]; exact adj_mem_lt hadj hu)]
    exact bfsLoopChecked_eq hn hadj fuel _ _ _
      (by rw [bfsScan_fst_length]; exact hlen)
      (fun w hw => by
        rcases List.mem_append.mp hw with h1 | h2
        · exact hq w (List.mem_cons_of_mem v h1)
        · exact adj_mem_lt hadj (bfsScan_snd_mem _ _ _ h2))

theorem bfs_undirected_checked_eq {g : List (List Nat)} {n : Nat}
    (hn : n ≤ g.length) (hadj : ∀ l ∈ g, ∀ u ∈ l, u < n)
    {start : Nat} (hstart : start < n) :
    bfs_undirected_checked g start n = some (bfs_undirected g start n) := by
  unfold bfs_undirected_checked bfs_undirected
  rw [if_pos hstart, bfsLoopChecked_eq hn hadj n _ _ _ (by simp)
    (fun v hv => by rw [List.mem_singleton] at hv; rw [hv]; exact hstart)]

theorem bfsAllLoopChecked_eq {g : List (List Nat)} {n : Nat}
    (hn : n ≤ g.length) (hadj : ∀ l ∈ g, ∀ u ∈ l, u < n) :
    ∀ (starts : List Nat) (visited : List Bool) (order : List Nat),
      (∀ s ∈ starts, s < n) → visited.length = n →
      bfsAllLoopChecked g n starts visited order =
        some (bfsAllLoop g n starts visited order)
  | [], _, _, _, _ => rfl
  | start :: starts, visited, order, hs, hlen => by
    have h0 : start < n := hs start (List.mem_cons_self start starts)
    simp only [bfsAllLoopChecked, bfsAllLoop]
    rw [if_pos (show start < visited.length by omega)]
    split
    · exact bfsAllLoopChecked_eq hn hadj starts visited order
        (fun w hw => hs w (List.mem_cons_of_mem start hw)) hlen
    · rw [bfsLoopChecked_eq hn hadj n _ _ _
        (by rw [List.length_set]; exact hlen)
        (fun v hv => by rw [List.mem_singleton] at hv; rw [hv]; exact h0)]
      exact bfsAllLoopChecked_eq hn hadj starts _ _
        (fun w hw => hs w (List.mem_cons_of_mem start hw))
        (by rw [bfsLoop_fst_length, List.length_set]; exact hlen)

theorem bfs_undirected_all_components_checked_eq {g : List (List Nat)}
    {n : Nat} (hn : n ≤ g.length) (hadj : ∀ l ∈ g, ∀ u ∈ l, u < n) :
    bfs_undirected_all_components_checked g n =
      some (bfs_undirected_all_components g n) := by
  unfold bfs_undirected_all_components_checked bfs_undirected_all_components
  rw [bfsAllLoopChecked_eq hn hadj (List.range n) _ _
    (fun s hs => List.mem_range.mp hs) (by simp)]

theorem dfsPushChecked_eq (visited : List Bool) :
    ∀ (us st : List Nat), (∀ u ∈ us, u < visited.length) →
      dfsPushChecked visited us st =
        some (us.foldl (fun s u => if visited.getD u true then s else u :: s) st)
  | [], _, _ => rfl
  | u :: us, st, h => by
    simp only [dfsPushChecked, List.foldl_cons]
    rw [if_pos (h u (List.mem_cons_self u us))]
    exact dfsPushChecked_eq visited us _
      (fun w hw => h w (List.mem_cons_of_mem u hw))

theorem dfsPush_mem (visited : List Bool) :
    ∀ (us st : List Nat) (w : Nat),
      w ∈ us.foldl (fun s u => if visited.getD u true then s else u :: s) st →
      w ∈ st ∨ w ∈ us
  | [], _, _ => fun h => Or.inl h
  | u :: us, st, w => by
    simp only [List.foldl_cons]
    intro h
    rcases dfsPush_mem visited us _ w h with h1 | h2
    · by_cases hv : visited.getD u true
      · rw [if_pos hv] at h1
        exact Or.inl h1
      · rw [if_neg hv] at h1
        rcases List.mem_cons.mp h1 with heq | h3
        · exact Or.inr (by rw [heq]; exact List.mem_cons_self u us)
        · exact Or.inl h3
    · exact Or.inr (List.mem_cons_of_mem u h2)

theorem dfsLoopChecked_eq {g : List (List Nat)} {n : Nat}
    (hn : n ≤ g.length) (hadj : ∀ l ∈ g, ∀ u ∈ l, u < n) :
    ∀ (fuel : Nat) (visited : List Bool) (stack order : List Nat),
      visited.length = n → (∀ v ∈ stack, v < n) →
      dfsLoopChecked g fuel visited stack order =
        some (dfsLoop g fuel visited stack order)
  | 0, _, _, _, _, _ => rfl
  | _ + 1, _, [], _, _, _ => rfl
  | fuel + 1, visited, v :: rest, order, hlen, hst => by
    have hv : v < n := hst v (List.mem_cons_self v rest)
    simp only [dfsLoopChecked, dfsLoop]
    rw [if_pos (show v < visited.length by omega)]
    split
    · exact dfsLoopChecked_eq hn hadj fuel visited rest order hlen
        (fun w hw => hst w (List.mem_cons_of_mem v hw))
    · rw [if_pos (show v < g.length by omega),
        dfsPushChecked_eq (visited.set v true) (g.getD v []).reverse rest
          (fun u hu => by
            rw [List.length_set, hlen]
            exact adj_mem_lt hadj (List.mem_reverse.mp hu))]
      exact dfsLoopChecked_eq hn hadj fuel _ _ _
        (by rw [List.length_set]; exact hlen)
        (fun w hw => by
          rcases dfsPush_mem (visited.set v true) _ _ w hw with h1 | h2
          · exact hst w (List.mem_cons_of_mem v h1)
          · exact adj_mem_lt hadj (List.mem_reverse.mp h2))

theorem dfs_undirected_iterative_checked_eq {g : List (List Nat)} {n : Nat}
    (hn : n ≤ g.length) (hadj : ∀ l ∈ g, ∀ u ∈ l, u < n)
    {start : Nat} (hstart : start < n) :
    dfs_undirected_iterative_checked g start n =
      some (dfs_undirected_iterative g start n) := by
  unfold dfs_undirected_iterative_checked dfs_undirected_iterative
  rw [dfsLoopChecked_eq hn hadj _ _ _ _ (by simp)
    (fun v hv => by rw [List.mem_singleton] at hv; rw [hv]; exact hstart)]

theorem dfsScan_fst_length
    (f : Nat → List Bool → List Nat → List Bool × List Nat)
    (hf : ∀ u visited order, (f u visited order).1.length = visited.length) :
    ∀ (adj : List Nat) (visited : List Bool) (order : List Nat),
      (dfsScan f adj visited order).1.length = visited.length
  | [], _, _ => rfl
  | u :: adj, visited, order => by
    simp only [dfsScan]
    split
    · exact dfsScan_fst_length f hf adj visited order
    · rw [dfsScan_fst_length f hf adj]
      exact hf u visited order

theorem dfsRec_fst_length (g : List (List Nat)) :
    ∀ (fuel start : Nat) (visited : List Bool) (order : List Nat),
      (dfsRec g fuel start visited order).1.length = visited.length
  | 0, start, visited, order => by simp [dfsRec]
  | fuel + 1, start, visited, order => by
    simp only [dfsRec]
    rw [dfsScan_fst_length (dfsRec g fuel)
      (fun u v o => dfsRec_fst_length g fuel u v o)]
    simp

theorem dfsScanChecked_eq {n : Nat}
    (f : Nat → List Bool → List Nat → List Bool × List Nat)
    (fc : Nat → List Bool → List Nat → Option (List Bool × List Nat))
    (hflen : ∀ u visited order, (f u visited order).1.length = visited.length)
    (hfc : ∀ (u : Nat) (visited : List Bool) (order : List Nat),
      u < n → visited.length = n → fc u visited order = some (f u visited order)) :
    ∀ (adj : List Nat) (visited : List Bool) (order : List Nat),
      (∀ u ∈ adj, u < n) → visited.length = n →
      dfsScanChecked fc adj visited order = some (dfsScan f adj visited order)
  | [], _, _, _, _ => rfl
  | u :: adj, visited, order, ha, hlen => by
    have hu : u < n := ha u (List.mem_cons_self u adj)
    simp only [dfsScanChecked, dfsScan]
    rw [if_pos (show u < visited.length by omega)]
    split
    · exact dfsScanChecked_eq f fc hflen hfc adj visited order
        (fun w hw => ha w (List.mem_cons_of_mem u hw)) hlen
    · rw [hfc u visited order hu hlen]
      exact dfsScanChecked_eq f fc hflen hfc adj _ _
        (fun w hw => ha w (List.mem_cons_of_mem u hw))
        (by rw [hflen]; exact hlen)

theorem dfsRecChecked_eq {g : List (List Nat)} {n : Nat}
    (hn : n ≤ g.length) (hadj : ∀ l ∈ g, ∀ u ∈ l, u < n) :
    ∀ (fuel start : Nat) (visited : List Bool) (order : List Nat),
      start < n → visited.length = n →
      dfsRecChecked g fuel start visited order =
        some (dfsRec g fuel start visited order)
  | 0, _, _, _, _, _ => rfl
  | fuel + 1, start, visited, order, hstart, hlen => by
    simp only [dfsRecChecked, dfsRec]
    rw [if_pos (show start < visited.length by omega),
      if_pos (show start < g.length by omega)]
    exact dfsScanChecked_eq (dfsRec g fuel) (dfsRecChecked g fuel)
      (fun u v o => dfsRec_fst_length g fuel u v o)
      (fun u v o hu hv => dfsRecChecked_eq hn hadj fuel u v o hu hv)
      (g.getD start []) _ _
      (fun u hu => adj_mem_lt hadj hu)
      (by rw [List.length_set]; exact hlen)

theorem dfsAllLoopChecked_eq {g : List (List Nat)} {n : Nat}
    (hn : n ≤ g.length) (hadj : ∀ l ∈ g, ∀ u ∈ l, u < n) :
    ∀ (starts : List Nat) (visited : List Bool) (order : List Nat),
      (∀ s ∈ starts, s < n) → visited.length = n →
      dfsAllLoopChecked g starts visited order =
        some (dfsAllLoop g starts visited order)
  | [], _, _, _, _ => rfl
  | start :: starts, visited, order, hs, hlen => by
    have h0 : start < n := hs start (List.mem_cons_self start starts)
    simp only [dfsAllLoopChecked, dfsAllLoop]
    rw [if_pos (show start < visited.length by omega)]
    split
    · exact dfsAllLoopChecked_eq hn hadj starts visited order
        (fun w hw => hs w (List.mem_cons_of_mem start hw)) hlen
    · rw [dfsRecChecked_eq hn hadj (countFalse visited + 1) start visited order
        h0 hlen]
      exact dfsAllLoopChecked_eq hn hadj starts _ _
        (fun w hw => hs w (List.mem_cons_of_mem start hw))
        (by rw [dfsRec_fst_length]; exact hlen)

theorem dfs_undirected_all_components_checked_eq {g : List (List Nat)}
    {n : Nat} (hn : n ≤ g.length) (hadj : ∀ l ∈ g, ∀ u ∈ l, u < n) :
    dfs_undirected_all_components_checked g n =
      some (dfs_undirected_all_components g n) := by
  unfold dfs_undirected_all_components_checked dfs_undirected_all_components
  rw [dfsAllLoopChecked_eq hn hadj (List.range n) _ _
    (fun s hs => List.mem_range.mp hs) (by simp)]

theorem topoScan_some_length
    (f : Nat → List Nat → List Nat → Option (List Nat × List Nat))
    (hf : ∀ u color result s, f u color result = some s →
      s.1.length = color.length) :
    ∀ (adj color result : List Nat) (s : List Nat × List Nat),
      topoScan f adj color result = some s → s.1.length = color.length
  | [], color, result, s => by
    simp only [topoScan]
    intro h
    cases h
    rfl
  | u :: adj, color, result, s => by
    simp only [topoScan]
    split
    · intro h; simp at h
    · split
      · cases hm : f u color result with
        | none => intro h; simp at h
        | some s2 =>
          intro h
          exact (topoScan_some_length f hf adj s2.1 s2.2 s h).trans
            (hf u color result s2 hm)
      · exact topoScan_some_length f hf adj color result s

theorem topoVisit_some_length (g : List (List Nat)) :
    ∀ (fuel v : Nat) (color result : List Nat) (s : List Nat × List Nat),
      topoVisit g fuel v color result = some s → s.1.length = color.length
  | 0, v, color, result, s => by intro h; simp [topoVisit] at h
  | fuel + 1, v, color, result, s => by
    simp only [topoVisit]
    cases hm : topoScan (topoVisit g fuel) (g.getD v []) (color.set v 1) result with
    | none => intro h; simp at h
    | some s2 =>
      intro h
      have h1 : s2.1.length = (color.set v 1).length :=
        topoScan_some_length (topoVisit g fuel)
          (fun u c r t ht => topoVisit_some_length g fuel u c r t ht)
          (g.getD v []) (color.set v 1) result s2 hm
      cases h
      rw [List.length_set, h1, List.length_set]

theorem topoScanChecked_eq {n : Nat}
    (f : Nat → List Nat → List Nat → Option (List Nat × List Nat))
    (fc : Nat → List Nat → List Nat → Option (Option (List Nat × List Nat)))
    (hflen : ∀ u color result s, f u color result = some s →
      s.1.length = color.length)
    (hfc : ∀ (u : Nat) (color result : List Nat), u < n → color.length = n →
      fc u color result = some (f u color result)) :
    ∀ (adj color result : List Nat),
      (∀ u ∈ adj, u < n) → color.length = n →
      topoScanChecked fc adj color result = some (topoScan f adj color result)
  | [], _, _, _, _ => rfl
  | u :: adj, color, result, ha, hlen => by
    have hu : u < n := ha u (List.mem_cons_self u adj)
    simp only [topoScanChecked, topoScan]
    rw [if_pos (show u < color.length by omega)]
    split
    · rfl
    · split
      · rw [hfc u color result hu hlen]
        cases hm : f u color result with
        | none => rfl
        | some s2 =>
          exact topoScanChecked_eq f fc hflen hfc adj s2.1 s2.2
            (fun w hw => ha w (List.mem_cons_of_mem u hw))
            (by rw [hflen u color result s2 hm]; exact hlen)
      · exact topoScanChecked_eq f fc hflen hfc adj color result
          (fun w hw => ha w (List.mem_cons_of_mem u hw)) hlen

theorem topoVisitChecked_eq {g : List (List Nat)} {n : Nat}
    (hn : n ≤ g.length) (hadj : ∀ l ∈ g, ∀ u ∈ l, u < n) :
    ∀ (fuel v : Nat) (color result : List Nat),
      v < n → color.length = n →
      topoVisitChecked g fuel v color result =
        some (topoVisit g fuel v color result)
  | 0, _, _, _, _, _ => rfl
  | fuel + 1, v, color, result, hv, hlen => by
    simp only [topoVisitChecked, topoVisit]
    rw [if_pos (show v < color.length by omega),
      if_pos (show v < g.length by omega),
      topoScanChecked_eq (topoVisit g fuel) (topoVisitChecked g fuel)
        (fun u c r s hs => topoVisit_some_length g fuel u c r s hs)
        (fun u c r hu hc => topoVisitChecked_eq hn hadj fuel u c r hu hc)
        (g.getD v []) (color.set v 1) result
        (fun u hu => adj_mem_lt hadj hu)
        (by rw [List.length_set]; exact hlen)]
    cases hm : topoScan (topoVisit g fuel) (g.getD v []) (color.set v 1) result with
    | none => rfl
    | some s2 =>
      dsimp only
      rw [if_pos (show v < s2.1.length by
        rw [topoScan_some_length (topoVisit g fuel)
          (fun u c r s hs => topoVisit_some_length g fuel u c r s hs)
          (g.getD v []) (color.set v 1) result s2 hm, List.length_set]
        omega)]

theorem topoLoopChecked_eq {g : List (List Nat)} {n : Nat}
    (hn : n ≤ g.length) (hadj : ∀ l ∈ g, ∀ u ∈ l, u < n) :
    ∀ (starts color result : List Nat),
      (∀ s ∈ starts, s < n) → color.length = n →
      topoLoopChecked g starts color result =
        some (topoLoop g starts color result)
  | [], _, _, _, _ => rfl
  | start :: starts, color, result, hs, hlen => by
    have h0 : start < n := hs start (List.mem_cons_self start starts)
    simp only [topoLoopChecked, topoLoop]
    rw [if_pos (show start < color.length by omega)]
    split
    · rw [topoVisitChecked_eq hn hadj (countWhite color + 1) start color result
        h0 hlen]
      cases hm : topoVisit g (countWhite color + 1) start color result with
      | none => rfl
      | some s2 =>
        exact topoLoopChecked_eq hn hadj starts s2.1 s2.2
          (fun w hw => hs w (List.mem_cons_of_mem start hw))
          ((topoVisit_some_length g _ _ _ _ s2 hm).trans hlen)
    · exact topoLoopChecked_eq hn hadj starts color result
        (fun w hw => hs w (List.mem_cons_of_mem start hw)) hlen

theorem topological_sort_dfs_checked_eq {g : List (List Nat)} {n : Nat}
    (hn : n ≤ g.length) (hadj : ∀ l ∈ g, ∀ u ∈ l, u < n) :
    topological_sort_dfs_checked g n = some (topological_sort_dfs g n) := by
  unfold topological_sort_dfs_checked topological_sort_dfs
  exact topoLoopChecked_eq hn hadj (List.range n) _ _
    (fun s hs => List.mem_range.mp hs) (by simp)

theorem inDegScan_length :
    ∀ (adj : List Nat) (d : List Int), (inDegScan d adj).length = d.length
  | [], _ => rfl
  | u :: adj, d => by
    simp only [inDegScan]
    rw [inDegScan_length adj]
    simp

theorem inDegScanChecked_eq :
    ∀ (adj : List Nat) (d : List Int),
      (∀ u ∈ adj, u < d.length) →
      inDegScanChecked d adj = some (inDegScan d adj)
  | [], _, _ => rfl
  | u :: adj, d, h => by
    simp only [inDegScanChecked, inDegScan]
    rw [if_pos (h u (List.mem_cons_self u adj))]
    exact inDegScanChecked_eq adj _
      (fun w hw => by
        rw [List.length_set]; exact h w (List.mem_cons_of_mem u hw))

theorem inDegLoop_length (g : List (List Nat)) :
    ∀ (vs : List Nat) (d : List Int), (inDegLoop g vs d).length = d.length
  | [], _ => rfl
  | v :: vs, d => by
    simp only [inDegLoop]
    rw [inDegLoop_length g vs, inDegScan_length]

theorem inDegLoopChecked_eq {g : List (List Nat)} {n : Nat}
    (hn : n ≤ g.length) (hadj : ∀ l ∈ g, ∀ u ∈ l, u < n) :
    ∀ (vs : List Nat) (d : List Int),
      (∀ v ∈ vs, v < n) → d.length = n →
      inDegLoopChecked g vs d = some (inDegLoop g vs d)
  | [], _, _, _ => rfl
  | v :: vs, d, hv, hlen => by
    have h0 : v < n := hv v (List.mem_cons_self v vs)
    simp only [inDegLoopChecked, inDegLoop]
    rw [if_pos (show v < g.length by omega),
      inDegScanChecked_eq (g.getD v []) d
        (fun u hu => by rw [hlen]; exact adj_mem_lt hadj hu)]
    exact inDegLoopChecked_eq hn hadj vs _
      (fun w hw => hv w (List.mem_cons_of_mem v hw))
      (by rw [inDegScan_length]; exact hlen)

theorem kahnScan_fst_length :
    ∀ (adj : List Nat) (deg : List Int),
      (kahnScan deg adj).1.length = deg.length
  | [], _ => rfl
  | u :: adj, deg => by
    simp only [kahnScan]
    rw [kahnScan_fst_length adj]
    simp

theorem kahnScan_snd_mem :
    ∀ (adj : List Nat) (deg : List Int) (u : Nat),
      u ∈ (kahnScan deg adj).2 → u ∈ adj
  | [], deg, u => by simp [kahnScan]
  | w :: adj, deg, u => by
    intro h
    simp only [kahnScan] at h
    split at h
    · rcases List.mem_cons.mp h with heq | h2
      · rw [heq]; exact List.mem_cons_self w adj
      · exact List.mem_cons_of_mem w (kahnScan_snd_mem adj _ u h2)
    · exact List.mem_cons_of_mem w (kahnScan_snd_mem adj _ u h)

theorem kahnScanChecked_eq :
    ∀ (adj : List Nat) (deg : List Int),
      (∀ u ∈ adj, u < deg.length) →
      kahnScanChecked deg adj = some (kahnScan deg adj)
  | [], _, _ => rfl
  | u :: adj, deg, h => by
    simp only [kahnScanChecked, kahnScan]
    rw [if_pos (h u (List.mem_cons_self u adj)),
      kahnScanChecked_eq adj (deg.set u (deg.getD u 0 - 1))
        (fun w hw => by
          rw [List.length_set]; exact h w (List.mem_cons_of_mem u hw))]

theorem kahnLoopChecked_eq {g : List (List Nat)} {n : Nat}
    (hn : n ≤ g.length) (hadj : ∀ l ∈ g, ∀ u ∈ l, u < n) :
    ∀ (fuel : Nat) (deg : List Int) (pending result : List Nat),
      deg.length = n → (∀ v ∈ pending, v < n) →
      kahnLoopChecked g fuel deg pending result =
        some (kahnLoop g fuel deg pending result)
  | 0, _, _, _, _, _ => rfl
  | _ + 1, _, [], _, _, _ => rfl
  | fuel + 1, deg, v :: pending, result, hlen, hp => by
    have hv : v < n := hp v (List.mem_cons_self v pending)
    simp only [kahnLoopChecked, kahnLoop]
    rw [if_pos (show v < g.length by omega),
      kahnScanChecked_eq (g.getD v []) deg
        (fun u hu => by rw [hlen]; exact adj_mem_lt hadj hu)]
    exact kahnLoopChecked_eq hn hadj fuel _ _ _
      (by rw [kahnScan_fst_length]; exact hlen)
      (fun w hw => by
        rcases List.mem_append.mp hw with h1 | h2
        · exact hp w (List.mem_cons_of_mem v h1)
        · exact adj_mem_lt hadj (kahnScan_snd_mem _ _ _ h2))

theorem topological_sort_kahn_checked_eq {g : List (List Nat)} {n : Nat}
    (hn : n ≤ g.length) (hadj : ∀ l ∈ g, ∀ u ∈ l, u < n) :
    topological_sort_kahn_checked g n = some (topological_sort_kahn g n) := by
  have hdlen : (inDegLoop g (List.range n) (List.replicate n (0 : Int))).length
      = n := by
    rw [inDegLoop_length]; simp
  have hall : (List.range n).all (fun v => decide
      (v < (inDegLoop g (List.range n) (List.replicate n (0 : Int))).length))
      = true := by
    rw [List.all_eq_true]
    intro v hv
    rw [decide_eq_true_eq, hdlen]
    exact List.mem_range.mp hv
  simp only [topological_sort_kahn_checked, topological_sort_kahn, inDegree]
  rw [inDegLoopChecked_eq hn hadj (List.range n) _
    (fun v hv => List.mem_range.mp hv) (by simp)]
  dsimp only
  rw [if_pos hall,
    kahnLoopChecked_eq hn hadj n _ _ []
      hdlen
      (fun v hv => List.mem_range.mp (List.mem_of_mem_filter hv))]

/-- C10: under the documented preconditions (`start < n`, at least `n`
adjacency lists, every neighbor index below `n`) no engine operation ever
indexes out of range: for BFS, iterative DFS, both all-components drivers
and both topological sorts, the bound-checking variant — which returns
`none` the moment any Python list access would raise `IndexError` —
succeeds and returns exactly the unchecked embedding's result. -/
theorem C10_in_bounds_safety (g : List (List Nat)) (n start : Nat)
    (hn : n ≤ g.length) (hadj : ∀ l ∈ g, ∀ u ∈ l, u < n)
    (hstart : start < n) :
    bfs_undirected_checked g start n = some (bfs_undirected g start n) ∧
    dfs_undirected_iterative_checked g start n =
      some (dfs_undirected_iterative g start n) ∧
    bfs_undirected_all_components_checked g n =
      some (bfs_undirected_all_components g n) ∧
    dfs_undirected_all_components_checked g n =
      some (dfs_undirected_all_components g n) ∧
    topological_sort_dfs_checked g n = some (topological_sort_dfs g n) ∧
    topological_sort_kahn_checked g n = some (topological_sort_kahn g n) :=
  ⟨bfs_undirected_checked_eq hn hadj hstart,
   dfs_undirected_iterative_checked_eq hn hadj hstart,
   bfs_undirected_all_components_checked_eq hn hadj,
   dfs_undirected_all_components_checked_eq hn hadj,
   topological_sort_dfs_checked_eq hn hadj,
   topological_sort_kahn_checked_eq hn hadj⟩

/-- Witness for C10 at the two-vertex graph with the single edge 0 → 1. -/
theorem C10_in_bounds_safety_witness :
    bfs_undirected_checked [[1], []] 0 2 = some (bfs_undirected [[1], []] 0 2) ∧
    dfs_undirected_iterative_checked [[1], []] 0 2 =
      some (dfs_undirected_iterative [[1], []] 0 2) ∧
    bfs_undirected_all_components_checked [[1], []] 2 =
      some (bfs_undirected_all_components [[1], []] 2) ∧
    dfs_undirected_all_components_checked [[1], []] 2 =
      some (dfs_undirected_all_components [[1], []] 2) ∧
    topological_sort_dfs_checked [[1], []] 2 =
      some (topological_sort_dfs [[1], []] 2) ∧
    topological_sort_kahn_checked [[1], []] 2 =
      some (topological_sort_kahn [[1], []] 2) :=
  C10_in_bounds_safety [[1], []] 2 0 (by decide) (by decide) (by decide)

end Hards
